import Mathlib

/-!
Netpbm codec of gpumatting (`src/ppm.h`).

A shallow embedding of the PGM/PPM readers, writers and converters of `ppm.h`.

Modelling conventions.

* A file, a stdio stream and a `char` buffer are lists of bytes (`Nat`, each below 256).
  A stream is the list of bytes not yet consumed.
* `int` is `Int` restricted to `[INT_MIN, INT_MAX]`.  Signed overflow and a scanned
  numeral that does not fit an `int` are undefined behaviour in C; every function that
  can reach one has an explicit `undefined` outcome for it.
* `float` values are exact rationals (`ℚ`).
* `exit(1)` is an outcome of its own, distinct from returning `NULL`.
* Memory allocation of a representable size succeeds; `calloc(0, _)` and `malloc(0)`
  return a non-null empty block (as in glibc).  `sizeof(unsigned char*)` is 8.
* The out-parameters `*w`, `*h`, `*maxval` have initial contents chosen by the caller;
  they are inputs (`w0`, `h0`, `m0`) of the embedded functions.
-/

namespace Ppm

/-! ## C library primitives -/

def INT_MAX : Int := 2147483647

def INT_MIN : Int := -2147483648

/-- Whether a mathematical integer is representable as a C `int`. -/
def inIntRange (v : Int) : Bool := decide (INT_MIN ≤ v) && decide (v ≤ INT_MAX)

/-- Multiplication of two `int`s; `none` is signed overflow (undefined behaviour). -/
def mulInt (a b : Int) : Option Int :=
  if inIntRange (a * b) then some (a * b) else none

/-- Conversion `(unsigned char)v` of an `int`: reduction modulo 256. -/
def toUChar (v : Int) : Nat := (v % 256).toNat

/-- The function `isspace` of the C locale: space, and `\t \n \v \f \r`. -/
def isspace (c : Nat) : Bool := c == 32 || (decide (9 ≤ c) && decide (c ≤ 13))

/-- The function `isdigit`: the characters `0` to `9`. -/
def isdigit (c : Nat) : Bool := decide (48 ≤ c) && decide (c ≤ 57)

/-- The C string held in a `char` array: the bytes before the first NUL. -/
def cstr (buf : List Nat) : List Nat := buf.takeWhile (fun c => c != 0)

/-- The test `strncmp(a, b, n) != 0`: the two C strings differ within their first
`n` characters. -/
def strncmp (a b : List Nat) (n : Nat) : Bool :=
  decide ((cstr a).take n ≠ (cstr b).take n)

/-- Characters `fgets` stores when there is room for `n` more: it stops after a newline,
at the end of the stream, or when the room is used up.  Returns the characters read and
the rest of the stream. -/
def fgetsAux : Nat → List Nat → List Nat × List Nat
  | 0, s => ([], s)
  | _ + 1, [] => ([], [])
  | n + 1, c :: s =>
    if c = 10 then ([c], s)
    else ((c :: (fgetsAux n s).1), (fgetsAux n s).2)

/-- The call `fgets(line, size, file)` on a stream: `none` is the `NULL` result (end of
file before any character was read); otherwise the line read (at most `size - 1`
characters) and the rest of the stream. -/
def fgets (size : Nat) (s : List Nat) : Option (List Nat × List Nat) :=
  match s with
  | [] => none
  | _ :: _ => some (fgetsAux (size - 1) s)

/-- Value of a run of decimal digit characters. -/
def digitsValue (ds : List Nat) : Nat :=
  ds.foldl (fun acc d => acc * 10 + (d - 48)) 0

/-- Result of one `%d` conversion. -/
inductive Scan where
  /-- Matching or input failure: nothing is assigned. -/
  | fail
  /-- The numeral is not representable as an `int`: undefined behaviour. -/
  | overflow
  /-- The value assigned and the input left after the numeral. -/
  | ok (v : Int) (rest : List Nat)
deriving DecidableEq, Repr

/-- Strips an optional sign; returns whether it was a minus and the input after it. -/
def scanSign (s : List Nat) : Bool × List Nat :=
  match s with
  | 45 :: t => (true, t)
  | 43 :: t => (false, t)
  | _ => (false, s)

/-- The `%d` conversion of the scanf family: skips white space, takes an optional sign
and then the longest run of decimal digits. -/
def scanInt (s : List Nat) : Scan :=
  let s1 := s.dropWhile isspace
  let sg := scanSign s1
  let ds := sg.2.takeWhile isdigit
  if ds = [] then Scan.fail
  else
    let v : Int := if sg.1 then -(digitsValue ds : Int) else (digitsValue ds : Int)
    if inIntRange v then Scan.ok v (sg.2.dropWhile isdigit) else Scan.overflow

/-- The call `sscanf(line, "%d %d", w, h)`: returns the contents of `*w` and `*h` after
the call (a conversion that fails leaves its variable and the later ones untouched);
`none` is undefined behaviour.  The blank in the format skips white space, which the
second `%d` skips anyway. -/
def sscanf_d_d (line : List Nat) (w h : Int) : Option (Int × Int) :=
  match scanInt (cstr line) with
  | Scan.fail => some (w, h)
  | Scan.overflow => none
  | Scan.ok a rest =>
    match scanInt (rest.dropWhile isspace) with
    | Scan.fail => some (a, h)
    | Scan.overflow => none
    | Scan.ok b _ => some (a, b)

/-- The call `sscanf(line, "%d", m)`: the contents of `*m` after the call; `none` is
undefined behaviour. -/
def sscanf_d (line : List Nat) (m : Int) : Option Int :=
  match scanInt (cstr line) with
  | Scan.fail => some m
  | Scan.overflow => none
  | Scan.ok a _ => some a

/-- The call `calloc(n, size)` with an `int` count: `none` is the `NULL` result.  A
negative count converts to a `size_t` whose product with `size` overflows. -/
def calloc (n : Int) (size : Nat) : Option (List Nat) :=
  if n < 0 then none else some (List.replicate (n.toNat * size) 0)

/-- The call `fread(data, 1, n, file)`: the number of bytes read, the block afterwards,
and the rest of the stream. -/
def fread (n : Nat) (s : List Nat) (data : List Nat) : Nat × List Nat × List Nat :=
  ((s.take n).length, s.take n ++ data.drop (s.take n).length, s.drop n)

/-- Digits of `n` in decimal, most significant first, prepended to `acc`. -/
def decDigitsAux : Nat → Nat → List Nat → List Nat
  | 0, _, acc => acc
  | fuel + 1, n, acc =>
    if n < 10 then (48 + n) :: acc
    else decDigitsAux fuel (n / 10) ((48 + n % 10) :: acc)

/-- Decimal numeral of a natural number. -/
def decDigits (n : Nat) : List Nat := decDigitsAux (n + 1) n []

/-- The text `printf("%d", v)` produces. -/
def printInt (v : Int) : List Nat :=
  if v < 0 then 45 :: decDigits v.natAbs else decDigits v.natAbs

/-- Bytes of a string literal. -/
def bytes (s : String) : List Nat := s.toList.map Char.toNat

/-! ## Diagnostics and results -/

/-- The messages the codec prints. -/
inductive Diag where
  /-- The text `ERROR: file open failed`. -/
  | openFailed
  /-- The text `ERROR: something wrong with the file.` of the header reads. -/
  | wrongFile
  /-- The text `pgm read: not a pgm file`. -/
  | notPgm
  /-- The text `ppm read: not a ppm file`. -/
  | notPpm
  /-- The text `Memory allocation error. Exit program`. -/
  | allocError
  /-- The text `Error: read %d/%d pixels.` with its two arguments. -/
  | shortRead (nread numpix : Int)
  /-- The text `ERROR: Something wrong with the file.` of the ASCII payload loop. -/
  | badToken
  /-- The text `Error: maximum value %d is bad.` with its argument. -/
  | badMaxval (m : Int)
  /-- The text `Error: wrote %d/%d pixels.` with its two arguments. -/
  | shortWrite (n numpix : Int)
deriving DecidableEq, Repr

/-- Outcome of `pgmread`. -/
inductive PgmResult where
  /-- Returns the allocated block; `*w`, `*h` as left. -/
  | image (data : List Nat) (w h : Int)
  /-- Returns `NULL` after printing `d`; `*w`, `*h` as left. -/
  | null (d : Diag) (w h : Int)
  /-- Calls `exit(1)` after printing `d`. -/
  | exit (d : Diag)
  /-- Undefined behaviour. -/
  | undefined
deriving DecidableEq, Repr

/-- Outcome of `ppmread`. -/
inductive PpmResult where
  /-- Returns the allocated block; `*w`, `*h`, `*maxval` as left. -/
  | image (data : List Nat) (w h maxval : Int)
  /-- Returns `NULL` after printing `d`; `*w`, `*h`, `*maxval` as left. -/
  | null (d : Diag) (w h maxval : Int)
  /-- Calls `exit(1)` after printing `d`. -/
  | exit (d : Diag)
  /-- Undefined behaviour. -/
  | undefined
deriving DecidableEq, Repr

/-! ## Readers -/

/-- The loop `while (line[0] == '#')` of the readers, each turn of which reads the next
line with `fgets(line, 256, file)`.  Returns the first line that does not start with
`#` and the stream after it; `none` when an `fgets` in the loop returns `NULL`.  Every
turn consumes at least one byte, so a fuel above the length of the stream is never
used up (`skipComments_fuel`). -/
def skipComments : Nat → List Nat → List Nat → Option (List Nat × List Nat)
  | 0, _, _ => none
  | fuel + 1, line, s =>
    if line.head? = some 35 then
      match fgets 256 s with
      | none => none
      | some (line2, s2) => skipComments fuel line2 s2
    else some (line, s)

/-- State of the ASCII payload loops. -/
inductive AsciiStep where
  /-- The loop ran to its end: stream, block and index `k` afterwards. -/
  | next (s : List Nat) (data : List Nat) (k : Nat)
  /-- A `fscanf` did not return 1: message and `exit(1)`. -/
  | exit
  /-- Undefined behaviour: a numeral that does not fit an `int`, or a store past the
  end of the block. -/
  | undefined
deriving DecidableEq, Repr

/-- The inner loop `for (j = 0; j < cols; j++)`: each turn scans one integer with
`fscanf(file, "%d", &int_tmp)` and stores `(unsigned char)int_tmp` at `data[k++]`. -/
def asciiRow : Nat → List Nat → List Nat → Nat → AsciiStep
  | 0, s, data, k => AsciiStep.next s data k
  | n + 1, s, data, k =>
    match scanInt s with
    | Scan.fail => AsciiStep.exit
    | Scan.overflow => AsciiStep.undefined
    | Scan.ok v s2 =>
      if k < data.length then asciiRow n s2 (data.set k (toUChar v)) (k + 1)
      else AsciiStep.undefined

/-- The outer loop `for (i = 0; i < rows; i++)` of `pgmread`, with inner bound `*w`. -/
def asciiRows (w : Int) : Nat → List Nat → List Nat → Nat → AsciiStep
  | 0, s, data, k => AsciiStep.next s data k
  | r + 1, s, data, k =>
    match asciiRow w.toNat s data k with
    | AsciiStep.next s2 data2 k2 => asciiRows w r s2 data2 k2
    | AsciiStep.exit => AsciiStep.exit
    | AsciiStep.undefined => AsciiStep.undefined

/-- The outer loop of `ppmread`, whose inner bound is the `int` product `(*w)*3`. -/
def asciiRowsRgb (w : Int) : Nat → List Nat → List Nat → Nat → AsciiStep
  | 0, s, data, k => AsciiStep.next s data k
  | r + 1, s, data, k =>
    match mulInt w 3 with
    | none => AsciiStep.undefined
    | some cols =>
      match asciiRow cols.toNat s data k with
      | AsciiStep.next s2 data2 k2 => asciiRowsRgb w r s2 data2 k2
      | AsciiStep.exit => AsciiStep.exit
      | AsciiStep.undefined => AsciiStep.undefined

/-- The function `pgmread`.  `file` is the content of the named file (`none` when it
cannot be opened); `w0`, `h0` are the contents of `*w`, `*h` before the call.  The
local `maxval` is scanned and never read, so its initial content is immaterial. -/
def pgmread (file : Option (List Nat)) (w0 h0 : Int) : PgmResult :=
  match file with
  | none => PgmResult.null Diag.openFailed 0 0
  | some s0 =>
    match fgets 256 s0 with
    | none => PgmResult.null Diag.wrongFile w0 h0
    | some (line1, s1) =>
      if strncmp line1 [80, 53] 2 && strncmp line1 [80, 50] 2 then
        PgmResult.null Diag.notPgm 0 0
      else
        match fgets 256 s1 with
        | none => PgmResult.null Diag.wrongFile w0 h0
        | some (line2, s2) =>
          match skipComments (s2.length + 1) line2 s2 with
          | none => PgmResult.null Diag.wrongFile w0 h0
          | some (line3, s3) =>
            match sscanf_d_d line3 w0 h0 with
            | none => PgmResult.undefined
            | some (w, h) =>
              match fgets 256 s3 with
              | none => PgmResult.null Diag.wrongFile w h
              | some (line4, s4) =>
                match sscanf_d line4 0 with
                | none => PgmResult.undefined
                | some _ =>
                  match mulInt w h with
                  | none => PgmResult.undefined
                  | some numpix =>
                    match calloc numpix 8 with
                    | none => PgmResult.exit Diag.allocError
                    | some data =>
                      if !(strncmp line1 [80, 53] 2) then
                        if ((fread numpix.toNat s4 data).1 : Int) ≠ numpix then
                          PgmResult.exit
                            (Diag.shortRead (fread numpix.toNat s4 data).1 numpix)
                        else PgmResult.image (fread numpix.toNat s4 data).2.1 w h
                      else
                        match asciiRows w h.toNat s4 data 0 with
                        | AsciiStep.next _ data2 _ => PgmResult.image data2 w h
                        | AsciiStep.exit => PgmResult.exit Diag.badToken
                        | AsciiStep.undefined => PgmResult.undefined

/-- The function `ppmread`.  `w0`, `h0`, `m0` are the contents of `*w`, `*h`, `*maxval`
before the call. -/
def ppmread (file : Option (List Nat)) (w0 h0 m0 : Int) : PpmResult :=
  match file with
  | none => PpmResult.null Diag.openFailed 0 0 m0
  | some s0 =>
    match fgets 256 s0 with
    | none => PpmResult.null Diag.wrongFile w0 h0 m0
    | some (line1, s1) =>
      if strncmp line1 [80, 54] 2 && strncmp line1 [80, 51] 2 then
        PpmResult.null Diag.notPpm 0 0 m0
      else
        match fgets 256 s1 with
        | none => PpmResult.null Diag.wrongFile w0 h0 m0
        | some (line2, s2) =>
          match skipComments (s2.length + 1) line2 s2 with
          | none => PpmResult.null Diag.wrongFile w0 h0 m0
          | some (line3, s3) =>
            match sscanf_d_d line3 w0 h0 with
            | none => PpmResult.undefined
            | some (w, h) =>
              match fgets 256 s3 with
              | none => PpmResult.null Diag.wrongFile w h m0
              | some (line4, s4) =>
                match sscanf_d line4 m0 with
                | none => PpmResult.undefined
                | some maxval =>
                  if maxval < 0 ∨ maxval > 255 then PpmResult.exit (Diag.badMaxval maxval)
                  else
                    match mulInt w h with
                    | none => PpmResult.undefined
                    | some numpix =>
                      match mulInt numpix 3 with
                      | none => PpmResult.undefined
                      | some n3 =>
                        match calloc n3 8 with
                        | none => PpmResult.exit Diag.allocError
                        | some data =>
                          if !(strncmp line1 [80, 54] 2) then
                            if ((fread n3.toNat s4 data).1 : Int) ≠ n3 then
                              PpmResult.exit
                                (Diag.shortRead (Int.tdiv (fread n3.toNat s4 data).1 3) numpix)
                            else PpmResult.image (fread n3.toNat s4 data).2.1 w h maxval
                          else
                            match asciiRowsRgb w h.toNat s4 data 0 with
                            | AsciiStep.next _ data2 _ => PpmResult.image data2 w h maxval
                            | AsciiStep.exit => PpmResult.exit Diag.badToken
                            | AsciiStep.undefined => PpmResult.undefined

/-- Outcome of the readers that return `float` data. -/
inductive FloatResult where
  /-- Returns the allocated block of floats; `*w`, `*h` as left. -/
  | image (data : List ℚ) (w h : Int)
  /-- Returns `NULL` (a failed `malloc`); `*w`, `*h` as left. -/
  | null (w h : Int)
  /-- The byte reader called `exit(1)` after printing `d`. -/
  | exit (d : Diag)
  /-- Undefined behaviour. -/
  | undefined
deriving DecidableEq, Repr

/-- The call `malloc(n * size)` with an `int` count `n`: `none` is the `NULL` result.
A negative count converts to a `size_t` too large to allocate; the content of a fresh
block is not used before it is written, so it is given as zeros. -/
def malloc (n : Int) (size : Nat) : Option (List Nat) :=
  if n < 0 then none else some (List.replicate (n.toNat * size) 0)

/-- The function `pgmread_float`. -/
def pgmread_float (file : Option (List Nat)) (w0 h0 : Int) : FloatResult :=
  match pgmread file w0 h0 with
  | PgmResult.exit d => FloatResult.exit d
  | PgmResult.undefined => FloatResult.undefined
  | PgmResult.image cdata w h =>
    match mulInt w h with
    | none => FloatResult.undefined
    | some numpix =>
      match malloc numpix 4 with
      | none => FloatResult.null w h
      | some _ =>
        if numpix.toNat ≤ cdata.length then
          FloatResult.image ((cdata.take numpix.toNat).map (fun (c : Nat) => (c : ℚ) / 255)) w h
        else FloatResult.undefined
  | PgmResult.null _ w h =>
    match mulInt w h with
    | none => FloatResult.undefined
    | some numpix =>
      match malloc numpix 4 with
      | none => FloatResult.null w h
      | some _ =>
        if numpix = 0 then FloatResult.image [] w h
        else FloatResult.undefined

/-- The function `ppmread_float`.  `m0` is the unspecified initial content of the
local variable `maxval`.  The loop divides by `maxval`; division by zero is undefined
behaviour. -/
def ppmread_float (file : Option (List Nat)) (w0 h0 m0 : Int) : FloatResult :=
  match ppmread file w0 h0 m0 with
  | PpmResult.exit d => FloatResult.exit d
  | PpmResult.undefined => FloatResult.undefined
  | PpmResult.image cdata w h maxval =>
    match mulInt w h with
    | none => FloatResult.undefined
    | some numpix =>
      match mulInt 3 numpix with
      | none => FloatResult.undefined
      | some n3 =>
        match malloc n3 4 with
        | none => FloatResult.null w h
        | some _ =>
          if n3 = 0 then FloatResult.image [] w h
          else if maxval = 0 then FloatResult.undefined
          else if n3.toNat ≤ cdata.length then
            FloatResult.image ((cdata.take n3.toNat).map (fun (c : Nat) => (c : ℚ) / (maxval : ℚ))) w h
          else FloatResult.undefined
  | PpmResult.null _ w h _ =>
    match mulInt w h with
    | none => FloatResult.undefined
    | some numpix =>
      match mulInt 3 numpix with
      | none => FloatResult.undefined
      | some n3 =>
        match malloc n3 4 with
        | none => FloatResult.null w h
        | some _ =>
          if n3 = 0 then FloatResult.image [] w h
          else FloatResult.undefined

/-- The CUDA vector type `float4`. -/
structure Float4 where
  x : ℚ
  y : ℚ
  z : ℚ
  w : ℚ
deriving DecidableEq, Repr

/-- Outcome of `ppmread_float4`.  `handed` is what the call leaves in `*outcdata`:
`none` when `outcdata` is null (the byte block is freed), otherwise the pointer stored
there, itself `none` for `NULL`. -/
inductive Float4Result where
  /-- Returns the allocated block of pixels; `*w`, `*h` as left. -/
  | image (data : List Float4) (handed : Option (Option (List Nat))) (w h : Int)
  /-- Returns `NULL` (a failed `malloc`); `*w`, `*h` as left. -/
  | null (handed : Option (Option (List Nat))) (w h : Int)
  /-- The byte reader called `exit(1)` after printing `d`. -/
  | exit (d : Diag)
  /-- Undefined behaviour. -/
  | undefined
deriving DecidableEq, Repr

/-- The loop `for( i = 0; i < numpix; ++i )` of `ppmread_float4`, with the number of
turns left: turn `i` reads `cdata[3*i]`, `cdata[3*i+1]`, `cdata[3*i+2]`, divides each by
`maxval` and stores them with `w = 1.0f` at `fdata[i]`; `none` is an overflow of `3*i`
or a read past the end of `cdata`. -/
def float4Loop (cdata : List Nat) (maxval : Int) : Nat → Nat → List Float4 → Option (List Float4)
  | 0, _, acc => some acc
  | n + 1, i, acc =>
    match mulInt 3 i with
    | none => none
    | some i3 =>
      match cdata.get? i3.toNat, cdata.get? (i3.toNat + 1), cdata.get? (i3.toNat + 2) with
      | some r, some g, some b =>
        float4Loop cdata maxval n (i + 1)
          (acc ++ [{ x := (r : ℚ) / (maxval : ℚ), y := (g : ℚ) / (maxval : ℚ),
                     z := (b : ℚ) / (maxval : ℚ), w := 1 }])
      | _, _, _ => none

/-- The function `ppmread_float4`.  `wantBytes` tells whether `outcdata` is non-null;
`m0` is the unspecified initial content of the local variable `maxval`.  Division by a
`maxval` of zero is undefined behaviour, and so is any read through a null `cdata`. -/
def ppmread_float4 (wantBytes : Bool) (file : Option (List Nat)) (w0 h0 m0 : Int) :
    Float4Result :=
  match ppmread file w0 h0 m0 with
  | PpmResult.exit d => Float4Result.exit d
  | PpmResult.undefined => Float4Result.undefined
  | PpmResult.image cdata w h maxval =>
    match mulInt w h with
    | none => Float4Result.undefined
    | some numpix =>
      match malloc numpix 16 with
      | none => Float4Result.null (if wantBytes then some (some cdata) else none) w h
      | some _ =>
        if numpix = 0 then
          Float4Result.image [] (if wantBytes then some (some cdata) else none) w h
        else if maxval = 0 then Float4Result.undefined
        else
          match float4Loop cdata maxval numpix.toNat 0 [] with
          | none => Float4Result.undefined
          | some fdata =>
            Float4Result.image fdata (if wantBytes then some (some cdata) else none) w h
  | PpmResult.null _ w h _ =>
    match mulInt w h with
    | none => Float4Result.undefined
    | some numpix =>
      match malloc numpix 16 with
      | none => Float4Result.null (if wantBytes then some none else none) w h
      | some _ =>
        if numpix = 0 then
          Float4Result.image [] (if wantBytes then some none else none) w h
        else Float4Result.undefined

/-- Outcome of `rgbToArgb`. -/
inductive ArgbResult where
  /-- Returns the allocated block. -/
  | block (data : List Nat)
  /-- Returns `NULL` (a failed `malloc`). -/
  | null
  /-- Undefined behaviour. -/
  | undefined
deriving DecidableEq, Repr

/-- The loop `for( k=0,j=0; k < 4*w*h; ++k )` of `rgbToArgb`, with the number of turns
left: a turn stores `0xff` at `ret[k]` when `k%4 == 0` and `rgb[j++]` otherwise;
`none` is a read past the end of `rgb`. -/
def argbLoop (rgb : List Nat) : Nat → Nat → Nat → List Nat → Option (List Nat)
  | 0, _, _, ret => some ret
  | n + 1, k, j, ret =>
    if k % 4 = 0 then argbLoop rgb n (k + 1) j (ret.set k 255)
    else
      match rgb.get? j with
      | none => none
      | some b => argbLoop rgb n (k + 1) (j + 1) (ret.set k b)

/-- The function `rgbToArgb`.  The size `4*w*h` is the `int` product `(4*w)*h`. -/
def rgbToArgb (rgb : List Nat) (w h : Int) : ArgbResult :=
  match mulInt 4 w with
  | none => ArgbResult.undefined
  | some w4 =>
    match mulInt w4 h with
    | none => ArgbResult.undefined
    | some n =>
      match malloc n 1 with
      | none => ArgbResult.null
      | some ret =>
        match argbLoop rgb n.toNat 0 0 ret with
        | none => ArgbResult.undefined
        | some out => ArgbResult.block out

/-! ## Writers -/

/-- Outcome of `pgmwrite`, with the content of the file on disk afterwards. -/
inductive WriteResult where
  /-- Returns `code`; `file` is `none` when the file could not be opened. -/
  | ret (code : Int) (file : Option (List Nat))
  /-- Calls `exit(1)` after printing `d`; `file` is what was written before. -/
  | exit (d : Diag) (file : List Nat)
  /-- Undefined behaviour. -/
  | undefined
deriving DecidableEq, Repr

/-- The inner loop `for(j=0; j<w; j++) fprintf(file, "%d ", (int)data[k++])` of the
ASCII writer: the text written after `out` and the index `k` afterwards; `none` is a
read past the end of `data`. -/
def writeRow (data : List Nat) : Nat → List Nat → Nat → Option (List Nat × Nat)
  | 0, out, k => some (out, k)
  | n + 1, out, k =>
    match data.get? k with
    | none => none
    | some b => writeRow data n (out ++ printInt (b : Int) ++ [32]) (k + 1)

/-- The outer loop `for(i=0; i<h; i++)` of the ASCII writer. -/
def writeRows (data : List Nat) (w : Int) : Nat → List Nat → Nat → Option (List Nat × Nat)
  | 0, out, k => some (out, k)
  | r + 1, out, k =>
    match writeRow data w.toNat out k with
    | none => none
    | some (out2, k2) => writeRows data w r out2 k2

/-- The header `pgmwrite` prints: magic line, optional comment line, dimensions line
and the line of the constant maximum value 255. -/
def pgmHeader (w h : Int) (comment : Option (List Nat)) (binsave : Int) : List Nat :=
  (if binsave = 1 then [80, 53, 10] else [80, 50, 10])
    ++ (match comment with
        | none => []
        | some c => [35, 32] ++ cstr c ++ [32, 10])
    ++ (printInt w ++ [32] ++ printInt h ++ [32, 10])
    ++ (printInt 255 ++ [32, 10])

/-- The function `pgmwrite`.  `openOk` tells whether `fopen` succeeds and `room` is the
number of items the `fwrite` of the payload is able to write; `comment` is `none` for a
`NULL` comment string. -/
def pgmwrite (openOk : Bool) (room : Nat) (w h : Int) (data : List Nat)
    (comment : Option (List Nat)) (binsave : Int) : WriteResult :=
  match mulInt w h with
  | none => WriteResult.undefined
  | some numpix =>
    if !openOk then WriteResult.ret (-1) none
    else if binsave = 1 then
      if numpix < 0 ∨ (data.length : Int) < numpix then WriteResult.undefined
      else if ((min numpix.toNat room : Nat) : Int) ≠ numpix then
        WriteResult.exit (Diag.shortWrite (min numpix.toNat room : Nat) numpix)
          (pgmHeader w h comment binsave ++ data.take (min numpix.toNat room))
      else WriteResult.ret 0 (some (pgmHeader w h comment binsave ++ data.take numpix.toNat))
    else
      match writeRows data w h.toNat (pgmHeader w h comment binsave) 0 with
      | none => WriteResult.undefined
      | some (out, _) => WriteResult.ret 0 (some out)

/-- Conversion of a `float` to an integer type: truncation toward zero. -/
def truncQ (x : ℚ) : Int := Int.tdiv x.num x.den

/-- The expression `data[i] < 0.f ? 0 : (data[i]>1.f?255:(static_cast<unsigned
char>(255.f*data[i])))` of `pgmwrite_float`. -/
def quantize (v : ℚ) : Nat :=
  if v < 0 then 0 else if v > 1 then 255 else toUChar (truncQ (255 * v))

/-- The function `pgmwrite_float`.  A negative `numpix` makes `malloc` return `NULL`
and the loop run no turn; `pgmwrite` is then handed a null buffer (the empty list). -/
def pgmwrite_float (openOk : Bool) (room : Nat) (w h : Int) (data : List ℚ)
    (comment : Option (List Nat)) (binsave : Int) : WriteResult :=
  match mulInt w h with
  | none => WriteResult.undefined
  | some numpix =>
    match malloc numpix 1 with
    | none => pgmwrite openOk room w h [] comment binsave
    | some _ =>
      if (data.length : Int) < numpix then WriteResult.undefined
      else pgmwrite openOk room w h ((data.take numpix.toNat).map quantize) comment binsave

/-! ## Vocabulary of the statements -/

/-- The text of a line (without its newline) that one `fgets(line, 256, file)` reads
whole: it holds no newline and, with its newline, fits the 255 characters `fgets`
stores. -/
def fitsLine (l : List Nat) : Bool :=
  l.all (fun c => c != 10) && decide (l.length ≤ 254)

/-- A comment line (without its newline) that fits the line buffer. -/
def isComment (l : List Nat) : Bool := l.head? == some 35 && fitsLine l

/-- White space other than the newline. -/
def isBlanks (l : List Nat) : Bool := l.all (fun c => isspace c && c != 10)

/-- The lines of a list of line texts, each closed by a newline. -/
def joinLines (ls : List (List Nat)) : List Nat := (ls.map (fun l => l ++ [10])).flatten

/-- Whether a text does not begin with a character satisfying `p`. -/
def startsNo (p : Nat → Bool) (t : List Nat) : Bool :=
  match t with
  | [] => true
  | c :: _ => !p c

/-- The `int` a decimal numeral denotes: an optional sign and one or more digits,
nothing else, with a value that fits an `int`; `none` for any other text. -/
def numeralValue (tx : List Nat) : Option Int :=
  if (scanSign tx).2 ≠ [] ∧ (scanSign tx).2.all isdigit = true then
    if inIntRange (if (scanSign tx).1 then -(digitsValue (scanSign tx).2 : Int)
        else (digitsValue (scanSign tx).2 : Int)) then
      some (if (scanSign tx).1 then -(digitsValue (scanSign tx).2 : Int)
        else (digitsValue (scanSign tx).2 : Int))
    else none
  else none

/-- Characters of a numeral: a sign or a digit. -/
def isNumChar (c : Nat) : Bool := c == 45 || c == 43 || isdigit c

/-- The parts of a header: the second character of the magic (`5`, `2`, `6` or `3`),
what else stands on the magic line, the comment lines, the numerals of the two dimensions with the white space after each,
the numeral of the maximum value with the white space after it, and the values `w`,
`h`, `maxval` the three numerals denote. -/
structure Header where
  tag : Nat
  magicRest : List Nat
  comments : List (List Nat)
  wText : List Nat
  sep : List Nat
  hText : List Nat
  post : List Nat
  mText : List Nat
  postMax : List Nat
  w : Int
  h : Int
  maxval : Int
deriving DecidableEq, Repr

/-- The dimensions line of a header, without its newline. -/
def Header.dimsLine (H : Header) : List Nat := H.wText ++ H.sep ++ H.hText ++ H.post

/-- The maxval line of a header, without its newline. -/
def Header.maxLine (H : Header) : List Nat := H.mText ++ H.postMax

/-- The bytes of a header: magic line, comment lines, dimensions line, maxval line. -/
def Header.text (H : Header) : List Nat :=
  (80 :: H.tag :: H.magicRest ++ [10]) ++ joinLines H.comments ++ (H.dimsLine ++ [10])
    ++ (H.maxLine ++ [10])

/-- A well-formed header: the magic line holds `P` and the tag, followed by anything;
comment lines start with `#`; the dimensions are decimal
numerals of non-negative `int`s, separated by blanks; the maximum value is a decimal
numeral of an `int`; and every line fits the line buffer of the readers. -/
def Header.wellFormed (H : Header) : Bool :=
  fitsLine (80 :: H.tag :: H.magicRest) && H.comments.all isComment
    && (numeralValue H.wText == some H.w && decide (0 ≤ H.w)
        && numeralValue H.hText == some H.h && decide (0 ≤ H.h))
    && (isBlanks H.sep && H.sep != [] && isBlanks H.post && fitsLine H.dimsLine)
    && (numeralValue H.mText == some H.maxval && isBlanks H.postMax && fitsLine H.maxLine)

/-- The same header under another magic. -/
def Header.withTag (H : Header) (t : Nat) : Header := { H with tag := t }

/-- A token of an ASCII payload: the white space before it, its numeral, and the
`int` the numeral denotes. -/
structure Token where
  ws : List Nat
  text : List Nat
  value : Int
deriving DecidableEq, Repr

/-- The bytes of a sequence of tokens. -/
def tokensText (ts : List Token) : List Nat := (ts.map (fun t => t.ws ++ t.text)).flatten

/-- White space before a numeral that denotes the token's value. -/
def Token.wellFormed (t : Token) : Bool :=
  t.ws.all isspace && numeralValue t.text == some t.value

/-- White-space-separated tokens: every token is well formed and every token but the
first has white space before it. -/
def tokensOk (ts : List Token) : Bool :=
  ts.all Token.wellFormed && ts.tail.all (fun t => t.ws != [])

/-- Tokens each of which is followed by something that is not a digit, up to the text
`tail` after the last one. -/
def chainOk (tail : List Nat) : List Token → Bool
  | [] => true
  | t :: ts => t.wellFormed && startsNo isdigit (tokensText ts ++ tail) && chainOk tail ts

/-- The samples the ASCII decoder stores for a sequence of tokens: each value
converted to `unsigned char`. -/
def tokenSamples (ts : List Token) : List Nat := ts.map (fun t => (t.value % 256).toNat)

/-- The header of the example file of the specification: a comment line `# test`,
dimensions `2 2`, maximum value 255. -/
def exampleHeader : Header :=
  { tag := 50, magicRest := [], comments := [bytes "# test"], wText := bytes "2",
    sep := [32], hText := bytes "2", post := [], mText := bytes "255", postMax := [],
    w := 2, h := 2, maxval := 255 }

/-- The tokens `0 64 128 255` of the example file of the specification. -/
def exampleTokens : List Token :=
  [⟨[], bytes "0", 0⟩, ⟨[32], bytes "64", 64⟩, ⟨[32], bytes "128", 128⟩,
    ⟨[32], bytes "255", 255⟩]

/-- Twelve tokens for a 2 by 2 RGB image, two of them outside `0..255`. -/
def exampleTokensRgb : List Token :=
  exampleTokens ++ [⟨[32], bytes "256", 256⟩, ⟨[32], bytes "-1", -1⟩,
    ⟨[32], bytes "1", 1⟩, ⟨[32], bytes "2", 2⟩, ⟨[32], bytes "3", 3⟩,
    ⟨[32], bytes "4", 4⟩, ⟨[32], bytes "5", 5⟩, ⟨[32], bytes "6", 6⟩]

/-- Twelve tokens for a 2 by 2 RGB image, all with values in `0..255`. -/
def exampleTokensBytes : List Token :=
  exampleTokens ++ (exampleTokens ++ exampleTokens).map (fun t => { t with ws := [32] })

/-- A header without comments that declares a 1 by 1 image and the maximum value `m`. -/
def tinyHeader (m : Int) : Header :=
  { tag := 54, magicRest := [], comments := [], wText := bytes "1", sep := [32],
    hText := bytes "1", post := [], mText := printInt m, postMax := [],
    w := 1, h := 1, maxval := m }

/-- The bytes of an interleaved image with the byte 255 put before the three bytes of
each pixel. -/
def argbOf : List Nat → List Nat
  | r :: g :: b :: rest => 255 :: r :: g :: b :: argbOf rest
  | _ => []

/-- The pixels made of consecutive triples of floats, each with `w = 1`. -/
def float4Of : List ℚ → List Float4
  | x :: y :: z :: rest => { x := x, y := y, z := z, w := 1 } :: float4Of rest
  | _ => []

/-- The file format of the grayscale writer as the specification words it: the magic
line, the comment line when a comment is given, the dimensions line, the line of the
maximum value 255, and the payload: the raw bytes, or each sample in decimal followed
by one blank. -/
def pgmFileFormat (w h : Int) (data : List Nat) (comment : Option (List Nat))
    (binsave : Int) : List Nat :=
  (if binsave = 1 then bytes "P5\n" else bytes "P2\n")
    ++ (match comment with
        | none => []
        | some c => bytes "# " ++ cstr c ++ bytes " \n")
    ++ printInt w ++ bytes " " ++ printInt h ++ bytes " \n"
    ++ bytes "255 \n"
    ++ (if binsave = 1 then data
        else (data.map (fun (b : Nat) => printInt (b : Int) ++ bytes " ")).flatten)

/-- The tokens of the payload the ASCII writer prints for `data`: the decimal numeral
of each byte, with one blank before every numeral but the first. -/
def writtenTokens : List Nat → List Token
  | [] => []
  | b :: rest =>
    { ws := [], text := printInt (b : Int), value := (b : Int) }
      :: rest.map (fun (x : Nat) => { ws := [32], text := printInt (x : Int), value := (x : Int) })

/-- The lines read from the end of the magic line up to the dimensions line: the
second `fgets` of a reader followed by its comment loop. -/
def readDims (s : List Nat) : Option (List Nat × List Nat) :=
  match fgets 256 s with
  | none => none
  | some (line2, s2) => skipComments (s2.length + 1) line2 s2

/-- The part of `pgmread` that follows the two header `sscanf` calls. -/
def pgmPayload (binary : Bool) (w h : Int) (s4 : List Nat) : PgmResult :=
  match mulInt w h with
  | none => PgmResult.undefined
  | some numpix =>
    match calloc numpix 8 with
    | none => PgmResult.exit Diag.allocError
    | some data =>
      if binary then
        if ((fread numpix.toNat s4 data).1 : Int) ≠ numpix then
          PgmResult.exit (Diag.shortRead (fread numpix.toNat s4 data).1 numpix)
        else PgmResult.image (fread numpix.toNat s4 data).2.1 w h
      else
        match asciiRows w h.toNat s4 data 0 with
        | AsciiStep.next _ data2 _ => PgmResult.image data2 w h
        | AsciiStep.exit => PgmResult.exit Diag.badToken
        | AsciiStep.undefined => PgmResult.undefined

/-- The part of `pgmread` that follows the comment loop. -/
def pgmBody (binary : Bool) (line3 s3 : List Nat) (w0 h0 : Int) : PgmResult :=
  match sscanf_d_d line3 w0 h0 with
  | none => PgmResult.undefined
  | some (w, h) =>
    match fgets 256 s3 with
    | none => PgmResult.null Diag.wrongFile w h
    | some (line4, s4) =>
      match sscanf_d line4 0 with
      | none => PgmResult.undefined
      | some _ => pgmPayload binary w h s4

/-- The part of `ppmread` that follows the range check of the maximum value. -/
def ppmPayload (binary : Bool) (w h maxval : Int) (s4 : List Nat) : PpmResult :=
  match mulInt w h with
  | none => PpmResult.undefined
  | some numpix =>
    match mulInt numpix 3 with
    | none => PpmResult.undefined
    | some n3 =>
      match calloc n3 8 with
      | none => PpmResult.exit Diag.allocError
      | some data =>
        if binary then
          if ((fread n3.toNat s4 data).1 : Int) ≠ n3 then
            PpmResult.exit (Diag.shortRead (Int.tdiv (fread n3.toNat s4 data).1 3) numpix)
          else PpmResult.image (fread n3.toNat s4 data).2.1 w h maxval
        else
          match asciiRowsRgb w h.toNat s4 data 0 with
          | AsciiStep.next _ data2 _ => PpmResult.image data2 w h maxval
          | AsciiStep.exit => PpmResult.exit Diag.badToken
          | AsciiStep.undefined => PpmResult.undefined

/-- The part of `ppmread` that follows the comment loop. -/
def ppmBody (binary : Bool) (line3 s3 : List Nat) (w0 h0 m0 : Int) : PpmResult :=
  match sscanf_d_d line3 w0 h0 with
  | none => PpmResult.undefined
  | some (w, h) =>
    match fgets 256 s3 with
    | none => PpmResult.null Diag.wrongFile w h m0
    | some (line4, s4) =>
      match sscanf_d line4 m0 with
      | none => PpmResult.undefined
      | some maxval =>
        if maxval < 0 ∨ maxval > 255 then PpmResult.exit (Diag.badMaxval maxval)
        else ppmPayload binary w h maxval s4

/-- The image buffer a caller reads through the pointer `pgmread` returns: the first
`w*h` bytes of the block (which `calloc` sizes at 8 bytes per sample). -/
def PgmResult.buffer : PgmResult → Option (List Nat)
  | PgmResult.image data w h => some (data.take (w * h).toNat)
  | _ => none

/-- The image buffer a caller reads through the pointer `ppmread` returns: the first
`3*w*h` bytes of the block. -/
def PpmResult.buffer : PpmResult → Option (List Nat)
  | PpmResult.image data w h _ => some (data.take (3 * (w * h)).toNat)
  | _ => none

/-- The header `pgmwrite` prints, split into its parts. -/
def writerHeader (w h : Int) (comment : Option (List Nat)) (binsave : Int) : Header :=
  { tag := if binsave = 1 then 53 else 50
    magicRest := []
    comments := match comment with
      | none => []
      | some c => [[35, 32] ++ cstr c ++ [32]]
    wText := printInt w
    sep := [32]
    hText := printInt h
    post := [32]
    mText := printInt 255
    postMax := [32]
    w := w
    h := h
    maxval := 255 }

/-! ## The readers as a sequence of stages -/

theorem pgmread_stages (s0 : List Nat) (w0 h0 : Int) :
    pgmread (some s0) w0 h0 =
      match fgets 256 s0 with
      | none => PgmResult.null Diag.wrongFile w0 h0
      | some (line1, s1) =>
        if strncmp line1 [80, 53] 2 && strncmp line1 [80, 50] 2 then
          PgmResult.null Diag.notPgm 0 0
        else
          match readDims s1 with
          | none => PgmResult.null Diag.wrongFile w0 h0
          | some (line3, s3) => pgmBody (!(strncmp line1 [80, 53] 2)) line3 s3 w0 h0 := by
  unfold pgmread readDims pgmBody pgmPayload
  dsimp only
  cases h1 : fgets 256 s0 with
  | none => rfl
  | some p1 =>
    obtain ⟨line1, s1⟩ := p1
    simp only []
    split
    · rfl
    · cases h2 : fgets 256 s1 with
      | none => rfl
      | some p2 => rfl

theorem ppmread_stages (s0 : List Nat) (w0 h0 m0 : Int) :
    ppmread (some s0) w0 h0 m0 =
      match fgets 256 s0 with
      | none => PpmResult.null Diag.wrongFile w0 h0 m0
      | some (line1, s1) =>
        if strncmp line1 [80, 54] 2 && strncmp line1 [80, 51] 2 then
          PpmResult.null Diag.notPpm 0 0 m0
        else
          match readDims s1 with
          | none => PpmResult.null Diag.wrongFile w0 h0 m0
          | some (line3, s3) =>
            ppmBody (!(strncmp line1 [80, 54] 2)) line3 s3 w0 h0 m0 := by
  unfold ppmread readDims ppmBody ppmPayload
  dsimp only
  cases h1 : fgets 256 s0 with
  | none => rfl
  | some p1 =>
    obtain ⟨line1, s1⟩ := p1
    simp only []
    split
    · rfl
    · cases h2 : fgets 256 s1 with
      | none => rfl
      | some p2 => rfl

/-! ## Lines and the comment loop -/

theorem fgetsAux_line (l rest : List Nat) (hl : ∀ c ∈ l, c ≠ 10) :
    ∀ n, l.length < n → fgetsAux n (l ++ 10 :: rest) = (l ++ [10], rest) := by
  induction l with
  | nil =>
    intro n hn
    cases n with
    | zero => simp at hn
    | succ n => simp [fgetsAux]
  | cons c l ih =>
    intro n hn
    cases n with
    | zero => simp at hn
    | succ n =>
      have hc : c ≠ 10 := hl c (List.mem_cons_self _ _)
      have hl2 : ∀ d ∈ l, d ≠ 10 := fun d hd => hl d (List.mem_cons_of_mem _ hd)
      have hn2 : l.length < n := by simpa using hn
      simp [fgetsAux, hc, ih hl2 n hn2]

theorem fitsLine_iff (l : List Nat) :
    fitsLine l = true ↔ (∀ c ∈ l, c ≠ 10) ∧ l.length ≤ 254 := by
  simp [fitsLine]

theorem fgets_line (l rest : List Nat) (hl : fitsLine l = true) :
    fgets 256 (l ++ 10 :: rest) = some (l ++ [10], rest) := by
  obtain ⟨h1, h2⟩ := (fitsLine_iff l).1 hl
  have h3 : fgetsAux 255 (l ++ 10 :: rest) = (l ++ [10], rest) :=
    fgetsAux_line l rest h1 255 (by omega)
  cases l with
  | nil => simpa [fgets] using h3
  | cons c l => simpa [fgets] using h3

theorem fgetsAux_length (n : Nat) (s : List Nat) :
    (fgetsAux n s).1.length + (fgetsAux n s).2.length = s.length := by
  induction n generalizing s with
  | zero => simp [fgetsAux]
  | succ n ih =>
    cases s with
    | nil => simp [fgetsAux]
    | cons c s =>
      by_cases hc : c = 10
      · simp [fgetsAux, hc]; omega
      · simp [fgetsAux, hc]
        have := ih s
        omega

theorem fgets_shrinks (s line s2 : List Nat) (h : fgets 256 s = some (line, s2)) :
    s2.length < s.length := by
  cases s with
  | nil => simp [fgets] at h
  | cons c s =>
    simp only [fgets, Option.some.injEq] at h
    have h2 := fgetsAux_length 254 s
    by_cases hc : c = 10
    · simp [fgetsAux, hc] at h
      rw [← h.2]; simp
    · simp [fgetsAux, hc] at h
      rw [← h.2]
      simp
      omega

theorem skipComments_fuel2 (fuel1 : Nat) :
    ∀ (fuel2 : Nat) (line s : List Nat), s.length < fuel1 → s.length < fuel2 →
      skipComments fuel1 line s = skipComments fuel2 line s := by
  induction fuel1 with
  | zero => intro fuel2 line s h; simp at h
  | succ fuel1 ih =>
    intro fuel2 line s h1 h2
    cases fuel2 with
    | zero => simp at h2
    | succ fuel2 =>
      by_cases hc : line.head? = some 35
      · cases hf : fgets 256 s with
        | none => simp [skipComments, hc, hf]
        | some p =>
          obtain ⟨line2, s2⟩ := p
          have hs := fgets_shrinks s line2 s2 hf
          simp only [skipComments, hc, hf, if_true]
          exact ih fuel2 line2 s2 (by omega) (by omega)
      · simp [skipComments, hc]

/-- The comment loop never uses up a fuel above the length of the stream. -/
theorem skipComments_fuel (fuel : Nat) (line s : List Nat) (h : s.length < fuel) :
    skipComments fuel line s = skipComments (s.length + 1) line s :=
  skipComments_fuel2 fuel (s.length + 1) line s h (by omega)

theorem readDims_comment (c rest : List Nat) (hc : isComment c = true) :
    readDims (c ++ 10 :: rest) = readDims rest := by
  simp only [isComment, Bool.and_eq_true, beq_iff_eq] at hc
  obtain ⟨hh, hf⟩ := hc
  have hhead : (c ++ [10]).head? = some 35 := by
    cases c with
    | nil => simp at hh
    | cons a c => simpa using hh
  unfold readDims
  rw [fgets_line c rest hf]
  simp only [skipComments, hhead, if_true]
  cases hr : fgets 256 rest with
  | none => rfl
  | some p =>
    obtain ⟨line2, s2⟩ := p
    have hs := fgets_shrinks rest line2 s2 hr
    simp only []
    exact skipComments_fuel rest.length line2 s2 hs

theorem readDims_comments (cs : List (List Nat)) (rest : List Nat)
    (hcs : cs.all isComment = true) :
    readDims (joinLines cs ++ rest) = readDims rest := by
  induction cs with
  | nil => simp [joinLines]
  | cons c cs ih =>
    simp only [List.all_cons, Bool.and_eq_true] at hcs
    have h1 : joinLines (c :: cs) ++ rest = c ++ 10 :: (joinLines cs ++ rest) := by
      simp [joinLines]
    rw [h1, readDims_comment c _ hcs.1, ih hcs.2]

theorem readDims_line (l rest : List Nat) (hf : fitsLine l = true)
    (hh : l.head? ≠ some 35) (hne : l ≠ []) :
    readDims (l ++ 10 :: rest) = some (l ++ [10], rest) := by
  have hhead : (l ++ [10]).head? ≠ some 35 := by
    cases l with
    | nil => exact absurd rfl hne
    | cons a c => simpa using hh
  unfold readDims
  rw [fgets_line l rest hf]
  simp only [skipComments, if_neg hhead]

/-! ## Scanning numerals -/

theorem dropWhile_append_all (p : Nat → Bool) (a t : List Nat) (ha : a.all p = true) :
    (a ++ t).dropWhile p = t.dropWhile p := by
  induction a with
  | nil => rfl
  | cons c a ih =>
    simp only [List.all_cons, Bool.and_eq_true] at ha
    simp [List.dropWhile, ha.1, ih ha.2]

theorem takeWhile_append_all (p : Nat → Bool) (a t : List Nat) (ha : a.all p = true) :
    (a ++ t).takeWhile p = a ++ t.takeWhile p := by
  induction a with
  | nil => rfl
  | cons c a ih =>
    simp only [List.all_cons, Bool.and_eq_true] at ha
    simp [List.takeWhile, ha.1, ih ha.2]

theorem dropWhile_startsNo (p : Nat → Bool) (t : List Nat) (h : startsNo p t = true) :
    t.dropWhile p = t := by
  cases t with
  | nil => rfl
  | cons c t =>
    simp only [startsNo, Bool.not_eq_true'] at h
    simp [List.dropWhile, h]

theorem takeWhile_startsNo (p : Nat → Bool) (t : List Nat) (h : startsNo p t = true) :
    t.takeWhile p = [] := by
  cases t with
  | nil => rfl
  | cons c t =>
    simp only [startsNo, Bool.not_eq_true'] at h
    simp [List.takeWhile, h]

theorem scanSign_cases (tx : List Nat) :
    (∃ t, tx = 45 :: t ∧ scanSign tx = (true, t)) ∨
    (∃ t, tx = 43 :: t ∧ scanSign tx = (false, t)) ∨
    (scanSign tx = (false, tx) ∧ tx.head? ≠ some 45 ∧ tx.head? ≠ some 43) := by
  cases tx with
  | nil => right; right; simp [scanSign]
  | cons c t =>
    by_cases h1 : c = 45
    · left; exact ⟨t, by rw [h1], by rw [h1]; rfl⟩
    · by_cases h2 : c = 43
      · right; left; exact ⟨t, by rw [h2], by rw [h2]; rfl⟩
      · right; right
        refine ⟨?_, by simpa using h1, by simpa using h2⟩
        unfold scanSign
        split
        · rename_i heq; cases heq; exact absurd rfl h1
        · rename_i heq; cases heq; exact absurd rfl h2
        · rfl

theorem scanInt_numeral (ws tx rest : List Nat) (v : Int)
    (hws : ws.all isspace = true) (hv : numeralValue tx = some v)
    (hrest : startsNo isdigit rest = true) :
    scanInt (ws ++ tx ++ rest) = Scan.ok v rest := by
  by_cases hd : (scanSign tx).2 ≠ [] ∧ (scanSign tx).2.all isdigit = true
  case neg =>
    unfold numeralValue at hv
    rw [if_neg hd] at hv
    cases hv
  case pos =>
    obtain ⟨hne, hdig⟩ := hd
    by_cases hr : inIntRange (if (scanSign tx).1 then -(digitsValue (scanSign tx).2 : Int)
        else (digitsValue (scanSign tx).2 : Int)) = true
    case neg =>
      unfold numeralValue at hv
      rw [if_pos ⟨hne, hdig⟩, if_neg hr] at hv
      cases hv
    case pos =>
      unfold numeralValue at hv
      rw [if_pos ⟨hne, hdig⟩, if_pos hr, Option.some.injEq] at hv
      have hsplit : scanSign (tx ++ rest) = ((scanSign tx).1, (scanSign tx).2 ++ rest)
          ∧ startsNo isspace (tx ++ rest) = true := by
        rcases scanSign_cases tx with ⟨t, h1, h2⟩ | ⟨t, h1, h2⟩ | ⟨h2, h3, h4⟩
        · subst h1; exact ⟨by rw [h2]; rfl, rfl⟩
        · subst h1; exact ⟨by rw [h2]; rfl, rfl⟩
        · rw [h2] at hne hdig
          cases tx with
          | nil => exact absurd rfl hne
          | cons c t =>
            simp only [List.all_cons, Bool.and_eq_true] at hdig
            have hc : isdigit c = true := hdig.1
            have hc1 : c ≠ 45 := by simpa using h3
            have hc2 : c ≠ 43 := by simpa using h4
            constructor
            · rw [h2]
              show scanSign (c :: (t ++ rest)) = _
              unfold scanSign
              split
              · rename_i heq; cases heq; exact absurd rfl hc1
              · rename_i heq; cases heq; exact absurd rfl hc2
              · rfl
            · simp only [isdigit, Bool.and_eq_true, decide_eq_true_eq] at hc
              simp only [List.cons_append, startsNo, isspace, Bool.not_eq_true',
                Bool.or_eq_false_iff, Bool.and_eq_false_iff, decide_eq_false_iff_not,
                beq_eq_false_iff_ne]
              omega
      have h1 : (ws ++ tx ++ rest).dropWhile isspace = tx ++ rest := by
        rw [List.append_assoc, dropWhile_append_all isspace ws _ hws,
          dropWhile_startsNo isspace _ hsplit.2]
      have h2 : ((scanSign tx).2 ++ rest).takeWhile isdigit = (scanSign tx).2 := by
        rw [takeWhile_append_all isdigit _ _ hdig, takeWhile_startsNo isdigit _ hrest]
        simp
      have h3 : ((scanSign tx).2 ++ rest).dropWhile isdigit = rest := by
        rw [dropWhile_append_all isdigit _ _ hdig, dropWhile_startsNo isdigit _ hrest]
      unfold scanInt
      rw [hv] at hr
      simp only [h1, hsplit.1, h2, h3, if_neg hne, hr, if_true, hv]

/-! ## Printing numerals -/

theorem decDigitsAux_acc (fuel : Nat) :
    ∀ (n : Nat) (acc : List Nat), decDigitsAux fuel n acc = decDigitsAux fuel n [] ++ acc := by
  induction fuel with
  | zero => intro n acc; simp [decDigitsAux]
  | succ fuel ih =>
    intro n acc
    by_cases hn : n < 10
    · simp [decDigitsAux, hn]
    · simp only [decDigitsAux, if_neg hn]
      rw [ih (n / 10) ((48 + n % 10) :: acc), ih (n / 10) [48 + n % 10]]
      simp

theorem digitsValue_snoc (a : List Nat) (d : Nat) :
    digitsValue (a ++ [d]) = digitsValue a * 10 + (d - 48) := by
  simp [digitsValue, List.foldl_append]

theorem decDigitsAux_spec (fuel : Nat) :
    ∀ (n : Nat), n < fuel →
      decDigitsAux fuel n [] ≠ [] ∧ (decDigitsAux fuel n []).all isdigit = true
        ∧ digitsValue (decDigitsAux fuel n []) = n := by
  induction fuel with
  | zero => intro n h; simp at h
  | succ fuel ih =>
    intro n h
    by_cases hn : n < 10
    · simp only [decDigitsAux, if_pos hn]
      refine ⟨by simp, ?_, ?_⟩
      · simp only [List.all_cons, List.all_nil, Bool.and_true, isdigit, Bool.and_eq_true,
          decide_eq_true_eq]
        omega
      · simp [digitsValue]
    · simp only [decDigitsAux, if_neg hn]
      rw [decDigitsAux_acc]
      have h2 : n / 10 < fuel := by omega
      obtain ⟨i1, i2, i3⟩ := ih (n / 10) h2
      refine ⟨by simp, ?_, ?_⟩
      · rw [List.all_append, i2]
        simp only [List.all_cons, List.all_nil, Bool.and_true, isdigit, Bool.and_eq_true,
          decide_eq_true_eq, true_and]
        omega
      · rw [digitsValue_snoc, i3]
        omega

theorem decDigitsAux_length (fuel : Nat) :
    ∀ (n k : Nat), n < fuel → n < 10 ^ (k + 1) →
      (decDigitsAux fuel n []).length ≤ k + 1 := by
  induction fuel with
  | zero => intro n k h; simp at h
  | succ fuel ih =>
    intro n k h hk
    by_cases hn : n < 10
    · simp [decDigitsAux, hn]
    · simp only [decDigitsAux, if_neg hn]
      rw [decDigitsAux_acc]
      cases k with
      | zero => simp at hk; omega
      | succ k =>
        have h2 : n / 10 < fuel := by omega
        have h3 : n / 10 < 10 ^ (k + 1) := by
          rw [Nat.div_lt_iff_lt_mul (by decide)]
          rw [pow_succ] at hk
          exact hk
        have := ih (n / 10) k h2 h3
        simp
        omega

theorem decDigits_spec (n : Nat) :
    decDigits n ≠ [] ∧ (decDigits n).all isdigit = true ∧ digitsValue (decDigits n) = n :=
  decDigitsAux_spec (n + 1) n (by omega)

theorem decDigits_length (n : Nat) (h : n < 10 ^ 10) : (decDigits n).length ≤ 10 :=
  decDigitsAux_length (n + 1) n 9 (by omega) h

theorem scanSign_digits (ds : List Nat) (h1 : ds ≠ []) (h2 : ds.all isdigit = true) :
    scanSign ds = (false, ds) := by
  rcases scanSign_cases ds with ⟨t, e1, _⟩ | ⟨t, e1, _⟩ | ⟨e2, _, _⟩
  · subst e1
    simp [isdigit] at h2
  · subst e1
    simp [isdigit] at h2
  · exact e2

theorem inIntRange_iff (v : Int) :
    inIntRange v = true ↔ -2147483648 ≤ v ∧ v ≤ 2147483647 := by
  simp [inIntRange, INT_MIN, INT_MAX]

theorem numeralValue_printInt (v : Int) (hv : inIntRange v = true) :
    numeralValue (printInt v) = some v := by
  obtain ⟨d1, d2, d3⟩ := decDigits_spec v.natAbs
  by_cases hneg : v < 0
  · have hs : scanSign (printInt v) = (true, decDigits v.natAbs) := by
      simp only [printInt, if_pos hneg]; rfl
    have hval : -(digitsValue (decDigits v.natAbs) : Int) = v := by
      rw [d3]; omega
    unfold numeralValue
    rw [hs]
    simp only [if_pos (And.intro d1 d2), if_true, hval, hv]
  · have hs : scanSign (printInt v) = (false, decDigits v.natAbs) := by
      simp only [printInt, if_neg hneg]
      exact scanSign_digits _ d1 d2
    have hval : (digitsValue (decDigits v.natAbs) : Int) = v := by
      rw [d3]; omega
    unfold numeralValue
    rw [hs]
    simp only [if_pos (And.intro d1 d2), Bool.false_eq_true, if_false, hval, hv, if_true]

theorem printInt_length (v : Int) (hv : inIntRange v = true) : (printInt v).length ≤ 11 := by
  rw [inIntRange_iff] at hv
  have h : v.natAbs < 10 ^ 10 := by omega
  have := decDigits_length v.natAbs h
  unfold printInt
  split <;> simp <;> omega

theorem numeral_chars (tx : List Nat) (v : Int) (hv : numeralValue tx = some v) :
    tx ≠ [] ∧ tx.all isNumChar = true := by
  by_cases hd : (scanSign tx).2 ≠ [] ∧ (scanSign tx).2.all isdigit = true
  case neg =>
    unfold numeralValue at hv
    rw [if_neg hd] at hv
    cases hv
  case pos =>
    obtain ⟨hne, hdig⟩ := hd
    have hmono : ∀ l : List Nat, l.all isdigit = true → l.all isNumChar = true := by
      intro l hl
      rw [List.all_eq_true] at hl ⊢
      intro c hc
      simp [isNumChar, hl c hc]
    rcases scanSign_cases tx with ⟨t, h1, h2⟩ | ⟨t, h1, h2⟩ | ⟨h2, _, _⟩
    · subst h1
      rw [h2] at hdig
      refine ⟨by simp, ?_⟩
      simp only [List.all_cons, Bool.and_eq_true]
      exact ⟨by decide, hmono t hdig⟩
    · subst h1
      rw [h2] at hdig
      refine ⟨by simp, ?_⟩
      simp only [List.all_cons, Bool.and_eq_true]
      exact ⟨by decide, hmono t hdig⟩
    · rw [h2] at hne hdig
      exact ⟨hne, hmono tx hdig⟩

/-! ## Reading a well-formed header -/

theorem cstr_of_all (l : List Nat) (h : l.all (fun c => c != 0) = true) : cstr l = l := by
  unfold cstr
  induction l with
  | nil => rfl
  | cons c l ih =>
    simp only [List.all_cons, Bool.and_eq_true] at h
    simp [List.takeWhile, h.1, ih h.2]

theorem all_mono (p q : Nat → Bool) (hpq : ∀ c, p c = true → q c = true) (l : List Nat)
    (h : l.all p = true) : l.all q = true := by
  rw [List.all_eq_true] at h ⊢
  exact fun c hc => hpq c (h c hc)

theorem isNumChar_ne_zero (c : Nat) (h : isNumChar c = true) : (c != 0) = true := by
  simp only [isNumChar, isdigit, Bool.or_eq_true, beq_iff_eq, Bool.and_eq_true,
    decide_eq_true_eq] at h
  simp only [bne_iff_ne, ne_eq]
  omega

theorem isBlank_ne_zero (c : Nat) (h : (isspace c && c != 10) = true) : (c != 0) = true := by
  simp only [isspace, Bool.and_eq_true, Bool.or_eq_true, beq_iff_eq, decide_eq_true_eq,
    bne_iff_ne, ne_eq] at h
  simp only [bne_iff_ne, ne_eq]
  omega

theorem isBlank_isspace (c : Nat) (h : (isspace c && c != 10) = true) : isspace c = true := by
  simp only [Bool.and_eq_true] at h
  exact h.1

theorem startsNo_append (p : Nat → Bool) (a t : List Nat) (ha : a ≠ [])
    (h : ∀ c ∈ a, p c = false) : startsNo p (a ++ t) = true := by
  cases a with
  | nil => exact absurd rfl ha
  | cons c a => simp [startsNo, h c (List.mem_cons_self _ _)]

theorem startsNo_append_or (p : Nat → Bool) (a t : List Nat)
    (h : ∀ c ∈ a, p c = false) (ht : startsNo p t = true) : startsNo p (a ++ t) = true := by
  cases a with
  | nil => simpa using ht
  | cons c a => simp [startsNo, h c (List.mem_cons_self _ _)]

theorem blank_not_digit (l : List Nat) (h : isBlanks l = true) :
    ∀ c ∈ l, isdigit c = false := by
  intro c hc
  have := (List.all_eq_true.1 h) c hc
  simp only [isspace, Bool.and_eq_true, Bool.or_eq_true, beq_iff_eq, decide_eq_true_eq,
    bne_iff_ne, ne_eq] at this
  simp only [isdigit, Bool.and_eq_false_iff, decide_eq_false_iff_not]
  omega

theorem numChar_not_space (l : List Nat) (h : l.all isNumChar = true) :
    ∀ c ∈ l, isspace c = false := by
  intro c hc
  have := (List.all_eq_true.1 h) c hc
  simp only [isNumChar, isdigit, Bool.or_eq_true, beq_iff_eq, Bool.and_eq_true,
    decide_eq_true_eq] at this
  simp only [isspace, Bool.or_eq_false_iff, beq_eq_false_iff_ne, Bool.and_eq_false_iff,
    decide_eq_false_iff_not]
  omega

theorem numeral_head (tx : List Nat) (v : Int) (hv : numeralValue tx = some v)
    (t : List Nat) : (tx ++ t).head? ≠ some 35 ∧ tx ++ t ≠ [] := by
  obtain ⟨h1, h2⟩ := numeral_chars tx v hv
  cases tx with
  | nil => exact absurd rfl h1
  | cons c l =>
    simp only [List.all_cons, Bool.and_eq_true] at h2
    have := h2.1
    simp only [isNumChar, isdigit, Bool.or_eq_true, beq_iff_eq, Bool.and_eq_true,
      decide_eq_true_eq] at this
    refine ⟨?_, by simp⟩
    simp only [List.cons_append, List.head?_cons, ne_eq, Option.some.injEq]
    omega

/-- The first `%d` of a line that begins with a numeral followed by a blank, a newline
or nothing. -/
theorem scanInt_line (tx rest : List Nat) (v : Int) (hv : numeralValue tx = some v)
    (hrest : startsNo isdigit rest = true) :
    scanInt (tx ++ rest) = Scan.ok v rest := by
  have := scanInt_numeral [] tx rest v rfl hv hrest
  simpa using this

theorem sscanf_d_d_line (wText sep hText post : List Nat) (w h w0 h0 : Int)
    (hw : numeralValue wText = some w) (hh : numeralValue hText = some h)
    (hsep : isBlanks sep = true) (hne : sep ≠ []) (hpost : isBlanks post = true) :
    sscanf_d_d (wText ++ sep ++ hText ++ post ++ [10]) w0 h0 = some (w, h) := by
  obtain ⟨_, cw⟩ := numeral_chars wText w hw
  obtain ⟨hhne, ch⟩ := numeral_chars hText h hh
  have hall : (wText ++ sep ++ hText ++ post ++ [10]).all (fun c => c != 0) = true := by
    simp only [List.all_append, Bool.and_eq_true]
    exact ⟨⟨⟨⟨all_mono _ _ isNumChar_ne_zero _ cw, all_mono _ _ isBlank_ne_zero _ hsep⟩,
      all_mono _ _ isNumChar_ne_zero _ ch⟩, all_mono _ _ isBlank_ne_zero _ hpost⟩, by decide⟩
  have e1 : wText ++ sep ++ hText ++ post ++ [10]
      = wText ++ (sep ++ (hText ++ (post ++ [10]))) := by simp
  have s1 : scanInt (wText ++ (sep ++ (hText ++ (post ++ [10]))))
      = Scan.ok w (sep ++ (hText ++ (post ++ [10]))) :=
    scanInt_line wText _ w hw (startsNo_append isdigit sep _ hne (blank_not_digit sep hsep))
  have d2 : (sep ++ (hText ++ (post ++ [10]))).dropWhile isspace = hText ++ (post ++ [10]) := by
    rw [dropWhile_append_all isspace sep _ (all_mono _ _ isBlank_isspace _ hsep)]
    exact dropWhile_startsNo isspace _
      (startsNo_append isspace hText _ hhne (numChar_not_space hText ch))
  have s2 : scanInt (hText ++ (post ++ [10])) = Scan.ok h (post ++ [10]) :=
    scanInt_line hText _ h hh
      (startsNo_append_or isdigit post [10] (blank_not_digit post hpost) (by decide))
  unfold sscanf_d_d
  rw [cstr_of_all _ hall, e1, s1]
  simp only [d2, s2]

theorem sscanf_d_line (mText post : List Nat) (m m0 : Int)
    (hm : numeralValue mText = some m) (hpost : isBlanks post = true) :
    sscanf_d (mText ++ post ++ [10]) m0 = some m := by
  obtain ⟨_, cm⟩ := numeral_chars mText m hm
  have hall : (mText ++ post ++ [10]).all (fun c => c != 0) = true := by
    simp only [List.all_append, Bool.and_eq_true]
    exact ⟨⟨all_mono _ _ isNumChar_ne_zero _ cm, all_mono _ _ isBlank_ne_zero _ hpost⟩,
      by decide⟩
  have e1 : mText ++ post ++ [10] = mText ++ (post ++ [10]) := by simp
  have s1 : scanInt (mText ++ (post ++ [10])) = Scan.ok m (post ++ [10]) :=
    scanInt_line mText _ m hm
      (startsNo_append_or isdigit post [10] (blank_not_digit post hpost) (by decide))
  unfold sscanf_d
  rw [cstr_of_all _ hall, e1, s1]

theorem wellFormed_iff (H : Header) :
    H.wellFormed = true ↔
      fitsLine (80 :: H.tag :: H.magicRest) = true ∧ H.comments.all isComment = true
      ∧ (numeralValue H.wText = some H.w ∧ 0 ≤ H.w ∧ numeralValue H.hText = some H.h ∧ 0 ≤ H.h)
      ∧ (isBlanks H.sep = true ∧ H.sep ≠ [] ∧ isBlanks H.post = true
          ∧ fitsLine H.dimsLine = true)
      ∧ (numeralValue H.mText = some H.maxval ∧ isBlanks H.postMax = true
          ∧ fitsLine H.maxLine = true) := by
  simp only [Header.wellFormed, Bool.and_eq_true, beq_iff_eq, decide_eq_true_eq, bne_iff_ne,
    ne_eq, and_assoc]

/-- After the magic line of a well-formed header, the readers reach the dimensions
line and then the maxval line, whatever the comment lines hold. -/
theorem header_lines (H : Header) (payload : List Nat) (hwf : H.wellFormed = true) :
    readDims (joinLines H.comments ++ (H.dimsLine ++ [10]) ++ (H.maxLine ++ [10]) ++ payload)
        = some (H.dimsLine ++ [10], H.maxLine ++ 10 :: payload)
      ∧ fgets 256 (H.maxLine ++ 10 :: payload) = some (H.maxLine ++ [10], payload)
      ∧ (∀ w0 h0, sscanf_d_d (H.dimsLine ++ [10]) w0 h0 = some (H.w, H.h))
      ∧ (∀ m0, sscanf_d (H.maxLine ++ [10]) m0 = some H.maxval) := by
  obtain ⟨_, hc, ⟨hw, _, hh, _⟩, ⟨hsep, hne, hpost, hfd⟩, ⟨hm, hpm, hfm⟩⟩ :=
    (wellFormed_iff H).1 hwf
  have hhead := numeral_head H.wText H.w hw (H.sep ++ H.hText ++ H.post)
  have hd : H.wText ++ (H.sep ++ H.hText ++ H.post) = H.dimsLine := by
    simp [Header.dimsLine]
  rw [hd] at hhead
  refine ⟨?_, fgets_line _ _ hfm, ?_, ?_⟩
  · have e : joinLines H.comments ++ (H.dimsLine ++ [10]) ++ (H.maxLine ++ [10]) ++ payload
        = joinLines H.comments ++ (H.dimsLine ++ 10 :: (H.maxLine ++ 10 :: payload)) := by
      simp
    rw [e, readDims_comments _ _ hc]
    exact readDims_line _ _ hfd hhead.1 hhead.2
  · intro w0 h0
    exact sscanf_d_d_line _ _ _ _ _ _ w0 h0 hw hh hsep hne hpost
  · intro m0
    exact sscanf_d_line _ _ _ m0 hm hpm

theorem strncmp_magic (t : Nat) (rest : List Nat) (c : Nat) (ht : t ≠ 0) (hc : c ≠ 0) :
    strncmp (80 :: t :: rest) [80, c] 2 = decide (t ≠ c) := by
  have h1 : cstr (80 :: t :: rest) = 80 :: t :: cstr rest := by
    have ht2 : (t != 0) = true := by simpa using ht
    simp only [cstr, List.takeWhile, ht2]
    rfl
  have h2 : cstr [80, c] = [80, c] := by
    have hc2 : (c != 0) = true := by simpa using hc
    simp only [cstr, List.takeWhile, hc2]
    rfl
  simp [strncmp, h1, h2]

theorem pgmread_header (H : Header) (payload : List Nat) (w0 h0 : Int)
    (hwf : H.wellFormed = true) (htag : H.tag = 53 ∨ H.tag = 50) :
    pgmread (some (H.text ++ payload)) w0 h0
      = pgmPayload (H.tag == 53) H.w H.h payload := by
  obtain ⟨h1, h2, h3, h4⟩ := header_lines H payload hwf
  have hfit := ((wellFormed_iff H).1 hwf).1
  have e : H.text ++ payload = (80 :: H.tag :: H.magicRest) ++ 10 :: (joinLines H.comments
      ++ (H.dimsLine ++ [10]) ++ (H.maxLine ++ [10]) ++ payload) := by
    simp [Header.text]
  have ht0 : H.tag ≠ 0 := by omega
  rw [pgmread_stages, e, fgets_line _ _ hfit]
  simp only [List.cons_append, strncmp_magic H.tag _ 53 ht0 (by decide),
    strncmp_magic H.tag _ 50 ht0 (by decide), h1, pgmBody, h2,
    h3, h4]
  rcases htag with t | t <;> rw [t] <;> rfl

theorem ppmread_header (H : Header) (payload : List Nat) (w0 h0 m0 : Int)
    (hwf : H.wellFormed = true) (htag : H.tag = 54 ∨ H.tag = 51) :
    ppmread (some (H.text ++ payload)) w0 h0 m0
      = if H.maxval < 0 ∨ H.maxval > 255 then PpmResult.exit (Diag.badMaxval H.maxval)
        else ppmPayload (H.tag == 54) H.w H.h H.maxval payload := by
  obtain ⟨h1, h2, h3, h4⟩ := header_lines H payload hwf
  have hfit := ((wellFormed_iff H).1 hwf).1
  have e : H.text ++ payload = (80 :: H.tag :: H.magicRest) ++ 10 :: (joinLines H.comments
      ++ (H.dimsLine ++ [10]) ++ (H.maxLine ++ [10]) ++ payload) := by
    simp [Header.text]
  have ht0 : H.tag ≠ 0 := by omega
  rw [ppmread_stages, e, fgets_line _ _ hfit]
  simp only [List.cons_append, strncmp_magic H.tag _ 54 ht0 (by decide),
    strncmp_magic H.tag _ 51 ht0 (by decide), h1, ppmBody, h2,
    h3, h4]
  rcases htag with t | t <;> rw [t] <;> rfl

/-! ## Binary payload -/

theorem mulInt_of_range (a b : Int) (h1 : -2147483648 ≤ a * b) (h2 : a * b ≤ 2147483647) :
    mulInt a b = some (a * b) := by
  have : inIntRange (a * b) = true := (inIntRange_iff _).2 ⟨h1, h2⟩
  simp [mulInt, this]

theorem drop_replicate_zero (n m : Nat) :
    (List.replicate (n + m) 0).drop n = List.replicate m 0 := by
  simp

theorem pgmPayload_binary (w h : Int) (s : List Nat) (n : Nat) (hn : w * h = (n : Int))
    (hr : (n : Int) ≤ 2147483647) :
    pgmPayload true w h s =
      if s.length < n then PgmResult.exit (Diag.shortRead s.length n)
      else PgmResult.image (s.take n ++ List.replicate (7 * n) 0) w h := by
  have hm : mulInt w h = some (n : Int) := by
    rw [← hn]; exact mulInt_of_range w h (by omega) (by omega)
  have hc : calloc (n : Int) 8 = some (List.replicate (n * 8) 0) := by
    simp [calloc]
  simp only [pgmPayload, hm, hc, if_true, fread, Int.toNat_ofNat]
  by_cases hs : s.length < n
  · have h1 : (s.take n).length = s.length := by simp; omega
    rw [if_pos hs, h1, if_pos]
    simp only [ne_eq, Nat.cast_inj]
    omega
  · have h1 : (s.take n).length = n := by simp; omega
    rw [if_neg hs, h1, if_neg (by simp)]
    have : n * 8 = n + 7 * n := by omega
    rw [this, drop_replicate_zero]

theorem ppmPayload_binary (w h m : Int) (s : List Nat) (n : Nat) (hn : w * h = (n : Int))
    (hr : 3 * (n : Int) ≤ 2147483647) :
    ppmPayload true w h m s =
      if s.length < 3 * n then
        PpmResult.exit (Diag.shortRead (Int.tdiv (s.length : Int) 3) n)
      else PpmResult.image (s.take (3 * n) ++ List.replicate (7 * (3 * n)) 0) w h m := by
  have hm : mulInt w h = some (n : Int) := by
    rw [← hn]; exact mulInt_of_range w h (by omega) (by omega)
  have hm3 : mulInt (n : Int) 3 = some ((3 * n : Nat) : Int) := by
    rw [mulInt_of_range (n : Int) 3 (by omega) (by omega)]
    congr 1
    push_cast
    ring
  have hc : calloc ((3 * n : Nat) : Int) 8 = some (List.replicate (3 * n * 8) 0) := by
    simp only [calloc, Int.toNat_ofNat]
    rw [if_neg (by omega)]
  simp only [ppmPayload, hm, hm3, hc, if_true, fread, Int.toNat_ofNat]
  by_cases hs : s.length < 3 * n
  · have h1 : (s.take (3 * n)).length = s.length := by simp; omega
    rw [if_pos hs, h1, if_pos]
    simp only [ne_eq, Nat.cast_inj]
    omega
  · have h1 : (s.take (3 * n)).length = 3 * n := by simp; omega
    rw [if_neg hs, h1, if_neg (by simp)]
    have : 3 * n * 8 = 3 * n + 7 * (3 * n) := by omega
    rw [this, drop_replicate_zero]

/-! ## The header the writer prints -/

theorem writerHeader_text (w h : Int) (comment : Option (List Nat)) (binsave : Int) :
    (writerHeader w h comment binsave).text = pgmHeader w h comment binsave := by
  cases comment with
  | none =>
    by_cases hb : binsave = 1 <;>
      simp [writerHeader, Header.text, Header.dimsLine, Header.maxLine, pgmHeader, joinLines, hb]
  | some c =>
    by_cases hb : binsave = 1 <;>
      simp [writerHeader, Header.text, Header.dimsLine, Header.maxLine, pgmHeader, joinLines, hb]

theorem printInt_no_newline (v : Int) (hv : inIntRange v = true) :
    ∀ c ∈ printInt v, c ≠ 10 := by
  obtain ⟨_, hc⟩ := numeral_chars _ v (numeralValue_printInt v hv)
  intro c hm
  have := (List.all_eq_true.1 hc) c hm
  simp only [isNumChar, isdigit, Bool.or_eq_true, beq_iff_eq, Bool.and_eq_true,
    decide_eq_true_eq] at this
  omega

theorem writerHeader_wellFormed (w h : Int) (binsave : Int)
    (hw : 0 ≤ w) (hh : 0 ≤ h) (hwr : inIntRange w = true) (hhr : inIntRange h = true) :
    (writerHeader w h none binsave).wellFormed = true := by
  rw [wellFormed_iff]
  have lw := printInt_length w hwr
  have lh := printInt_length h hhr
  have nw := printInt_no_newline w hwr
  have nh := printInt_no_newline h hhr
  refine ⟨by by_cases hb : binsave = 1 <;> simp [writerHeader, hb] <;> rfl, rfl,
    ⟨numeralValue_printInt w hwr, hw, numeralValue_printInt h hhr, hh⟩,
    ⟨rfl, by simp [writerHeader], rfl, ?_⟩, ⟨?_, rfl, ?_⟩⟩
  rotate_left
  · show numeralValue (printInt 255) = some 255
    decide
  · show fitsLine (printInt 255 ++ [32]) = true
    decide
  rw [fitsLine_iff]
  constructor
  · intro c hc
    simp only [writerHeader, Header.dimsLine, List.mem_append, List.mem_singleton] at hc
    rcases hc with ((hc | hc) | hc) | hc
    · exact nw c hc
    · omega
    · exact nh c hc
    · omega
  · simp only [writerHeader, Header.dimsLine, List.length_append, List.length_singleton]
    omega

/-! ## ASCII payload -/

theorem tokensText_cons (t : Token) (ts : List Token) :
    tokensText (t :: ts) = t.ws ++ t.text ++ tokensText ts := by
  simp [tokensText]

theorem chainOk_of_tokensOk (tail : List Nat) (htail : startsNo isdigit tail = true) :
    ∀ ts : List Token, ts.all Token.wellFormed = true →
      ts.tail.all (fun t => t.ws != []) = true → chainOk tail ts = true := by
  intro ts
  induction ts with
  | nil => intro _ _; rfl
  | cons t ts ih =>
    intro h1 h2
    simp only [List.all_cons, Bool.and_eq_true] at h1
    simp only [List.tail_cons] at h2
    simp only [chainOk, Bool.and_eq_true]
    refine ⟨⟨h1.1, ?_⟩, ih h1.2 ?_⟩
    · cases ts with
      | nil => simpa [tokensText] using htail
      | cons u us =>
        simp only [List.all_cons, Bool.and_eq_true, bne_iff_ne, ne_eq] at h2
        have hu := h1.2
        simp only [List.all_cons, Bool.and_eq_true, Token.wellFormed] at hu
        have hsp : ∀ c ∈ u.ws, isdigit c = false := by
          intro c hc
          have := (List.all_eq_true.1 hu.1.1) c hc
          simp only [isspace, Bool.or_eq_true, beq_iff_eq, Bool.and_eq_true,
            decide_eq_true_eq] at this
          simp only [isdigit, Bool.and_eq_false_iff, decide_eq_false_iff_not]
          omega
        rw [tokensText_cons, List.append_assoc, List.append_assoc]
        exact startsNo_append isdigit u.ws _ h2.1 hsp
    · cases ts with
      | nil => rfl
      | cons u us =>
        simp only [List.all_cons, Bool.and_eq_true] at h2
        cases us with
        | nil => rfl
        | cons x xs => simpa using h2.2

theorem chainOk_drop (tail : List Nat) (n : Nat) :
    ∀ ts : List Token, chainOk tail ts = true → chainOk tail (ts.drop n) = true := by
  induction n with
  | zero => intro ts h; simpa using h
  | succ n ih =>
    intro ts h
    cases ts with
    | nil => rfl
    | cons t ts =>
      simp only [chainOk, Bool.and_eq_true] at h
      simpa using ih ts h.2

theorem asciiRow_tokens (tail : List Nat) (n : Nat) :
    ∀ (ts : List Token) (done todo : List Nat), n ≤ ts.length → n ≤ todo.length →
      chainOk tail ts = true →
      asciiRow n (tokensText ts ++ tail) (done ++ todo) done.length
        = AsciiStep.next (tokensText (ts.drop n) ++ tail)
            (done ++ tokenSamples (ts.take n) ++ todo.drop n) (done.length + n) := by
  induction n with
  | zero => intro ts done todo _ _ _; simp [asciiRow, tokenSamples]
  | succ n ih =>
    intro ts done todo h1 h2 h3
    cases ts with
    | nil => simp at h1
    | cons t ts =>
      cases todo with
      | nil => simp at h2
      | cons y todo =>
        simp only [chainOk, Bool.and_eq_true, Token.wellFormed, beq_iff_eq] at h3
        obtain ⟨⟨⟨hws, hnum⟩, hnext⟩, hrest⟩ := h3
        have hscan : scanInt (tokensText (t :: ts) ++ tail)
            = Scan.ok t.value (tokensText ts ++ tail) := by
          rw [tokensText_cons, List.append_assoc]
          exact scanInt_numeral t.ws t.text _ t.value hws hnum hnext
        have hset : (done ++ y :: todo).set done.length (toUChar t.value)
            = (done ++ [toUChar t.value]) ++ todo := by
          simp
        have hk : done.length < (done ++ y :: todo).length := by simp
        rw [asciiRow, hscan]
        simp only [if_pos hk, hset]
        have hlen : done.length + 1 = (done ++ [toUChar t.value]).length := by simp
        rw [hlen, ih ts (done ++ [toUChar t.value]) todo (by simpa using h1)
          (by simpa using h2) hrest]
        simp [tokenSamples, toUChar]
        omega

theorem asciiRows_tokens (tail : List Nat) (w : Int) (c : Nat) (hw : w.toNat = c) (r : Nat) :
    ∀ (ts : List Token) (done todo : List Nat), r * c ≤ ts.length →
      r * c ≤ todo.length → chainOk tail ts = true →
      asciiRows w r (tokensText ts ++ tail) (done ++ todo) done.length
        = AsciiStep.next (tokensText (ts.drop (r * c)) ++ tail)
            (done ++ tokenSamples (ts.take (r * c)) ++ todo.drop (r * c))
            (done.length + r * c) := by
  induction r with
  | zero => intro ts done todo _ _ _; simp [asciiRows, tokenSamples]
  | succ r ih =>
    intro ts done todo h1 h2 h3
    have hc : (r + 1) * c = c + r * c := by ring
    rw [hc] at h1 h2 ⊢
    generalize r * c = m at h1 h2 ih ⊢
    have hrow := asciiRow_tokens tail c ts done todo (by omega) (by omega) h3
    have hlen : done.length + c = (done ++ tokenSamples (ts.take c)).length := by
      simp [tokenSamples]; omega
    have h4 : m ≤ (ts.drop c).length := by simp; omega
    have h5 : m ≤ (todo.drop c).length := by simp; omega
    rw [asciiRows, hw, hrow]
    simp only []
    rw [hlen, ih (ts.drop c) (done ++ tokenSamples (ts.take c)) (todo.drop c) h4 h5
      (chainOk_drop tail _ ts h3)]
    have e1 : (ts.drop c).drop m = ts.drop (c + m) := by rw [List.drop_drop, Nat.add_comm]
    have e2 : (todo.drop c).drop m = todo.drop (c + m) := by rw [List.drop_drop, Nat.add_comm]
    have e3 : tokenSamples (ts.take c) ++ tokenSamples ((ts.drop c).take m)
        = tokenSamples (ts.take (c + m)) := by
      simp [tokenSamples, List.take_add]
    rw [e1, e2, List.append_assoc done, e3, ← hlen, Nat.add_assoc]

theorem asciiRowsRgb_tokens (tail : List Nat) (w cols : Int) (c : Nat)
    (hm : mulInt w 3 = some cols) (hw : cols.toNat = c) (r : Nat) :
    ∀ (ts : List Token) (done todo : List Nat), r * c ≤ ts.length →
      r * c ≤ todo.length → chainOk tail ts = true →
      asciiRowsRgb w r (tokensText ts ++ tail) (done ++ todo) done.length
        = AsciiStep.next (tokensText (ts.drop (r * c)) ++ tail)
            (done ++ tokenSamples (ts.take (r * c)) ++ todo.drop (r * c))
            (done.length + r * c) := by
  induction r with
  | zero => intro ts done todo _ _ _; simp [asciiRowsRgb, tokenSamples]
  | succ r ih =>
    intro ts done todo h1 h2 h3
    have hc : (r + 1) * c = c + r * c := by ring
    rw [hc] at h1 h2 ⊢
    generalize r * c = m at h1 h2 ih ⊢
    have hrow := asciiRow_tokens tail c ts done todo (by omega) (by omega) h3
    have hlen : done.length + c = (done ++ tokenSamples (ts.take c)).length := by
      simp [tokenSamples]; omega
    have h4 : m ≤ (ts.drop c).length := by simp; omega
    have h5 : m ≤ (todo.drop c).length := by simp; omega
    rw [asciiRowsRgb, hm]
    simp only [hw, hrow]
    rw [hlen, ih (ts.drop c) (done ++ tokenSamples (ts.take c)) (todo.drop c) h4 h5
      (chainOk_drop tail _ ts h3)]
    have e1 : (ts.drop c).drop m = ts.drop (c + m) := by rw [List.drop_drop, Nat.add_comm]
    have e2 : (todo.drop c).drop m = todo.drop (c + m) := by rw [List.drop_drop, Nat.add_comm]
    have e3 : tokenSamples (ts.take c) ++ tokenSamples ((ts.drop c).take m)
        = tokenSamples (ts.take (c + m)) := by
      simp [tokenSamples, List.take_add]
    rw [e1, e2, List.append_assoc done, e3, ← hlen, Nat.add_assoc]

/-- The ASCII branch of `pgmread` on a payload of enough tokens. -/
theorem pgmPayload_ascii (w h : Int) (ts : List Token) (tail : List Nat)
    (hw : 0 ≤ w) (hh : 0 ≤ h) (hr : w * h ≤ 2147483647)
    (hn : (w * h).toNat ≤ ts.length) (hts : chainOk tail ts = true) :
    pgmPayload false w h (tokensText ts ++ tail)
      = PgmResult.image (tokenSamples (ts.take (w * h).toNat)
          ++ List.replicate (7 * (w * h).toNat) 0) w h := by
  have hnn : 0 ≤ w * h := Int.mul_nonneg hw hh
  have hm : mulInt w h = some (w * h) := mulInt_of_range w h (by omega) hr
  have hc : calloc (w * h) 8 = some (List.replicate ((w * h).toNat * 8) 0) := by
    simp only [calloc]
    rw [if_neg (by omega)]
  have hrc : h.toNat * w.toNat = (w * h).toNat := by
    have h1 : ((h.toNat * w.toNat : Nat) : Int) = w * h := by
      push_cast
      rw [Int.toNat_of_nonneg hw, Int.toNat_of_nonneg hh]
      ring
    omega
  have hrows := asciiRows_tokens tail w w.toNat rfl h.toNat ts []
    (List.replicate ((w * h).toNat * 8) 0)
    (by rw [hrc]; exact hn) (by rw [hrc]; simp; omega) hts
  simp only [List.nil_append, List.length_nil] at hrows
  simp only [pgmPayload, hm, hc, hrows, Bool.false_eq_true, if_false, hrc]
  congr 2
  rw [List.drop_replicate]
  congr 1
  omega

/-- The ASCII branch of `ppmread` on a payload of enough tokens. -/
theorem ppmPayload_ascii (w h m : Int) (ts : List Token) (tail : List Nat)
    (hw : 0 ≤ w) (hh : 0 ≤ h) (hr : 3 * (w * h) ≤ 2147483647)
    (hn : (3 * (w * h)).toNat ≤ ts.length) (hts : chainOk tail ts = true) :
    ppmPayload false w h m (tokensText ts ++ tail)
      = PpmResult.image (tokenSamples (ts.take (3 * (w * h)).toNat)
          ++ List.replicate (7 * (3 * (w * h)).toNat) 0) w h m := by
  have hnn : 0 ≤ w * h := Int.mul_nonneg hw hh
  have hm : mulInt w h = some (w * h) := mulInt_of_range w h (by omega) (by omega)
  have hm3 : mulInt (w * h) 3 = some (3 * (w * h)) := by
    rw [mulInt_of_range (w * h) 3 (by omega) (by omega)]
    congr 1
    ring
  have hc : calloc (3 * (w * h)) 8 = some (List.replicate ((3 * (w * h)).toNat * 8) 0) := by
    simp only [calloc]
    rw [if_neg (by omega)]
  by_cases hz : h = 0
  · subst hz
    simp only [mul_zero, Int.toNat_zero, List.take_zero, Nat.mul_zero, Nat.zero_mul,
      List.replicate_zero] at hm hm3 hc ⊢
    simp only [ppmPayload, hm, hm3, hc, Bool.false_eq_true, if_false, Int.toNat_zero,
      asciiRowsRgb]
    rfl
  · have hh1 : 1 ≤ h := by omega
    have hw3 : w * 3 ≤ 2147483647 := by nlinarith
    have hmw : mulInt w 3 = some (w * 3) := mulInt_of_range w 3 (by omega) hw3
    have hrc : h.toNat * (w * 3).toNat = (3 * (w * h)).toNat := by
      have h1 : ((h.toNat * (w * 3).toNat : Nat) : Int) = 3 * (w * h) := by
        push_cast
        rw [Int.toNat_of_nonneg hh, Int.toNat_of_nonneg (by omega)]
        ring
      omega
    have hrows := asciiRowsRgb_tokens tail w (w * 3) (w * 3).toNat hmw rfl h.toNat ts []
      (List.replicate ((3 * (w * h)).toNat * 8) 0)
      (by rw [hrc]; exact hn) (by rw [hrc]; simp; omega) hts
    simp only [List.nil_append, List.length_nil] at hrows
    simp only [ppmPayload, hm, hm3, hc, hrows, Bool.false_eq_true, if_false, hrc]
    congr 2
    rw [List.drop_replicate]
    congr 1
    omega

theorem wellFormed_withTag (H : Header) (t : Nat) (ht : t ≠ 10)
    (hwf : H.wellFormed = true) : (H.withTag t).wellFormed = true := by
  rw [wellFormed_iff] at hwf ⊢
  obtain ⟨h1, h2⟩ := hwf
  refine ⟨?_, h2⟩
  rw [fitsLine_iff] at h1 ⊢
  simp only [Header.withTag, List.mem_cons, List.length_cons, forall_eq_or_imp] at h1 ⊢
  exact ⟨⟨h1.1.1, ht, h1.1.2.2⟩, h1.2⟩

/-! ## The magic test -/

theorem cstr_take_two (line : List Nat) (c : Nat) (h : line.take 2 ≠ [80, c]) :
    (cstr line).take 2 ≠ [80, c] := by
  intro hc
  apply h
  match line, hc with
  | [], hc => simp [cstr] at hc
  | [a], hc =>
    by_cases ha : a = 0
    · simp [cstr, List.takeWhile_cons, ha] at hc
    · simp [cstr, List.takeWhile_cons, ha] at hc
  | a :: b :: t, hc =>
    by_cases ha : a = 0
    · simp [cstr, List.takeWhile_cons, ha] at hc
    · by_cases hb : b = 0
      · simp [cstr, List.takeWhile_cons, ha, hb] at hc
      · simp [cstr, List.takeWhile_cons, ha, hb] at hc
        simp [hc.1, hc.2]

theorem fgets_take_two (s line s1 : List Nat) (c : Nat) (hc : c ≠ 10)
    (hf : fgets 256 s = some (line, s1)) (h : s.take 2 ≠ [80, c]) :
    line.take 2 ≠ [80, c] := by
  match s, hf, h with
  | [], hf, _ => simp [fgets] at hf
  | [a], hf, h =>
    by_cases ha : a = 10
    · simp [fgets, fgetsAux, ha] at hf
      rw [← hf.1]; simp
    · simp [fgets, fgetsAux, ha] at hf
      rw [← hf.1]; simp
  | a :: b :: t, hf, h =>
    by_cases ha : a = 10
    · simp [fgets, fgetsAux, ha] at hf
      rw [← hf.1]; simp
    · by_cases hb : b = 10
      · simp [fgets, fgetsAux, ha, hb] at hf
        rw [← hf.1]
        simp only [List.take_succ_cons, List.take_zero, ne_eq, List.cons.injEq, and_true,
          not_and]
        intro _ h2
        exact hc h2.symm
      · simp [fgets, fgetsAux, ha, hb] at hf
        rw [← hf.1]
        simpa using h

theorem strncmp_of_take (s line s1 : List Nat) (c : Nat) (hc : c ≠ 10) (hc0 : c ≠ 0)
    (hf : fgets 256 s = some (line, s1)) (h : s.take 2 ≠ [80, c]) :
    strncmp line [80, c] 2 = true := by
  have h1 := cstr_take_two line c (fgets_take_two s line s1 c hc hf h)
  have h2 : cstr [80, c] = [80, c] := by
    have hc2 : (c != 0) = true := by simpa using hc0
    simp only [cstr, List.takeWhile, hc2]
    rfl
  simp only [strncmp, h2, List.take_succ_cons, List.take_zero, List.take_nil,
    decide_eq_true_eq]
  exact h1

/-! ## What a successful read implies -/

theorem asciiRow_length (n : Nat) :
    ∀ (s data : List Nat) (k : Nat) (s2 data2 : List Nat) (k2 : Nat),
      asciiRow n s data k = AsciiStep.next s2 data2 k2 → data2.length = data.length := by
  induction n with
  | zero =>
    intro s data k s2 data2 k2 h
    simp only [asciiRow, AsciiStep.next.injEq] at h
    rw [← h.2.1]
  | succ n ih =>
    intro s data k s2 data2 k2 h
    rw [asciiRow] at h
    cases hs : scanInt s with
    | fail => rw [hs] at h; cases h
    | overflow => rw [hs] at h; cases h
    | ok v rest =>
      rw [hs] at h
      simp only [] at h
      by_cases hk : k < data.length
      · rw [if_pos hk] at h
        have := ih _ _ _ _ _ _ h
        simpa using this
      · rw [if_neg hk] at h
        cases h

theorem asciiRows_length (w : Int) (r : Nat) :
    ∀ (s data : List Nat) (k : Nat) (s2 data2 : List Nat) (k2 : Nat),
      asciiRows w r s data k = AsciiStep.next s2 data2 k2 → data2.length = data.length := by
  induction r with
  | zero =>
    intro s data k s2 data2 k2 h
    simp only [asciiRows, AsciiStep.next.injEq] at h
    rw [← h.2.1]
  | succ r ih =>
    intro s data k s2 data2 k2 h
    rw [asciiRows] at h
    cases hrow : asciiRow w.toNat s data k with
    | exit => rw [hrow] at h; cases h
    | undefined => rw [hrow] at h; cases h
    | next s3 data3 k3 =>
      rw [hrow] at h
      simp only [] at h
      rw [ih _ _ _ _ _ _ h, asciiRow_length _ _ _ _ _ _ _ hrow]

theorem asciiRowsRgb_length (w : Int) (r : Nat) :
    ∀ (s data : List Nat) (k : Nat) (s2 data2 : List Nat) (k2 : Nat),
      asciiRowsRgb w r s data k = AsciiStep.next s2 data2 k2 →
        data2.length = data.length := by
  induction r with
  | zero =>
    intro s data k s2 data2 k2 h
    simp only [asciiRowsRgb, AsciiStep.next.injEq] at h
    rw [← h.2.1]
  | succ r ih =>
    intro s data k s2 data2 k2 h
    rw [asciiRowsRgb] at h
    cases hm : mulInt w 3 with
    | none => rw [hm] at h; cases h
    | some cols =>
      rw [hm] at h
      simp only [] at h
      cases hrow : asciiRow cols.toNat s data k with
      | exit => rw [hrow] at h; cases h
      | undefined => rw [hrow] at h; cases h
      | next s3 data3 k3 =>
        rw [hrow] at h
        simp only [] at h
        rw [ih _ _ _ _ _ _ h, asciiRow_length _ _ _ _ _ _ _ hrow]

theorem mulInt_some (a b n : Int) (h : mulInt a b = some n) :
    n = a * b ∧ -2147483648 ≤ a * b ∧ a * b ≤ 2147483647 := by
  unfold mulInt at h
  by_cases hr : inIntRange (a * b) = true
  · rw [if_pos hr] at h
    exact ⟨(Option.some.inj h).symm, (inIntRange_iff _).1 hr⟩
  · rw [if_neg hr] at h
    cases h

theorem calloc_some (n : Int) (size : Nat) (data : List Nat) (h : calloc n size = some data) :
    0 ≤ n ∧ data.length = n.toNat * size := by
  unfold calloc at h
  by_cases hn : n < 0
  · rw [if_pos hn] at h; cases h
  · rw [if_neg hn] at h
    have := Option.some.inj h
    rw [← this]
    exact ⟨by omega, by simp⟩

theorem fread_length (n : Nat) (s data : List Nat) (hn : n ≤ data.length)
    (h : (fread n s data).1 = n) : (fread n s data).2.1.length = data.length := by
  simp only [fread] at h ⊢
  rw [List.length_append, List.length_drop, h]
  omega

/-- A block `pgmread` returns has 8 bytes for each of the `w*h` pixels, and `w*h` is
a non-negative `int`. -/
theorem pgmPayload_image (binary : Bool) (w h : Int) (s b : List Nat) (w2 h2 : Int)
    (hread : pgmPayload binary w h s = PgmResult.image b w2 h2) :
    w2 = w ∧ h2 = h ∧ 0 ≤ w * h ∧ w * h ≤ 2147483647 ∧ b.length = (w * h).toNat * 8 := by
  unfold pgmPayload at hread
  cases hm : mulInt w h with
  | none => rw [hm] at hread; cases hread
  | some numpix =>
    obtain ⟨hn, _, hr⟩ := mulInt_some w h numpix hm
    rw [hm] at hread
    simp only [] at hread
    cases hc : calloc numpix 8 with
    | none => rw [hc] at hread; cases hread
    | some data =>
      obtain ⟨h0, hlen⟩ := calloc_some numpix 8 data hc
      rw [hc] at hread
      simp only [] at hread
      cases binary with
      | true =>
        simp only [if_true] at hread
        by_cases hne : ((fread numpix.toNat s data).1 : Int) ≠ numpix
        · rw [if_pos hne] at hread; cases hread
        · rw [if_neg hne] at hread
          simp only [PgmResult.image.injEq] at hread
          obtain ⟨hb, hw, hh⟩ := hread
          have h1 : (fread numpix.toNat s data).1 = numpix.toNat := by
            have : ((fread numpix.toNat s data).1 : Int) = numpix := not_not.1 hne
            omega
          have h2 := fread_length numpix.toNat s data (by omega) h1
          subst hn
          exact ⟨hw.symm, hh.symm, h0, hr, by rw [← hb, h2, hlen]⟩
      | false =>
        simp only [Bool.false_eq_true, if_false] at hread
        cases hrows : asciiRows w h.toNat s data 0 with
        | exit => rw [hrows] at hread; cases hread
        | undefined => rw [hrows] at hread; cases hread
        | next s2 data2 k2 =>
          rw [hrows] at hread
          simp only [PgmResult.image.injEq] at hread
          obtain ⟨hb, hw, hh⟩ := hread
          have h2 := asciiRows_length w h.toNat s data 0 s2 data2 k2 hrows
          subst hn
          exact ⟨hw.symm, hh.symm, h0, hr, by rw [← hb, h2, hlen]⟩

theorem pgmread_image (file : Option (List Nat)) (w0 h0 : Int) (b : List Nat) (w h : Int)
    (hread : pgmread file w0 h0 = PgmResult.image b w h) :
    0 ≤ w * h ∧ w * h ≤ 2147483647 ∧ b.length = (w * h).toNat * 8 := by
  cases file with
  | none => simp [pgmread] at hread
  | some s0 =>
    rw [pgmread_stages] at hread
    cases h1 : fgets 256 s0 with
    | none => rw [h1] at hread; cases hread
    | some p1 =>
      obtain ⟨line1, s1⟩ := p1
      rw [h1] at hread
      simp only [] at hread
      split at hread
      · cases hread
      · cases h2 : readDims s1 with
        | none => rw [h2] at hread; cases hread
        | some p2 =>
          obtain ⟨line3, s3⟩ := p2
          rw [h2] at hread
          simp only [pgmBody] at hread
          cases h3 : sscanf_d_d line3 w0 h0 with
          | none => rw [h3] at hread; cases hread
          | some p3 =>
            obtain ⟨w1, h1'⟩ := p3
            rw [h3] at hread
            simp only [] at hread
            cases h4 : fgets 256 s3 with
            | none => rw [h4] at hread; cases hread
            | some p4 =>
              obtain ⟨line4, s4⟩ := p4
              rw [h4] at hread
              simp only [] at hread
              cases h5 : sscanf_d line4 0 with
              | none => rw [h5] at hread; cases hread
              | some m =>
                rw [h5] at hread
                simp only [] at hread
                obtain ⟨e1, e2, r1, r2, r3⟩ := pgmPayload_image _ _ _ _ _ _ _ hread
                subst e1 e2
                exact ⟨r1, r2, r3⟩

/-- A block `ppmread` returns has 8 bytes for each of the `3*w*h` samples, and
`3*w*h` is a non-negative `int`. -/
theorem ppmPayload_image (binary : Bool) (w h m : Int) (s b : List Nat) (w2 h2 m2 : Int)
    (hread : ppmPayload binary w h m s = PpmResult.image b w2 h2 m2) :
    w2 = w ∧ h2 = h ∧ m2 = m ∧ 0 ≤ w * h ∧ 3 * (w * h) ≤ 2147483647
      ∧ b.length = (3 * (w * h)).toNat * 8 := by
  unfold ppmPayload at hread
  cases hm : mulInt w h with
  | none => rw [hm] at hread; cases hread
  | some numpix =>
    obtain ⟨hn, _, _⟩ := mulInt_some w h numpix hm
    rw [hm] at hread
    simp only [] at hread
    cases hm3 : mulInt numpix 3 with
    | none => rw [hm3] at hread; cases hread
    | some n3 =>
      obtain ⟨hn3, _, hr3⟩ := mulInt_some numpix 3 n3 hm3
      rw [hm3] at hread
      simp only [] at hread
      cases hc : calloc n3 8 with
      | none => rw [hc] at hread; cases hread
      | some data =>
        obtain ⟨h0, hlen⟩ := calloc_some n3 8 data hc
        rw [hc] at hread
        simp only [] at hread
        have e3 : n3 = 3 * (w * h) := by rw [hn3, hn]; ring
        cases binary with
        | true =>
          simp only [if_true] at hread
          by_cases hne : ((fread n3.toNat s data).1 : Int) ≠ n3
          · rw [if_pos hne] at hread; cases hread
          · rw [if_neg hne] at hread
            simp only [PpmResult.image.injEq] at hread
            obtain ⟨hb, hw, hh, hmm⟩ := hread
            have h1 : (fread n3.toNat s data).1 = n3.toNat := by
              have : ((fread n3.toNat s data).1 : Int) = n3 := not_not.1 hne
              omega
            have h2 := fread_length n3.toNat s data (by omega) h1
            subst e3
            exact ⟨hw.symm, hh.symm, hmm.symm, by omega, by omega, by rw [← hb, h2, hlen]⟩
        | false =>
          simp only [Bool.false_eq_true, if_false] at hread
          cases hrows : asciiRowsRgb w h.toNat s data 0 with
          | exit => rw [hrows] at hread; cases hread
          | undefined => rw [hrows] at hread; cases hread
          | next s2 data2 k2 =>
            rw [hrows] at hread
            simp only [PpmResult.image.injEq] at hread
            obtain ⟨hb, hw, hh, hmm⟩ := hread
            have h2 := asciiRowsRgb_length w h.toNat s data 0 s2 data2 k2 hrows
            subst e3
            exact ⟨hw.symm, hh.symm, hmm.symm, by omega, by omega, by rw [← hb, h2, hlen]⟩

theorem ppmread_image (file : Option (List Nat)) (w0 h0 m0 : Int) (b : List Nat)
    (w h m : Int) (hread : ppmread file w0 h0 m0 = PpmResult.image b w h m) :
    0 ≤ w * h ∧ 3 * (w * h) ≤ 2147483647 ∧ b.length = (3 * (w * h)).toNat * 8
      ∧ 0 ≤ m ∧ m ≤ 255 := by
  cases file with
  | none => simp [ppmread] at hread
  | some s0 =>
    rw [ppmread_stages] at hread
    cases h1 : fgets 256 s0 with
    | none => rw [h1] at hread; cases hread
    | some p1 =>
      obtain ⟨line1, s1⟩ := p1
      rw [h1] at hread
      simp only [] at hread
      split at hread
      · cases hread
      · cases h2 : readDims s1 with
        | none => rw [h2] at hread; cases hread
        | some p2 =>
          obtain ⟨line3, s3⟩ := p2
          rw [h2] at hread
          simp only [ppmBody] at hread
          cases h3 : sscanf_d_d line3 w0 h0 with
          | none => rw [h3] at hread; cases hread
          | some p3 =>
            obtain ⟨w1, h1'⟩ := p3
            rw [h3] at hread
            simp only [] at hread
            cases h4 : fgets 256 s3 with
            | none => rw [h4] at hread; cases hread
            | some p4 =>
              obtain ⟨line4, s4⟩ := p4
              rw [h4] at hread
              simp only [] at hread
              cases h5 : sscanf_d line4 m0 with
              | none => rw [h5] at hread; cases hread
              | some mv =>
                rw [h5] at hread
                simp only [] at hread
                by_cases hbad : mv < 0 ∨ mv > 255
                · rw [if_pos hbad] at hread; cases hread
                · rw [if_neg hbad] at hread
                  obtain ⟨e1, e2, e3, r1, r2, r3⟩ := ppmPayload_image _ _ _ _ _ _ _ _ _ hread
                  subst e1 e2 e3
                  exact ⟨r1, r2, r3, by omega, by omega⟩

/-! ## Integers outside `int` range -/

/-- Dimensions whose product does not fit an `int` make `numpix = (*w)*(*h)` overflow,
which is undefined behaviour. -/
theorem dimensions_overflow :
    pgmread (some (bytes "P5\n65536 65536\n255\n")) 0 0 = PgmResult.undefined := by
  decide

/-- A payload numeral that does not fit an `int` makes the `%d` conversion undefined. -/
theorem token_overflow :
    pgmread (some (bytes "P2\n1 1\n255\n9223372036854775808\n")) 0 0
      = PgmResult.undefined := by
  decide

/-! ## Claims -/

theorem pgmwrite_binary_file (openOk : Bool) (room : Nat) (w h : Int) (data file : List Nat)
    (comment : Option (List Nat)) (hrange : 0 ≤ w * h ∧ w * h ≤ 2147483647)
    (hlen : (data.length : Int) = w * h)
    (hfile : pgmwrite openOk room w h data comment 1 = WriteResult.ret 0 (some file)) :
    file = pgmHeader w h comment 1 ++ data := by
  have hm : mulInt w h = some (w * h) := mulInt_of_range w h (by omega) (by omega)
  have hn : (w * h).toNat = data.length := by omega
  unfold pgmwrite at hfile
  rw [hm] at hfile
  simp only [hn] at hfile
  cases openOk with
  | false => simp at hfile
  | true =>
    simp only [Bool.not_true, Bool.false_eq_true, if_false, if_true] at hfile
    rw [if_neg (by omega)] at hfile
    split at hfile
    · cases hfile
    · simp only [WriteResult.ret.injEq, Option.some.injEq, true_and] at hfile
      rw [← hfile, List.take_length]

/-- C1 (binary round trip).  For `w ≥ 1`, `h ≥ 1` with `w*h` within `int` range and a
buffer `data` of `w*h` bytes: the file a successful `pgmwrite(w, h, data, NULL, 1)`
produces is read back by `pgmread` as an image of width `w` and height `h` whose buffer
is `data` (the block `calloc` returns holds `data` followed by its zeroed slack). -/
theorem binary_round_trip (openOk : Bool) (room : Nat) (w h : Int) (data file : List Nat)
    (w0 h0 : Int) (hw : 1 ≤ w) (hh : 1 ≤ h) (hrange : w * h ≤ INT_MAX)
    (hlen : (data.length : Int) = w * h)
    (hfile : pgmwrite openOk room w h data none 1 = WriteResult.ret 0 (some file)) :
    pgmread (some file) w0 h0
        = PgmResult.image (data ++ List.replicate (7 * data.length) 0) w h
      ∧ (pgmread (some file) w0 h0).buffer = some data := by
  have hr : w * h ≤ 2147483647 := hrange
  have hpos : 0 < w * h := Int.mul_pos (by omega) (by omega)
  have hwr : w ≤ 2147483647 := by nlinarith
  have hhr : h ≤ 2147483647 := by nlinarith
  have hf := pgmwrite_binary_file openOk room w h data file none ⟨by omega, hr⟩ hlen hfile
  have hwf : (writerHeader w h none 1).wellFormed = true :=
    writerHeader_wellFormed w h 1 (by omega) (by omega)
      ((inIntRange_iff w).2 ⟨by omega, hwr⟩) ((inIntRange_iff h).2 ⟨by omega, hhr⟩)
  have hread : pgmread (some file) w0 h0
      = PgmResult.image (data ++ List.replicate (7 * data.length) 0) w h := by
    rw [hf, ← writerHeader_text, pgmread_header _ data w0 h0 hwf (Or.inl rfl)]
    have hp := pgmPayload_binary w h data data.length hlen.symm (by omega)
    simp only [writerHeader, if_true, beq_self_eq_true] at hp ⊢
    rw [hp, if_neg (by omega), List.take_length]
  refine ⟨hread, ?_⟩
  rw [hread]
  simp only [PgmResult.buffer, ← hlen, Int.toNat_ofNat, List.take_left]

/-- The round trip of a 2 by 2 image. -/
theorem binary_round_trip_witness :
    pgmread (some (bytes "P5\n2 2 \n255 \n" ++ [1, 2, 3, 255])) 0 0
        = PgmResult.image ([1, 2, 3, 255] ++ List.replicate (7 * 4) 0) 2 2
      ∧ (pgmread (some (bytes "P5\n2 2 \n255 \n" ++ [1, 2, 3, 255])) 0 0).buffer
        = some [1, 2, 3, 255] :=
  binary_round_trip true 4 2 2 [1, 2, 3, 255] (bytes "P5\n2 2 \n255 \n" ++ [1, 2, 3, 255])
    0 0 (by decide) (by decide) (by decide) (by decide) (by decide)

/-- C2 (ASCII payload decoding), as amended.  For a well-formed header (every header
line fits the 255 characters one `fgets` reads; `w`, `h` non-negative) followed by
white-space-separated numerals of `int`s: with `w*h` within `int` range and at least
`w*h` tokens, `pgmread` on the `P2` file returns width `w`, height `h` and the buffer of
the first `w*h` token values, each reduced modulo 256, in token order; with a maximum
value in `0..255`, `3*w*h` within `int` range and at least `3*w*h` tokens, `ppmread` on
the `P3` file does the same with the first `3*w*h` tokens. -/
theorem ascii_payload_decoding (H : Header) (ts : List Token) (tail : List Nat)
    (w0 h0 m0 : Int) (hwf : H.wellFormed = true) (hts : tokensOk ts = true)
    (htail : startsNo isdigit tail = true) :
    (H.w * H.h ≤ INT_MAX → (H.w * H.h).toNat ≤ ts.length →
      pgmread (some ((H.withTag 50).text ++ (tokensText ts ++ tail))) w0 h0
          = PgmResult.image (tokenSamples (ts.take (H.w * H.h).toNat)
              ++ List.replicate (7 * (H.w * H.h).toNat) 0) H.w H.h
        ∧ (pgmread (some ((H.withTag 50).text ++ (tokensText ts ++ tail))) w0 h0).buffer
          = some ((ts.take (H.w * H.h).toNat).map (fun t => (t.value % 256).toNat)))
    ∧ (0 ≤ H.maxval → H.maxval ≤ 255 → 3 * (H.w * H.h) ≤ INT_MAX →
        (3 * (H.w * H.h)).toNat ≤ ts.length →
      ppmread (some ((H.withTag 51).text ++ (tokensText ts ++ tail))) w0 h0 m0
          = PpmResult.image (tokenSamples (ts.take (3 * (H.w * H.h)).toNat)
              ++ List.replicate (7 * (3 * (H.w * H.h)).toNat) 0) H.w H.h H.maxval
        ∧ (ppmread (some ((H.withTag 51).text ++ (tokensText ts ++ tail))) w0 h0 m0).buffer
          = some ((ts.take (3 * (H.w * H.h)).toNat).map (fun t => (t.value % 256).toNat))) := by
  obtain ⟨_, _, ⟨_, hw, _, hh⟩, _, _⟩ := (wellFormed_iff H).1 hwf
  have hchain : chainOk tail ts = true := by
    simp only [tokensOk, Bool.and_eq_true] at hts
    exact chainOk_of_tokensOk tail htail ts hts.1 hts.2
  constructor
  · intro hr hn
    have hread : pgmread (some ((H.withTag 50).text ++ (tokensText ts ++ tail))) w0 h0
        = PgmResult.image (tokenSamples (ts.take (H.w * H.h).toNat)
            ++ List.replicate (7 * (H.w * H.h).toNat) 0) H.w H.h := by
      rw [pgmread_header (H.withTag 50) _ w0 h0 (wellFormed_withTag H 50 (by decide) hwf)
        (Or.inr rfl)]
      exact pgmPayload_ascii H.w H.h ts tail hw hh hr hn hchain
    refine ⟨hread, ?_⟩
    rw [hread]
    simp only [PgmResult.buffer, tokenSamples]
    rw [List.take_left']
    simp only [List.length_map, List.length_take]
    omega
  · intro hm0 hm1 hr hn
    have hr2 : 3 * (H.w * H.h) ≤ 2147483647 := hr
    have hnn : 0 ≤ H.w * H.h := Int.mul_nonneg hw hh
    have hread : ppmread (some ((H.withTag 51).text ++ (tokensText ts ++ tail))) w0 h0 m0
        = PpmResult.image (tokenSamples (ts.take (3 * (H.w * H.h)).toNat)
            ++ List.replicate (7 * (3 * (H.w * H.h)).toNat) 0) H.w H.h H.maxval := by
      rw [ppmread_header (H.withTag 51) _ w0 h0 m0 (wellFormed_withTag H 51 (by decide) hwf)
        (Or.inr rfl)]
      have hmv : ¬ ((H.withTag 51).maxval < 0 ∨ (H.withTag 51).maxval > 255) := by
        simp only [Header.withTag]
        omega
      rw [if_neg hmv]
      exact ppmPayload_ascii H.w H.h H.maxval ts tail hw hh hr2 hn hchain
    refine ⟨hread, ?_⟩
    rw [hread]
    simp only [PpmResult.buffer, tokenSamples]
    rw [List.take_left']
    simp only [List.length_map, List.length_take]
    omega

/-- The example file of the specification, and a `P3` file of twelve tokens. -/
theorem ascii_payload_decoding_witness :
    (pgmread (some (bytes "P2\n# test\n2 2\n255\n0 64 128 255\n")) 0 0
        = PgmResult.image ([0, 64, 128, 255] ++ List.replicate 28 0) 2 2
      ∧ (pgmread (some (bytes "P2\n# test\n2 2\n255\n0 64 128 255\n")) 0 0).buffer
        = some [0, 64, 128, 255])
    ∧ (ppmread (some (bytes "P3\n# test\n2 2\n255\n0 64 128 255 256 -1 1 2 3 4 5 6\n")) 0 0 0
        = PpmResult.image ([0, 64, 128, 255, 0, 255, 1, 2, 3, 4, 5, 6]
            ++ List.replicate 84 0) 2 2 255
      ∧ (ppmread (some (bytes "P3\n# test\n2 2\n255\n0 64 128 255 256 -1 1 2 3 4 5 6\n")) 0 0
          0).buffer = some [0, 64, 128, 255, 0, 255, 1, 2, 3, 4, 5, 6]) := by
  have hg := (ascii_payload_decoding exampleHeader exampleTokens [10] 0 0 0
    (by decide) (by decide) (by decide)).1 (by decide) (by decide)
  have hp := (ascii_payload_decoding exampleHeader exampleTokensRgb [10] 0 0 0
    (by decide) (by decide) (by decide)).2 (by decide) (by decide) (by decide) (by decide)
  have eg : bytes "P2\n# test\n2 2\n255\n0 64 128 255\n"
      = (exampleHeader.withTag 50).text ++ (tokensText exampleTokens ++ [10]) := by decide
  have ep : bytes "P3\n# test\n2 2\n255\n0 64 128 255 256 -1 1 2 3 4 5 6\n"
      = (exampleHeader.withTag 51).text ++ (tokensText exampleTokensRgb ++ [10]) := by decide
  rw [eg, ep]
  exact ⟨⟨hg.1.trans (by decide), hg.2.trans (by decide)⟩,
    ⟨hp.1.trans (by decide), hp.2.trans (by decide)⟩⟩

/-- C2, counterexample to the claim as stated.  A `P2` file whose header holds one
comment line of 258 characters, the dimensions `1 1` and the maximum value 255,
followed by the token 7: `pgmread` returns width 2, height 1 and the buffer
`[255, 7]`, not width 1, height 1 and `[7]`.  The comment line is read in two pieces
and its tail `2 1` is taken for the dimensions line. -/
theorem ascii_payload_long_comment :
    pgmread (some (bytes "P2\n" ++ (35 :: List.replicate 254 120 ++ bytes "2 1\n")
        ++ bytes "1 1\n255\n7\n")) 0 0
      = PgmResult.image ([255, 7] ++ List.replicate 14 0) 2 1 := by
  decide

/-- C3 (comment skipping), as amended.  Let a file begin with a first line of at most
254 bytes before its newline, followed by comment lines `cs1` and the bytes `rest`.
Inserting comment lines `cs` (each beginning with `#`, of any content without a
newline, at most 254 bytes long) after the comment lines `cs1`, all of which fit the
line buffer too, changes nothing in what `pgmread` and `ppmread` return: same outcome,
width, height, maximum value and buffer. -/
theorem comment_skipping (magic : List Nat) (cs1 cs : List (List Nat)) (rest : List Nat)
    (w0 h0 m0 : Int) (hmagic : fitsLine magic = true) (hcs1 : cs1.all isComment = true)
    (hcs : cs.all isComment = true) :
    pgmread (some (magic ++ [10] ++ joinLines cs1 ++ joinLines cs ++ rest)) w0 h0
        = pgmread (some (magic ++ [10] ++ joinLines cs1 ++ rest)) w0 h0
      ∧ ppmread (some (magic ++ [10] ++ joinLines cs1 ++ joinLines cs ++ rest)) w0 h0 m0
        = ppmread (some (magic ++ [10] ++ joinLines cs1 ++ rest)) w0 h0 m0 := by
  have e1 : magic ++ [10] ++ joinLines cs1 ++ joinLines cs ++ rest
      = magic ++ 10 :: (joinLines cs1 ++ (joinLines cs ++ rest)) := by simp
  have e2 : magic ++ [10] ++ joinLines cs1 ++ rest
      = magic ++ 10 :: (joinLines cs1 ++ rest) := by simp
  have hd : readDims (joinLines cs1 ++ (joinLines cs ++ rest))
      = readDims (joinLines cs1 ++ rest) := by
    rw [readDims_comments cs1 _ hcs1, readDims_comments cs _ hcs, readDims_comments cs1 _ hcs1]
  constructor
  · rw [pgmread_stages, pgmread_stages, e1, e2, fgets_line _ _ hmagic, fgets_line _ _ hmagic]
    simp only [hd]
  · rw [ppmread_stages, ppmread_stages, e1, e2, fgets_line _ _ hmagic, fgets_line _ _ hmagic]
    simp only [hd]

/-- Two comment lines inserted after an existing one. -/
theorem comment_skipping_witness :
    pgmread (some (bytes "P5" ++ [10] ++ joinLines [bytes "# one"]
          ++ joinLines [bytes "# two", bytes "#"] ++ bytes "1 1\n255\nA")) 0 0
        = pgmread (some (bytes "P5" ++ [10] ++ joinLines [bytes "# one"]
          ++ bytes "1 1\n255\nA")) 0 0
      ∧ ppmread (some (bytes "P5" ++ [10] ++ joinLines [bytes "# one"]
          ++ joinLines [bytes "# two", bytes "#"] ++ bytes "1 1\n255\nA")) 0 0 0
        = ppmread (some (bytes "P5" ++ [10] ++ joinLines [bytes "# one"]
          ++ bytes "1 1\n255\nA")) 0 0 0 :=
  comment_skipping (bytes "P5") [bytes "# one"] [bytes "# two", bytes "#"]
    (bytes "1 1\n255\nA") 0 0 0 (by decide) (by decide) (by decide)

/-- C3, counterexample to the claim as stated.  The file `P5`, `1 1`, `255` with the
payload byte `A` reads as a 1 by 1 image holding `A`.  With one comment line of 258
characters inserted after the magic line, `pgmread` returns a 2 by 1 image holding the
bytes `2` and `5`: the comment line is read in two pieces, and its tail `2 1` is
taken for the dimensions line. -/
theorem comment_skipping_long_line :
    pgmread (some (bytes "P5\n" ++ bytes "1 1\n255\nA")) 0 0
        = PgmResult.image ([65] ++ List.replicate 7 0) 1 1
      ∧ pgmread (some (bytes "P5\n" ++ joinLines [35 :: List.replicate 254 120 ++ bytes "2 1"]
          ++ bytes "1 1\n255\nA")) 0 0
        = PgmResult.image ([50, 53] ++ List.replicate 14 0) 2 1 := by
  decide

/-- C4 (truncated binary payload), as amended.  For a well-formed header (every header
line fits the 255 characters one `fgets` reads) declaring `w` and `h` with `w*h > 0`:
when `w*h` is within `int` range and fewer than `w*h` bytes follow the maxval line,
`pgmread` on the `P5` file prints its read error and calls `exit(1)`, returning no
buffer; when the maximum value is in `0..255`, `3*w*h` is within `int` range and fewer
than `3*w*h` bytes follow, `ppmread` on the `P6` file does the same. -/
theorem truncated_binary_payload (H : Header) (payload : List Nat) (w0 h0 m0 : Int)
    (hwf : H.wellFormed = true) (hpos : 0 < H.w * H.h) :
    (H.w * H.h ≤ INT_MAX → (payload.length : Int) < H.w * H.h →
      pgmread (some ((H.withTag 53).text ++ payload)) w0 h0
          = PgmResult.exit (Diag.shortRead payload.length (H.w * H.h))
        ∧ (pgmread (some ((H.withTag 53).text ++ payload)) w0 h0).buffer = none)
    ∧ (0 ≤ H.maxval → H.maxval ≤ 255 → 3 * (H.w * H.h) ≤ INT_MAX →
        (payload.length : Int) < 3 * (H.w * H.h) →
      ppmread (some ((H.withTag 54).text ++ payload)) w0 h0 m0
          = PpmResult.exit (Diag.shortRead (Int.tdiv payload.length 3) (H.w * H.h))
        ∧ (ppmread (some ((H.withTag 54).text ++ payload)) w0 h0 m0).buffer = none) := by
  have hn : H.w * H.h = ((H.w * H.h).toNat : Int) := by omega
  constructor
  · intro hr hshort
    have hr2 : H.w * H.h ≤ 2147483647 := hr
    have hread : pgmread (some ((H.withTag 53).text ++ payload)) w0 h0
        = PgmResult.exit (Diag.shortRead payload.length (H.w * H.h)) := by
      rw [pgmread_header (H.withTag 53) _ w0 h0 (wellFormed_withTag H 53 (by decide) hwf)
        (Or.inl rfl)]
      have hp := pgmPayload_binary H.w H.h payload (H.w * H.h).toNat hn (by omega)
      simp only [Header.withTag, beq_self_eq_true]
      rw [hp, if_pos (by omega), ← hn]
    exact ⟨hread, by rw [hread]; rfl⟩
  · intro hm0 hm1 hr hshort
    have hr2 : 3 * (H.w * H.h) ≤ 2147483647 := hr
    have hread : ppmread (some ((H.withTag 54).text ++ payload)) w0 h0 m0
        = PpmResult.exit (Diag.shortRead (Int.tdiv payload.length 3) (H.w * H.h)) := by
      rw [ppmread_header (H.withTag 54) _ w0 h0 m0 (wellFormed_withTag H 54 (by decide) hwf)
        (Or.inl rfl)]
      have hmv : ¬ ((H.withTag 54).maxval < 0 ∨ (H.withTag 54).maxval > 255) := by
        simp only [Header.withTag]
        omega
      rw [if_neg hmv]
      have hp := ppmPayload_binary H.w H.h H.maxval payload (H.w * H.h).toNat hn (by omega)
      simp only [Header.withTag, beq_self_eq_true]
      rw [hp, if_pos (by omega), ← hn]
    exact ⟨hread, by rw [hread]; rfl⟩

/-- Four pixels declared and two bytes present; twelve samples declared and seven
bytes present. -/
theorem truncated_binary_payload_witness :
    (pgmread (some ((exampleHeader.withTag 53).text ++ [1, 2])) 0 0
        = PgmResult.exit (Diag.shortRead 2 4)
      ∧ (pgmread (some ((exampleHeader.withTag 53).text ++ [1, 2])) 0 0).buffer = none)
    ∧ (ppmread (some ((exampleHeader.withTag 54).text ++ [1, 2, 3, 4, 5, 6, 7])) 0 0 0
        = PpmResult.exit (Diag.shortRead 2 4)
      ∧ (ppmread (some ((exampleHeader.withTag 54).text ++ [1, 2, 3, 4, 5, 6, 7])) 0 0 0).buffer
        = none) :=
  ⟨(truncated_binary_payload exampleHeader [1, 2] 0 0 0 (by decide) (by decide)).1
      (by decide) (by decide),
    (truncated_binary_payload exampleHeader [1, 2, 3, 4, 5, 6, 7] 0 0 0 (by decide)
      (by decide)).2 (by decide) (by decide) (by decide) (by decide)⟩

/-- C4, counterexample to the claim as stated.  A `P5` file whose header holds one
comment line of 258 characters, the dimensions `2 2` and the maximum value 255,
followed by two payload bytes only: `pgmread` does not fail but returns a 1 by 1 image
holding the byte `2`.  The tail `1 1` of the comment line is taken for the dimensions
line, and the payload is read from the maxval line on. -/
theorem truncated_payload_long_comment :
    pgmread (some (bytes "P5\n" ++ joinLines [35 :: List.replicate 254 120 ++ bytes "1 1"]
        ++ bytes "2 2\n255\n" ++ [65, 66])) 0 0
      = PgmResult.image ([50] ++ List.replicate 7 0) 1 1 := by
  decide

/-- C5 (unrecognised magic).  On every non-empty file whose first two bytes are
neither `P5` nor `P2`, `pgmread` returns `NULL` with `*w` and `*h` set to 0, after
printing `pgm read: not a pgm file`, and does not call `exit`; on every non-empty file
whose first two bytes are neither `P6` nor `P3`, `ppmread` returns `NULL` with `*w` and
`*h` set to 0 likewise.  In particular each reader rejects the magics of the other. -/
theorem unrecognised_magic (s : List Nat) (w0 h0 m0 : Int) (hne : s ≠ []) :
    (s.take 2 ≠ [80, 53] → s.take 2 ≠ [80, 50] →
      pgmread (some s) w0 h0 = PgmResult.null Diag.notPgm 0 0)
    ∧ (s.take 2 ≠ [80, 54] → s.take 2 ≠ [80, 51] →
      ppmread (some s) w0 h0 m0 = PpmResult.null Diag.notPpm 0 0 m0) := by
  cases hf : fgets 256 s with
  | none =>
    cases s with
    | nil => exact absurd rfl hne
    | cons a t => simp [fgets] at hf
  | some p =>
    obtain ⟨line, s1⟩ := p
    constructor
    · intro h5 h2
      rw [pgmread_stages, hf]
      simp only [strncmp_of_take s line s1 53 (by decide) (by decide) hf h5,
        strncmp_of_take s line s1 50 (by decide) (by decide) hf h2, Bool.and_self, if_true]
    · intro h6 h3
      rw [ppmread_stages, hf]
      simp only [strncmp_of_take s line s1 54 (by decide) (by decide) hf h6,
        strncmp_of_take s line s1 51 (by decide) (by decide) hf h3, Bool.and_self, if_true]

/-- The magic `XX`, and each reader on a magic of the other family. -/
theorem unrecognised_magic_witness :
    (pgmread (some (bytes "XX\n2 2\n255\nabcd")) 7 9 = PgmResult.null Diag.notPgm 0 0
      ∧ ppmread (some (bytes "XX\n2 2\n255\nabcd")) 7 9 11 = PpmResult.null Diag.notPpm 0 0 11)
    ∧ pgmread (some (bytes "P6\n1 1\n255\nabc")) 7 9 = PgmResult.null Diag.notPgm 0 0
    ∧ ppmread (some (bytes "P5\n1 1\n255\na")) 7 9 11 = PpmResult.null Diag.notPpm 0 0 11 :=
  ⟨⟨(unrecognised_magic (bytes "XX\n2 2\n255\nabcd") 7 9 11 (by decide)).1
        (by decide) (by decide),
      (unrecognised_magic (bytes "XX\n2 2\n255\nabcd") 7 9 11 (by decide)).2
        (by decide) (by decide)⟩,
    (unrecognised_magic (bytes "P6\n1 1\n255\nabc") 7 9 11 (by decide)).1
      (by decide) (by decide),
    (unrecognised_magic (bytes "P5\n1 1\n255\na") 7 9 11 (by decide)).2
      (by decide) (by decide)⟩

/-- C6 (PPM maxval bounds), as amended.  For a well-formed header (every header line
fits the 255 characters one `fgets` reads) whose maxval line holds the `int` `m`:
if `m < 0` or `m > 255`, `ppmread` prints `Error: maximum value m is bad.` and calls
`exit(1)`, for `P6` and `P3` alike and whatever the payload; if `0 ≤ m ≤ 255` and
`3*w*h` is within `int` range, `ppmread` returns an image and leaves `m` in `*maxval`,
on a `P6` file with at least `3*w*h` payload bytes and on a `P3` file with at least
`3*w*h` tokens. -/
theorem ppm_maxval_bounds (H : Header) (payload : List Nat) (ts : List Token)
    (tail : List Nat) (w0 h0 m0 : Int) (hwf : H.wellFormed = true) :
    (H.maxval < 0 ∨ 255 < H.maxval →
      ppmread (some ((H.withTag 54).text ++ payload)) w0 h0 m0
          = PpmResult.exit (Diag.badMaxval H.maxval)
        ∧ ppmread (some ((H.withTag 51).text ++ payload)) w0 h0 m0
          = PpmResult.exit (Diag.badMaxval H.maxval))
    ∧ (0 ≤ H.maxval → H.maxval ≤ 255 → 3 * (H.w * H.h) ≤ INT_MAX →
      ((3 * (H.w * H.h)).toNat ≤ payload.length →
        ppmread (some ((H.withTag 54).text ++ payload)) w0 h0 m0
          = PpmResult.image (payload.take (3 * (H.w * H.h)).toNat
              ++ List.replicate (7 * (3 * (H.w * H.h)).toNat) 0) H.w H.h H.maxval)
      ∧ (tokensOk ts = true → startsNo isdigit tail = true →
          (3 * (H.w * H.h)).toNat ≤ ts.length →
        ppmread (some ((H.withTag 51).text ++ (tokensText ts ++ tail))) w0 h0 m0
          = PpmResult.image (tokenSamples (ts.take (3 * (H.w * H.h)).toNat)
              ++ List.replicate (7 * (3 * (H.w * H.h)).toNat) 0) H.w H.h H.maxval)) := by
  obtain ⟨_, _, ⟨_, hw, _, hh⟩, _, _⟩ := (wellFormed_iff H).1 hwf
  have hnn : 0 ≤ H.w * H.h := Int.mul_nonneg hw hh
  have h54 : ppmread (some ((H.withTag 54).text ++ payload)) w0 h0 m0
      = if H.maxval < 0 ∨ H.maxval > 255 then PpmResult.exit (Diag.badMaxval H.maxval)
        else ppmPayload true H.w H.h H.maxval payload :=
    ppmread_header (H.withTag 54) payload w0 h0 m0
      (wellFormed_withTag H 54 (by decide) hwf) (Or.inl rfl)
  have h51 : ∀ p, ppmread (some ((H.withTag 51).text ++ p)) w0 h0 m0
      = if H.maxval < 0 ∨ H.maxval > 255 then PpmResult.exit (Diag.badMaxval H.maxval)
        else ppmPayload false H.w H.h H.maxval p :=
    fun p => ppmread_header (H.withTag 51) p w0 h0 m0
      (wellFormed_withTag H 51 (by decide) hwf) (Or.inr rfl)
  constructor
  · intro hbad
    have hb : H.maxval < 0 ∨ H.maxval > 255 := by omega
    exact ⟨by rw [h54, if_pos hb], by rw [h51, if_pos hb]⟩
  · intro hm0 hm1 hr
    have hr2 : 3 * (H.w * H.h) ≤ 2147483647 := hr
    have hok : ¬ (H.maxval < 0 ∨ H.maxval > 255) := by omega
    constructor
    · intro hlen
      have e3 : (3 * (H.w * H.h)).toNat = 3 * (H.w * H.h).toNat := by omega
      rw [h54, if_neg hok, e3]
      have hp := ppmPayload_binary H.w H.h H.maxval payload (H.w * H.h).toNat
        (by omega) (by omega)
      rw [hp, if_neg (by omega)]
    · intro hts htail hlen
      have hchain : chainOk tail ts = true := by
        simp only [tokensOk, Bool.and_eq_true] at hts
        exact chainOk_of_tokensOk tail htail ts hts.1 hts.2
      rw [h51, if_neg hok]
      exact ppmPayload_ascii H.w H.h H.maxval ts tail hw hh hr2 hlen hchain

/-- Maximum values 0 and 255 are accepted, -1 and 256 are rejected. -/
theorem ppm_maxval_bounds_witness :
    (ppmread (some (((tinyHeader 0).withTag 54).text ++ [7, 8, 9])) 0 0 0
        = PpmResult.image ([7, 8, 9] ++ List.replicate 21 0) 1 1 0
      ∧ ppmread (some (((tinyHeader 255).withTag 51).text ++ bytes "7 8 9\n")) 0 0 0
        = PpmResult.image ([7, 8, 9] ++ List.replicate 21 0) 1 1 255)
    ∧ (ppmread (some (((tinyHeader (-1)).withTag 54).text ++ [7, 8, 9])) 0 0 0
        = PpmResult.exit (Diag.badMaxval (-1))
      ∧ ppmread (some (((tinyHeader 256).withTag 51).text ++ [7, 8, 9])) 0 0 0
        = PpmResult.exit (Diag.badMaxval 256)) := by
  have h0 := ((ppm_maxval_bounds (tinyHeader 0) [7, 8, 9] [] [] 0 0 0 (by decide)).2
    (by decide) (by decide) (by decide)).1 (by decide)
  have h255 := ((ppm_maxval_bounds (tinyHeader 255) []
    [⟨[], bytes "7", 7⟩, ⟨[32], bytes "8", 8⟩, ⟨[32], bytes "9", 9⟩] [10] 0 0 0
    (by decide)).2 (by decide) (by decide) (by decide)).2 (by decide) (by decide) (by decide)
  have hneg := ((ppm_maxval_bounds (tinyHeader (-1)) [7, 8, 9] [] [] 0 0 0 (by decide)).1
    (by decide)).1
  have h256 := ((ppm_maxval_bounds (tinyHeader 256) [7, 8, 9] [] [] 0 0 0 (by decide)).1
    (by decide)).2
  exact ⟨⟨h0.trans (by decide), h255.trans (by decide)⟩, hneg, h256⟩

/-- C6, counterexample to the claim as stated.  A `P6` file whose header holds one
comment line of 258 characters, the dimensions `1 1` and the maximum value 256,
followed by three payload bytes: `ppmread` does not reject it but returns a 1 by 1
image with `*maxval` set to 1.  The tail `1 1` of the comment line is taken for the
dimensions line and the dimensions line for the maxval line. -/
theorem maxval_long_comment :
    ppmread (some (bytes "P6\n" ++ joinLines [35 :: List.replicate 254 120 ++ bytes "1 1"]
        ++ bytes "1 1\n256\n" ++ [65, 66, 67])) 0 0 0
      = PpmResult.image ([50, 53, 54] ++ List.replicate 21 0) 1 1 1 := by
  decide

/-- C7 (malformed header lines), the code at two failing inputs.  A `P5` file whose
dimensions line is `hello`, read with `*w = *h = 1` left by the caller, is decoded as a
1 by 1 image; a `P6` file whose maxval line is `xyz`, read with `*maxval = 200` left by
the caller, is decoded as an image of maximum value 200.  Neither call fails: the
results of the two `sscanf` calls are not tested. -/
theorem malformed_header_decoded :
    pgmread (some (bytes "P5\nhello\n255\nA")) 1 1
        = PgmResult.image ([65] ++ List.replicate 7 0) 1 1
      ∧ ppmread (some (bytes "P6\n1 1\nxyz\nABC")) 0 0 200
        = PpmResult.image ([65, 66, 67] ++ List.replicate 21 0) 1 1 200 := by
  decide

theorem truncQ_of_nonneg (x : ℚ) (hx : 0 ≤ x) : truncQ x = ⌊x⌋ := by
  have hnum : 0 ≤ x.num := Rat.num_nonneg.2 hx
  rw [truncQ, Int.tdiv_eq_ediv hnum (by positivity), Rat.floor_def]

theorem quantize_mid (v : ℚ) (h0 : 0 ≤ v) (h1 : v ≤ 1) :
    (quantize v : Int) = ⌊255 * v⌋ ∧ quantize v ≤ 255 := by
  have hx0 : (0 : ℚ) ≤ 255 * v := by positivity
  have hx1 : 255 * v ≤ 255 := by linarith
  have hf0 : 0 ≤ ⌊255 * v⌋ := Int.floor_nonneg.2 hx0
  have hf1 : ⌊255 * v⌋ ≤ 255 := by
    have : ⌊255 * v⌋ ≤ ⌊(255 : ℚ)⌋ := Int.floor_le_floor hx1
    simpa using this
  have hq : quantize v = (⌊255 * v⌋ % 256).toNat := by
    simp only [quantize, if_neg (not_lt.2 h0), if_neg (not_lt.2 h1), toUChar,
      truncQ_of_nonneg _ hx0]
  rw [hq]
  omega

/-- C8 (float quantization).  For a float buffer `data` of `w*h` values,
`pgmwrite_float` has exactly the outcome of `pgmwrite` on the byte buffer
`data.map quantize` with the same `w`, `h`, comment and `binsave`: the same file and
the same return value.  Over exact rationals `quantize v` is 0 for `v < 0`, 255 for
`v > 1`, and otherwise the integer part of `255*v`, which lies in `0..255`.  The inputs
`-1, 0, 1/2, 1, 2` give the bytes `0, 0, 127, 255, 255`. -/
theorem float_quantization (openOk : Bool) (room : Nat) (w h : Int) (data : List ℚ)
    (comment : Option (List Nat)) (binsave : Int) (hlen : (data.length : Int) = w * h) :
    pgmwrite_float openOk room w h data comment binsave
        = pgmwrite openOk room w h (data.map quantize) comment binsave
      ∧ (∀ v : ℚ, v < 0 → quantize v = 0)
      ∧ (∀ v : ℚ, 1 < v → quantize v = 255)
      ∧ (∀ v : ℚ, 0 ≤ v → v ≤ 1 → (quantize v : Int) = ⌊255 * v⌋ ∧ quantize v ≤ 255)
      ∧ [(-1 : ℚ), 0, 1 / 2, 1, 2].map quantize = [0, 0, 127, 255, 255] := by
  refine ⟨?_, ?_, ?_, quantize_mid, ?_⟩
  · cases hm : mulInt w h with
    | none => simp [pgmwrite_float, pgmwrite, hm]
    | some numpix =>
      have hn : numpix = w * h := by
        unfold mulInt at hm
        split at hm
        · exact (Option.some.inj hm).symm
        · cases hm
      have hnat : numpix.toNat = data.length := by omega
      have hmal : malloc numpix 1 = some (List.replicate (numpix.toNat * 1) 0) := by
        simp only [malloc]
        rw [if_neg (by omega)]
      simp only [pgmwrite_float, hm, hmal]
      rw [if_neg (by omega), hnat, List.take_length]
  · intro v hv
    simp [quantize, hv]
  · intro v hv
    have : ¬ v < 0 := by linarith
    simp [quantize, hv, this]
  · have e : ∀ v : ℚ, 0 ≤ v → v ≤ 1 → ∀ n : Nat, ⌊255 * v⌋ = (n : Int) → quantize v = n := by
      intro v h0 h1 n hn
      have := (quantize_mid v h0 h1).1
      omega
    have q1 : quantize (-1) = 0 := by simp [quantize]
    have q2 : quantize 0 = 0 := e 0 (by norm_num) (by norm_num) 0 (by norm_num)
    have q3 : quantize (1 / 2) = 127 :=
      e (1 / 2) (by norm_num) (by norm_num) 127 (by rw [Int.floor_eq_iff]; norm_num)
    have q4 : quantize 1 = 255 := e 1 (by norm_num) (by norm_num) 255 (by norm_num)
    have q5 : quantize 2 = 255 := by simp [quantize]
    simp only [List.map_cons, List.map_nil, q1, q2, q3, q4, q5]

/-- The five sample inputs, written as a 5 by 1 binary image. -/
theorem float_quantization_witness :
    pgmwrite_float true 5 5 1 [-1, 0, 1 / 2, 1, 2] none 1
        = pgmwrite true 5 5 1 ([(-1 : ℚ), 0, 1 / 2, 1, 2].map quantize) none 1
      ∧ pgmwrite true 5 5 1 [0, 0, 127, 255, 255] none 1
        = WriteResult.ret 0 (some (bytes "P5\n5 1 \n255 \n" ++ [0, 0, 127, 255, 255])) :=
  ⟨(float_quantization true 5 5 1 [-1, 0, 1 / 2, 1, 2] none 1 (by decide)).1, by decide⟩

/-- C9 (RGB normalization).  Whenever `ppmread` returns a block `b` with width `w`,
height `h` and a maximum value `m > 0`, `ppmread_float` on the same file returns width
`w`, height `h` and one float for each of the `3*w*h` samples of the buffer (the first
`3*w*h` bytes of `b`), in the same order: the sample divided by `m`, the maximum value
read from the header. -/
theorem rgb_normalization (file : Option (List Nat)) (w0 h0 m0 : Int) (b : List Nat)
    (w h m : Int) (hread : ppmread file w0 h0 m0 = PpmResult.image b w h m) (hm : 0 < m) :
    (ppmread file w0 h0 m0).buffer = some (b.take (3 * (w * h)).toNat)
      ∧ ((b.take (3 * (w * h)).toNat).length : Int) = 3 * w * h
      ∧ ppmread_float file w0 h0 m0
        = FloatResult.image ((b.take (3 * (w * h)).toNat).map (fun (c : Nat) => (c : ℚ) / (m : ℚ)))
            w h := by
  obtain ⟨r1, r2, r3, _, _⟩ := ppmread_image file w0 h0 m0 b w h m hread
  have hmul : mulInt w h = some (w * h) := mulInt_of_range w h (by omega) (by omega)
  have hmul3 : mulInt 3 (w * h) = some (3 * (w * h)) :=
    mulInt_of_range 3 (w * h) (by omega) (by omega)
  have hmal : malloc (3 * (w * h)) 4
      = some (List.replicate ((3 * (w * h)).toNat * 4) 0) := by
    simp only [malloc]
    rw [if_neg (by omega)]
  refine ⟨by rw [hread]; rfl, ?_, ?_⟩
  · rw [List.length_take, r3]
    have : min (3 * (w * h)).toNat ((3 * (w * h)).toNat * 8) = (3 * (w * h)).toNat := by
      omega
    rw [this, mul_assoc]
    omega
  · simp only [ppmread_float, hread, hmul, hmul3, hmal]
    by_cases hz : 3 * (w * h) = 0
    · simp [hz]
    · rw [if_neg hz, if_neg (by omega), if_pos (by omega)]

/-- Maximum value 200: the bytes 100, 50, 200 become 1/2, 1/4, 1. -/
theorem rgb_normalization_witness :
    ppmread_float (some (bytes "P6\n1 1\n200\n" ++ [100, 50, 200])) 0 0 0
      = FloatResult.image [1 / 2, 1 / 4, 1] 1 1 := by
  have h := (rgb_normalization (some (bytes "P6\n1 1\n200\n" ++ [100, 50, 200])) 0 0 0
    ([100, 50, 200] ++ List.replicate 21 0) 1 1 200 (by decide) (by decide)).2.2
  rw [h]
  have e : (3 * (1 * 1) : Int).toNat = 3 := by decide
  rw [e]
  norm_num

/-- C10 (grayscale normalization).  Whenever `pgmread` returns a block `b` with width
`w` and height `h`, `pgmread_float` on the same file returns width `w`, height `h` and
one float for each of the `w*h` samples of the buffer (the first `w*h` bytes of `b`),
in the same order: the sample divided by 255, whatever the file holds on its maxval
line. -/
theorem grayscale_normalization (file : Option (List Nat)) (w0 h0 : Int) (b : List Nat)
    (w h : Int) (hread : pgmread file w0 h0 = PgmResult.image b w h) :
    (pgmread file w0 h0).buffer = some (b.take (w * h).toNat)
      ∧ ((b.take (w * h).toNat).length : Int) = w * h
      ∧ pgmread_float file w0 h0
        = FloatResult.image ((b.take (w * h).toNat).map (fun (c : Nat) => (c : ℚ) / 255)) w h := by
  obtain ⟨r1, r2, r3⟩ := pgmread_image file w0 h0 b w h hread
  have hmul : mulInt w h = some (w * h) := mulInt_of_range w h (by omega) (by omega)
  have hmal : malloc (w * h) 4 = some (List.replicate ((w * h).toNat * 4) 0) := by
    simp only [malloc]
    rw [if_neg (by omega)]
  refine ⟨by rw [hread]; rfl, ?_, ?_⟩
  · rw [List.length_take, r3]
    have : min (w * h).toNat ((w * h).toNat * 8) = (w * h).toNat := by omega
    rw [this]
    omega
  · simp only [pgmread_float, hread, hmul, hmal]
    rw [if_pos (by omega)]

/-- Maximum value 100 on the maxval line: the bytes 51, 255 still become 1/5, 1. -/
theorem grayscale_normalization_witness :
    pgmread_float (some (bytes "P5\n2 1\n100\n" ++ [51, 255])) 0 0
      = FloatResult.image [1 / 5, 1] 2 1 := by
  have h := (grayscale_normalization (some (bytes "P5\n2 1\n100\n" ++ [51, 255])) 0 0
    ([51, 255] ++ List.replicate 14 0) 2 1 (by decide)).2.2
  rw [h]
  have e : (2 * 1 : Int).toNat = 2 := by decide
  rw [e]
  norm_num

/-! ## Alpha injection -/

theorem set_append_add (a l : List Nat) (i v : Nat) :
    (a ++ l).set (a.length + i) v = a ++ l.set i v := by
  induction a with
  | nil => simp
  | cons x a ih =>
    have e : (x :: a).length + i = (a.length + i) + 1 := by simp; omega
    rw [e, List.cons_append, List.set_cons_succ, ih, List.cons_append]

theorem get?_append_add (a l : List Nat) (i : Nat) :
    (a ++ l).get? (a.length + i) = l.get? i := by
  rw [List.get?_eq_getElem?, List.get?_eq_getElem?, List.getElem?_append_right (by omega)]
  simp

theorem argbLoop_pixels (p : Nat) :
    ∀ (done todo rd rr : List Nat), rr.length = 3 * p → todo.length = 4 * p →
      done.length % 4 = 0 →
      argbLoop (rd ++ rr) (4 * p) done.length rd.length (done ++ todo)
        = some (done ++ argbOf rr) := by
  induction p with
  | zero =>
    intro done todo rd rr h1 h2 _
    have e1 : rr = [] := List.length_eq_zero.1 (by omega)
    have e2 : todo = [] := List.length_eq_zero.1 (by omega)
    subst e1 e2
    simp [argbLoop, argbOf]
  | succ p ih =>
    intro done todo rd rr h1 h2 h3
    match rr, h1 with
    | r :: g :: b :: rr2, h1 =>
      match todo, h2 with
      | t0 :: t1 :: t2 :: t3 :: todo2, h2 =>
        have e4 : 4 * (p + 1) = 4 * p + 1 + 1 + 1 + 1 := by ring
        have g0 : (rd ++ r :: g :: b :: rr2).get? rd.length = some r :=
          get?_append_add rd (r :: g :: b :: rr2) 0
        have g1 : (rd ++ r :: g :: b :: rr2).get? (rd.length + 1) = some g :=
          get?_append_add rd (r :: g :: b :: rr2) 1
        have g2 : (rd ++ r :: g :: b :: rr2).get? (rd.length + 1 + 1) = some b :=
          get?_append_add rd (r :: g :: b :: rr2) 2
        have k1 : (done.length + 1) % 4 ≠ 0 := by omega
        have k2 : (done.length + 1 + 1) % 4 ≠ 0 := by omega
        have k3 : (done.length + 1 + 1 + 1) % 4 ≠ 0 := by omega
        have s0 : (done ++ t0 :: t1 :: t2 :: t3 :: todo2).set done.length 255
            = done ++ 255 :: t1 :: t2 :: t3 :: todo2 :=
          set_append_add done (t0 :: t1 :: t2 :: t3 :: todo2) 0 255
        have s1 : (done ++ 255 :: t1 :: t2 :: t3 :: todo2).set (done.length + 1) r
            = done ++ 255 :: r :: t2 :: t3 :: todo2 :=
          set_append_add done (255 :: t1 :: t2 :: t3 :: todo2) 1 r
        have s2 : (done ++ 255 :: r :: t2 :: t3 :: todo2).set (done.length + 1 + 1) g
            = done ++ 255 :: r :: g :: t3 :: todo2 :=
          set_append_add done (255 :: r :: t2 :: t3 :: todo2) 2 g
        have s3 : (done ++ 255 :: r :: g :: t3 :: todo2).set (done.length + 1 + 1 + 1) b
            = (done ++ [255, r, g, b]) ++ todo2 := by
          rw [show done.length + 1 + 1 + 1 = done.length + 3 from rfl,
            set_append_add done (255 :: r :: g :: t3 :: todo2) 3 b]
          simp
        have hl : done.length + 1 + 1 + 1 + 1 = (done ++ [255, r, g, b]).length := by simp
        have hj : rd.length + 1 + 1 + 1 = (rd ++ [r, g, b]).length := by simp
        have hr : rd ++ r :: g :: b :: rr2 = (rd ++ [r, g, b]) ++ rr2 := by simp
        rw [e4, argbLoop, if_pos h3, s0, argbLoop, if_neg k1, g0]
        simp only []
        rw [s1, argbLoop, if_neg k2, g1]
        simp only []
        rw [s2, argbLoop, if_neg k3, g2]
        simp only []
        rw [s3, hl, hj, hr, ih (done ++ [255, r, g, b]) todo2 (rd ++ [r, g, b]) rr2
          (by simp at h1; omega) (by simp at h2; omega) (by simp; omega)]
        simp [argbOf]

theorem argbOf_length (p : Nat) :
    ∀ rgb : List Nat, rgb.length = 3 * p → (argbOf rgb).length = 4 * p := by
  induction p with
  | zero =>
    intro rgb h
    have e1 : rgb = [] := List.length_eq_zero.1 (by omega)
    subst e1
    rfl
  | succ p ih =>
    intro rgb h
    match rgb, h with
    | r :: g :: b :: rest, h =>
      simp only [argbOf, List.length_cons]
      rw [ih rest (by simp at h; omega)]
      ring

theorem argbOf_pixel (i : Nat) :
    ∀ rgb : List Nat, 3 * (i + 1) ≤ rgb.length →
      (argbOf rgb)[4 * i]? = some 255 ∧ (argbOf rgb)[4 * i + 1]? = rgb[3 * i]?
        ∧ (argbOf rgb)[4 * i + 2]? = rgb[3 * i + 1]?
        ∧ (argbOf rgb)[4 * i + 3]? = rgb[3 * i + 2]? := by
  induction i with
  | zero =>
    intro rgb h
    match rgb, h with
    | r :: g :: b :: rest, _ => simp [argbOf]
  | succ i ih =>
    intro rgb h
    match rgb, h with
    | r :: g :: b :: rest, h =>
      have h2 : 3 * (i + 1) ≤ rest.length := by simp at h; omega
      obtain ⟨a0, a1, a2, a3⟩ := ih rest h2
      have e0 : 4 * (i + 1) = 4 * i + 1 + 1 + 1 + 1 := by ring
      have e1 : 4 * (i + 1) + 1 = 4 * i + 1 + 1 + 1 + 1 + 1 := by ring
      have e2 : 4 * (i + 1) + 2 = 4 * i + 2 + 1 + 1 + 1 + 1 := by ring
      have e3 : 4 * (i + 1) + 3 = 4 * i + 3 + 1 + 1 + 1 + 1 := by ring
      have f0 : 3 * (i + 1) = 3 * i + 1 + 1 + 1 := by ring
      have f1 : 3 * (i + 1) + 1 = 3 * i + 1 + 1 + 1 + 1 := by ring
      have f2 : 3 * (i + 1) + 2 = 3 * i + 2 + 1 + 1 + 1 := by ring
      simp only [argbOf]
      rw [e1, e2, e3, e0, f1, f2, f0]
      simp only [List.getElem?_cons_succ]
      exact ⟨a0, a1, a2, a3⟩

/-- C11 (alpha injection), as amended.  For `w, h ≥ 0` with `4*w` and `4*w*h` within
`int` range and an interleaved RGB buffer `rgb` of `3*w*h` bytes, `rgbToArgb` returns a
block of `4*w*h` bytes with the same pixels in the same order, the alpha byte first:
for every pixel `i < w*h`, `out[4i] = 255`, `out[4i+1] = rgb[3i]` (R),
`out[4i+2] = rgb[3i+1]` (G) and `out[4i+3] = rgb[3i+2]` (B). -/
theorem alpha_injection (rgb : List Nat) (w h : Int) (hw : 0 ≤ w) (hh : 0 ≤ h)
    (hr4 : 4 * w ≤ INT_MAX) (hr : 4 * w * h ≤ INT_MAX)
    (hlen : (rgb.length : Int) = 3 * w * h) :
    rgbToArgb rgb w h = ArgbResult.block (argbOf rgb)
      ∧ ((argbOf rgb).length : Int) = 4 * w * h
      ∧ ∀ i : Nat, (i : Int) < w * h →
          (argbOf rgb)[4 * i]? = some 255 ∧ (argbOf rgb)[4 * i + 1]? = rgb[3 * i]?
            ∧ (argbOf rgb)[4 * i + 2]? = rgb[3 * i + 1]?
            ∧ (argbOf rgb)[4 * i + 3]? = rgb[3 * i + 2]? := by
  have hr4b : 4 * w ≤ 2147483647 := hr4
  have hrb : 4 * w * h ≤ 2147483647 := hr
  have hnn : 0 ≤ w * h := Int.mul_nonneg hw hh
  have e3 : 3 * w * h = 3 * (w * h) := by ring
  have e4 : 4 * w * h = 4 * (w * h) := by ring
  have hp : rgb.length = 3 * (w * h).toNat := by omega
  have hm4 : mulInt 4 w = some (4 * w) := mulInt_of_range 4 w (by omega) hr4b
  have hm : mulInt (4 * w) h = some (4 * w * h) :=
    mulInt_of_range (4 * w) h (by omega) hrb
  have hmal : malloc (4 * w * h) 1 = some (List.replicate ((4 * w * h).toNat * 1) 0) := by
    simp only [malloc]
    rw [if_neg (by omega)]
  have hn : (4 * w * h).toNat = 4 * (w * h).toNat := by omega
  have hloop := argbLoop_pixels (w * h).toNat [] (List.replicate (4 * (w * h).toNat) 0) []
    rgb hp (by simp) (by simp)
  simp only [List.nil_append, List.length_nil] at hloop
  refine ⟨?_, ?_, ?_⟩
  · simp only [rgbToArgb, hm4, hm, hmal, hn, Nat.mul_one, hloop]
  · rw [argbOf_length (w * h).toNat rgb hp]
    omega
  · intro i hi
    exact argbOf_pixel i rgb (by omega)

/-- A 2 by 1 image: two pixels, each with 255 put before its three bytes. -/
theorem alpha_injection_witness :
    rgbToArgb [1, 2, 3, 4, 5, 6] 2 1 = ArgbResult.block [255, 1, 2, 3, 255, 4, 5, 6] :=
  (alpha_injection [1, 2, 3, 4, 5, 6] 2 1 (by decide) (by decide) (by decide) (by decide)
    (by decide)).1

/-- C11, counterexample to the claim as stated.  For the single pixel `[1, 2, 3]` the
block returned is `[255, 1, 2, 3]`: byte 0 is the alpha 255 and not `rgb[0]`, and byte
3 is `rgb[2]` and not 255. -/
theorem alpha_first :
    rgbToArgb [1, 2, 3] 1 1 = ArgbResult.block [255, 1, 2, 3]
      ∧ rgbToArgb [1, 2, 3] 1 1 ≠ ArgbResult.block [1, 2, 3, 255] := by
  decide

/-! ## RGBA float read -/

theorem float4Loop_pixels (m : Int) (p : Nat) :
    ∀ (i : Nat) (acc : List Float4) (cd cr : List Nat), cd.length = 3 * i →
      3 * p ≤ cr.length → 3 * (i + p) ≤ 2147483647 →
      float4Loop (cd ++ cr) m p i acc
        = some (acc ++ float4Of ((cr.take (3 * p)).map (fun (c : Nat) => (c : ℚ) / (m : ℚ)))) := by
  induction p with
  | zero =>
    intro i acc cd cr _ _ _
    simp [float4Loop, float4Of]
  | succ p ih =>
    intro i acc cd cr h1 h2 h3
    match cr, h2 with
    | r :: g :: b :: cr2, h2 =>
      have hm : mulInt 3 (i : Int) = some ((3 * i : Nat) : Int) := by
        rw [mulInt_of_range 3 (i : Int) (by omega) (by omega)]
        congr 1
      have g0 : (cd ++ r :: g :: b :: cr2).get? (3 * i) = some r := by
        rw [← h1]; exact get?_append_add cd (r :: g :: b :: cr2) 0
      have g1 : (cd ++ r :: g :: b :: cr2).get? (3 * i + 1) = some g := by
        rw [← h1]; exact get?_append_add cd (r :: g :: b :: cr2) 1
      have g2 : (cd ++ r :: g :: b :: cr2).get? (3 * i + 2) = some b := by
        rw [← h1]; exact get?_append_add cd (r :: g :: b :: cr2) 2
      have hr : cd ++ r :: g :: b :: cr2 = (cd ++ [r, g, b]) ++ cr2 := by simp
      have e3 : 3 * (p + 1) = 3 * p + 1 + 1 + 1 := by ring
      rw [float4Loop, hm]
      simp only [Int.toNat_ofNat, g0, g1, g2]
      rw [hr, ih (i + 1) _ (cd ++ [r, g, b]) cr2 (by simp; omega) (by simp at h2; omega)
        (by omega), e3]
      simp [float4Of]

theorem float4Of_length (p : Nat) :
    ∀ f : List ℚ, f.length = 3 * p → (float4Of f).length = p := by
  induction p with
  | zero =>
    intro f h
    have e1 : f = [] := List.length_eq_zero.1 (by omega)
    subst e1
    rfl
  | succ p ih =>
    intro f h
    match f, h with
    | x :: y :: z :: rest, h =>
      simp only [float4Of, List.length_cons]
      rw [ih rest (by simp at h; omega)]

theorem float4Of_pixel (i : Nat) :
    ∀ f : List ℚ, 3 * (i + 1) ≤ f.length →
      ∃ x y z, f[3 * i]? = some x ∧ f[3 * i + 1]? = some y ∧ f[3 * i + 2]? = some z
        ∧ (float4Of f)[i]? = some { x := x, y := y, z := z, w := 1 } := by
  induction i with
  | zero =>
    intro f h
    match f, h with
    | x :: y :: z :: rest, _ => exact ⟨x, y, z, by simp [float4Of]⟩
  | succ i ih =>
    intro f h
    match f, h with
    | x :: y :: z :: rest, h =>
      have h2 : 3 * (i + 1) ≤ rest.length := by simp at h; omega
      obtain ⟨a, b, c, a0, a1, a2, a3⟩ := ih rest h2
      have f0 : 3 * (i + 1) = 3 * i + 1 + 1 + 1 := by ring
      have f1 : 3 * (i + 1) + 1 = 3 * i + 1 + 1 + 1 + 1 := by ring
      have f2 : 3 * (i + 1) + 2 = 3 * i + 2 + 1 + 1 + 1 := by ring
      refine ⟨a, b, c, ?_, ?_, ?_, ?_⟩
      · rw [f0]; simpa using a0
      · rw [f1]; simpa using a1
      · rw [f2]; simpa using a2
      · simpa [float4Of] using a3

theorem ppmread_float_of_image (file : Option (List Nat)) (w0 h0 m0 : Int) (b : List Nat)
    (w h m : Int) (hread : ppmread file w0 h0 m0 = PpmResult.image b w h m) (hm : 0 < m) :
    ppmread_float file w0 h0 m0
      = FloatResult.image ((b.take (3 * (w * h)).toNat).map (fun (c : Nat) => (c : ℚ) / (m : ℚ)))
          w h := by
  obtain ⟨r1, r2, r3, _, _⟩ := ppmread_image file w0 h0 m0 b w h m hread
  have hmul : mulInt w h = some (w * h) := mulInt_of_range w h (by omega) (by omega)
  have hmul3 : mulInt 3 (w * h) = some (3 * (w * h)) :=
    mulInt_of_range 3 (w * h) (by omega) (by omega)
  have hmal : malloc (3 * (w * h)) 4
      = some (List.replicate ((3 * (w * h)).toNat * 4) 0) := by
    simp only [malloc]
    rw [if_neg (by omega)]
  simp only [ppmread_float, hread, hmul, hmul3, hmal]
  by_cases hz : 3 * (w * h) = 0
  · simp [hz]
  · rw [if_neg hz, if_neg (by omega), if_pos (by omega)]

theorem sample_at (b : List Nat) (n k : Nat) (m : Int) (hk : k < n) (hn : n ≤ b.length) :
    ∃ r : Nat, b[k]? = some r
      ∧ ((b.take n).map (fun (c : Nat) => (c : ℚ) / (m : ℚ)))[k]? = some ((r : ℚ) / (m : ℚ)) := by
  have hkb : k < b.length := by omega
  refine ⟨b[k], List.getElem?_eq_getElem hkb, ?_⟩
  rw [List.getElem?_map, List.getElem?_take_of_lt hk, List.getElem?_eq_getElem hkb]
  rfl

/-- C12 (RGBA float read).  Whenever `ppmread` returns a block `b` with width `w`,
height `h` and a maximum value `m > 0`, `ppmread_float4` on the same file returns
`w*h` pixels, the consecutive triples of the floats `ppmread_float` returns, each with
`w = 1`: pixel `i` has `x = b[3i]/m`, `y = b[3i+1]/m`, `z = b[3i+2]/m`; and when
`outcdata` is non-null, the block stored there is `b`. -/
theorem rgba_float_read (wantBytes : Bool) (file : Option (List Nat)) (w0 h0 m0 : Int)
    (b : List Nat) (w h m : Int)
    (hread : ppmread file w0 h0 m0 = PpmResult.image b w h m) (hm : 0 < m) :
    ppmread_float file w0 h0 m0
        = FloatResult.image
            ((b.take (3 * (w * h)).toNat).map (fun (c : Nat) => (c : ℚ) / (m : ℚ))) w h
      ∧ ppmread_float4 wantBytes file w0 h0 m0
        = Float4Result.image
            (float4Of ((b.take (3 * (w * h)).toNat).map (fun (c : Nat) => (c : ℚ) / (m : ℚ))))
            (if wantBytes then some (some b) else none) w h
      ∧ ((float4Of ((b.take (3 * (w * h)).toNat).map
            (fun (c : Nat) => (c : ℚ) / (m : ℚ)))).length : Int) = w * h
      ∧ ∀ i : Nat, (i : Int) < w * h →
          ∃ r g bl : Nat, b[3 * i]? = some r ∧ b[3 * i + 1]? = some g
            ∧ b[3 * i + 2]? = some bl
            ∧ (float4Of ((b.take (3 * (w * h)).toNat).map
                (fun (c : Nat) => (c : ℚ) / (m : ℚ))))[i]?
              = some { x := (r : ℚ) / (m : ℚ), y := (g : ℚ) / (m : ℚ),
                       z := (bl : ℚ) / (m : ℚ), w := 1 } := by
  obtain ⟨r1, r2, r3, _, _⟩ := ppmread_image file w0 h0 m0 b w h m hread
  have hn3 : (3 * (w * h)).toNat = 3 * (w * h).toNat := by omega
  have hble : 3 * (w * h).toNat ≤ b.length := by omega
  have hflen : ((b.take (3 * (w * h)).toNat).map (fun (c : Nat) => (c : ℚ) / (m : ℚ))).length
      = 3 * (w * h).toNat := by
    rw [List.length_map, List.length_take, hn3]
    omega
  refine ⟨ppmread_float_of_image file w0 h0 m0 b w h m hread hm, ?_, ?_, ?_⟩
  · have hmul : mulInt w h = some (w * h) := mulInt_of_range w h (by omega) (by omega)
    have hmal : malloc (w * h) 16 = some (List.replicate ((w * h).toNat * 16) 0) := by
      simp only [malloc]
      rw [if_neg (by omega)]
    simp only [ppmread_float4, hread, hmul, hmal]
    by_cases hz : w * h = 0
    · simp [hz, float4Of]
    · rw [if_neg hz, if_neg (by omega)]
      have hloop := float4Loop_pixels m (w * h).toNat 0 [] [] b rfl hble (by omega)
      simp only [List.nil_append] at hloop
      rw [hloop, hn3]
  · rw [float4Of_length (w * h).toNat _ hflen]
    omega
  · intro i hi
    have hi3 : 3 * (i + 1) ≤ 3 * (w * h).toNat := by omega
    obtain ⟨x, y, z, a0, a1, a2, a3⟩ := float4Of_pixel i _ (by rw [hflen]; exact hi3)
    obtain ⟨r, br, fr⟩ := sample_at b (3 * (w * h).toNat) (3 * i) m (by omega) hble
    obtain ⟨g, bg, fg⟩ := sample_at b (3 * (w * h).toNat) (3 * i + 1) m (by omega) hble
    obtain ⟨bl, bb, fb⟩ := sample_at b (3 * (w * h).toNat) (3 * i + 2) m (by omega) hble
    rw [hn3] at a0 a1 a2 a3 ⊢
    rw [fr] at a0
    rw [fg] at a1
    rw [fb] at a2
    refine ⟨r, g, bl, br, bg, bb, ?_⟩
    rw [a3, ← Option.some.inj a0, ← Option.some.inj a1, ← Option.some.inj a2]

/-- A 1 by 2 image of maximum value 200: two pixels, and the byte block handed back. -/
theorem rgba_float_read_witness :
    ppmread_float4 true (some (bytes "P6\n1 2\n200\n" ++ [100, 50, 200, 0, 20, 40])) 0 0 0
      = Float4Result.image
          [{ x := 1 / 2, y := 1 / 4, z := 1, w := 1 }, { x := 0, y := 1 / 10, z := 1 / 5, w := 1 }]
          (some (some ([100, 50, 200, 0, 20, 40] ++ List.replicate 42 0))) 1 2 := by
  have h := (rgba_float_read true (some (bytes "P6\n1 2\n200\n" ++ [100, 50, 200, 0, 20, 40]))
    0 0 0 ([100, 50, 200, 0, 20, 40] ++ List.replicate 42 0) 1 2 200 (by decide)
    (by decide)).2.1
  rw [h]
  have e : (3 * (1 * 2) : Int).toNat = 6 := by decide
  rw [e]
  norm_num [float4Of]

/-! ## The ASCII writer -/

theorem writeRow_spec (n : Nat) :
    ∀ (pre post out : List Nat), n ≤ post.length →
      writeRow (pre ++ post) n out pre.length
        = some (out ++ ((post.take n).map (fun (b : Nat) => printInt (b : Int) ++ [32])).flatten,
            pre.length + n) := by
  induction n with
  | zero => intro pre post out _; simp [writeRow]
  | succ n ih =>
    intro pre post out h
    match post, h with
    | y :: post2, h =>
      have g0 : (pre ++ y :: post2).get? pre.length = some y := get?_append_add pre _ 0
      have hr : pre ++ y :: post2 = (pre ++ [y]) ++ post2 := by simp
      have hl : pre.length + 1 = (pre ++ [y]).length := by simp
      rw [writeRow, g0]
      simp only []
      rw [hr, hl, ih (pre ++ [y]) post2 _ (by simpa using h)]
      simp
      omega

theorem writeRows_spec (w : Int) (c : Nat) (hw : w.toNat = c) (r : Nat) :
    ∀ (pre post out : List Nat), r * c ≤ post.length →
      writeRows (pre ++ post) w r out pre.length
        = some (out ++ ((post.take (r * c)).map (fun (b : Nat) => printInt (b : Int) ++ [32])).flatten,
            pre.length + r * c) := by
  induction r with
  | zero => intro pre post out _; simp [writeRows]
  | succ r ih =>
    intro pre post out h
    have hc : (r + 1) * c = c + r * c := by ring
    rw [hc] at h ⊢
    generalize r * c = m at h ih ⊢
    have hrow := writeRow_spec c pre post out (by omega)
    have hsplit : pre ++ post = (pre ++ post.take c) ++ post.drop c := by
      rw [List.append_assoc, List.take_append_drop]
    have hl : pre.length + c = (pre ++ post.take c).length := by
      simp; omega
    rw [writeRows, hw, hrow]
    simp only []
    rw [hsplit, hl, ih (pre ++ post.take c) (post.drop c) _ (by simp; omega)]
    simp only [← hl, List.take_add, List.map_append, List.flatten_append, List.append_assoc,
      Nat.add_assoc]

theorem pgmFileFormat_eq (w h : Int) (data : List Nat) (comment : Option (List Nat))
    (binsave : Int) :
    pgmFileFormat w h data comment binsave
      = pgmHeader w h comment binsave
        ++ (if binsave = 1 then data
            else (data.map (fun (b : Nat) => printInt (b : Int) ++ [32])).flatten) := by
  have e1 : bytes "P5\n" = [80, 53, 10] := by decide
  have e2 : bytes "P2\n" = [80, 50, 10] := by decide
  have e3 : bytes "# " = [35, 32] := by decide
  have e4 : bytes " \n" = [32, 10] := by decide
  have e5 : bytes " " = [32] := by decide
  have e6 : bytes "255 \n" = printInt 255 ++ [32, 10] := by decide
  simp only [pgmFileFormat, pgmHeader, e1, e2, e3, e4, e5, e6]
  cases comment <;> simp

/-- What `pgmwrite` does on a buffer of `w*h` bytes, case by case. -/
theorem pgmwrite_cases (openOk : Bool) (room : Nat) (w h : Int) (data : List Nat)
    (comment : Option (List Nat)) (binsave : Int) (hw : 0 ≤ w) (hh : 0 ≤ h)
    (hlen : (data.length : Int) = w * h) :
    pgmwrite openOk room w h data comment binsave
      = if 2147483647 < w * h then WriteResult.undefined
        else if openOk = false then WriteResult.ret (-1) none
        else if binsave = 1 ∧ room < data.length then
          WriteResult.exit (Diag.shortWrite room (w * h))
            (pgmHeader w h comment binsave ++ data.take room)
        else WriteResult.ret 0 (some (pgmFileFormat w h data comment binsave)) := by
  have hnn : 0 ≤ w * h := Int.mul_nonneg hw hh
  by_cases hbig : 2147483647 < w * h
  · have : mulInt w h = none := by
      have : ¬ (inIntRange (w * h) = true) := by
        rw [inIntRange_iff]; omega
      simp [mulInt, this]
    simp [pgmwrite, this, hbig]
  · have hm : mulInt w h = some (w * h) := mulInt_of_range w h (by omega) (by omega)
    have hn : (w * h).toNat = data.length := by omega
    rw [if_neg hbig, pgmFileFormat_eq]
    simp only [pgmwrite, hm, hn]
    cases openOk with
    | false => simp
    | true =>
      simp only [Bool.not_true, Bool.false_eq_true, if_false]
      by_cases hb : binsave = 1
      · simp only [hb, if_true, true_and]
        rw [if_neg (by omega)]
        by_cases hroom : room < data.length
        · have hmin : min data.length room = room := by omega
          rw [if_pos hroom, hmin, if_pos (by omega)]
          simp
        · have hmin : min data.length room = data.length := by omega
          rw [if_neg hroom, hmin, if_neg (by omega), List.take_length]
          simp
      · simp only [hb, if_false, false_and]
        have hrc : h.toNat * w.toNat = data.length := by
          have h1 : ((h.toNat * w.toNat : Nat) : Int) = w * h := by
            push_cast
            rw [Int.toNat_of_nonneg hw, Int.toNat_of_nonneg hh]
            ring
          omega
        have hrows := writeRows_spec w w.toNat rfl h.toNat [] data
          (pgmHeader w h comment binsave) (by omega)
        simp only [List.nil_append, List.length_nil, hrc, List.take_length] at hrows
        rw [hrows]
        simp

/-- C13 (writer output format).  For `w, h ≥ 0` and a buffer of `w*h` bytes: whenever
`pgmwrite` returns having written a file, it returns 0 and the file is exactly the
format of the specification (magic `P5` for `binsave = 1` and `P2` otherwise, the
comment line only if a comment is given, the dimensions line, the line `255`, the
payload); and it does so whenever `w*h` is within `int` range, the file can be opened
and, for binary, `fwrite` writes all the bytes. -/
theorem writer_output_format (openOk : Bool) (room : Nat) (w h : Int) (data : List Nat)
    (comment : Option (List Nat)) (binsave : Int) (hw : 0 ≤ w) (hh : 0 ≤ h)
    (hlen : (data.length : Int) = w * h) :
    (∀ (code : Int) (file : List Nat),
        pgmwrite openOk room w h data comment binsave = WriteResult.ret code (some file) →
        code = 0 ∧ file = pgmFileFormat w h data comment binsave)
      ∧ (openOk = true → w * h ≤ INT_MAX → (binsave = 1 → data.length ≤ room) →
        pgmwrite openOk room w h data comment binsave
          = WriteResult.ret 0 (some (pgmFileFormat w h data comment binsave))) := by
  have hc := pgmwrite_cases openOk room w h data comment binsave hw hh hlen
  constructor
  · intro code file hret
    rw [hc] at hret
    split at hret
    · cases hret
    · split at hret
      · cases hret
      · split at hret
        · cases hret
        · simp only [WriteResult.ret.injEq, Option.some.injEq] at hret
          exact ⟨hret.1.symm, hret.2.symm⟩
  · intro ho hr hroom
    have hr2 : ¬ (2147483647 < w * h) := by
      have : w * h ≤ 2147483647 := hr
      omega
    rw [hc, if_neg hr2, if_neg (by simp [ho]), if_neg]
    intro hcon
    have := hroom hcon.1
    omega

/-- A 2 by 2 image written in binary with a comment, and in ASCII without one. -/
theorem writer_output_format_witness :
    pgmwrite true 4 2 2 [0, 7, 64, 255] (some (bytes "hi")) 1
        = WriteResult.ret 0 (some (bytes "P5\n# hi \n2 2 \n255 \n" ++ [0, 7, 64, 255]))
      ∧ pgmwrite true 0 2 2 [0, 7, 64, 255] none 0
        = WriteResult.ret 0 (some (bytes "P2\n2 2 \n255 \n0 7 64 255 ")) := by
  have h1 := (writer_output_format true 4 2 2 [0, 7, 64, 255] (some (bytes "hi")) 1
    (by decide) (by decide) (by decide)).2 rfl (by decide) (by decide)
  have h2 := (writer_output_format true 0 2 2 [0, 7, 64, 255] none 0
    (by decide) (by decide) (by decide)).2 rfl (by decide) (by decide)
  exact ⟨h1.trans (by decide), h2.trans (by decide)⟩

/-- C14 (buffer length and exact binary read), as amended.  For a well-formed header
(every header line fits the 255 characters one `fgets` reads) declaring `w` and `h`:
whenever `pgmread` succeeds on the `P5` file, the width and height it returns are `w`
and `h`, and the image buffer (the first `w*h` bytes of the returned block) has length
`w*h` and equals the first `w*h` bytes that follow the maxval line; whenever `ppmread`
succeeds on the `P6` file, the same holds with `3*w*h` bytes.  Bytes after those are
ignored. -/
theorem exact_binary_read (H : Header) (payload : List Nat) (w0 h0 m0 : Int)
    (hwf : H.wellFormed = true) :
    (∀ (blk : List Nat) (w h : Int),
        pgmread (some ((H.withTag 53).text ++ payload)) w0 h0 = PgmResult.image blk w h →
        w = H.w ∧ h = H.h
          ∧ (pgmread (some ((H.withTag 53).text ++ payload)) w0 h0).buffer
            = some (payload.take (w * h).toNat)
          ∧ ((payload.take (w * h).toNat).length : Int) = w * h)
      ∧ (∀ (blk : List Nat) (w h m : Int),
        ppmread (some ((H.withTag 54).text ++ payload)) w0 h0 m0
            = PpmResult.image blk w h m →
        w = H.w ∧ h = H.h
          ∧ (ppmread (some ((H.withTag 54).text ++ payload)) w0 h0 m0).buffer
            = some (payload.take (3 * (w * h)).toNat)
          ∧ ((payload.take (3 * (w * h)).toNat).length : Int) = 3 * w * h) := by
  constructor
  · intro blk w h hread
    have hhead : pgmread (some ((H.withTag 53).text ++ payload)) w0 h0
        = pgmPayload true H.w H.h payload :=
      pgmread_header (H.withTag 53) payload w0 h0 (wellFormed_withTag H 53 (by decide) hwf)
        (Or.inl rfl)
    have hpay : pgmPayload true H.w H.h payload = PgmResult.image blk w h := by
      rw [← hhead]; exact hread
    obtain ⟨e1, e2, r1, r2, _⟩ := pgmPayload_image true H.w H.h payload blk w h hpay
    subst e1 e2
    have hb := pgmPayload_binary H.w H.h payload (H.w * H.h).toNat (by omega) (by omega)
    rw [hpay] at hb
    by_cases hs : payload.length < (H.w * H.h).toNat
    · rw [if_pos hs] at hb; cases hb
    · rw [if_neg hs] at hb
      simp only [PgmResult.image.injEq, and_true] at hb
      refine ⟨rfl, rfl, ?_, ?_⟩
      · rw [hread, hb]
        simp only [PgmResult.buffer]
        rw [List.take_left']
        simp only [List.length_take]
        omega
      · rw [List.length_take]
        omega
  · intro blk w h m hread
    have hhead : ppmread (some ((H.withTag 54).text ++ payload)) w0 h0 m0
        = if H.maxval < 0 ∨ H.maxval > 255 then PpmResult.exit (Diag.badMaxval H.maxval)
          else ppmPayload true H.w H.h H.maxval payload :=
      ppmread_header (H.withTag 54) payload w0 h0 m0
        (wellFormed_withTag H 54 (by decide) hwf) (Or.inl rfl)
    rw [hread] at hhead
    by_cases hbad : H.maxval < 0 ∨ H.maxval > 255
    · rw [if_pos hbad] at hhead; cases hhead
    · rw [if_neg hbad] at hhead
      obtain ⟨e1, e2, _, r1, r2, _⟩ :=
        ppmPayload_image true H.w H.h H.maxval payload blk w h m hhead.symm
      subst e1 e2
      have hn3 : (3 * (H.w * H.h)).toNat = 3 * (H.w * H.h).toNat := by omega
      have hb := ppmPayload_binary H.w H.h H.maxval payload (H.w * H.h).toNat (by omega)
        (by omega)
      rw [← hhead] at hb
      by_cases hs : payload.length < 3 * (H.w * H.h).toNat
      · rw [if_pos hs] at hb; cases hb
      · rw [if_neg hs] at hb
        simp only [PpmResult.image.injEq, true_and] at hb
        refine ⟨rfl, rfl, ?_, ?_⟩
        · rw [hread, hb.1, hn3]
          simp only [PpmResult.buffer, hn3]
          rw [List.take_left']
          simp only [List.length_take]
          omega
        · rw [List.length_take, mul_assoc]
          omega

/-- Four pixels declared and six bytes present: the first four are the buffer. -/
theorem exact_binary_read_witness :
    (2 : Int) = exampleHeader.w ∧ (2 : Int) = exampleHeader.h
      ∧ (pgmread (some ((exampleHeader.withTag 53).text ++ [1, 2, 3, 4, 9, 9])) 0 0).buffer
        = some (List.take ((2 : Int) * 2).toNat [1, 2, 3, 4, 9, 9])
      ∧ ((List.take ((2 : Int) * 2).toNat [1, 2, 3, 4, 9, 9]).length : Int) = 2 * 2 :=
  (exact_binary_read exampleHeader [1, 2, 3, 4, 9, 9] 0 0 0 (by decide)).1
    ([1, 2, 3, 4] ++ List.replicate 28 0) 2 2 (by decide)

/-- C14, counterexample to the claim as stated.  A `P5` file whose header holds one
comment line of 258 characters, the dimensions `1 1` and the maximum value 255,
followed by the bytes `ABC`: `pgmread` succeeds with width 3 and height 1, not the two
integers of the dimensions line, and its buffer holds the characters `255` of the
maxval line, not the byte `A` that follows it. -/
theorem binary_read_long_comment :
    pgmread (some (bytes "P5\n" ++ joinLines [35 :: List.replicate 254 120 ++ bytes "3 1"]
        ++ bytes "1 1\n255\nABC")) 0 0
      = PgmResult.image ([50, 53, 53] ++ List.replicate 21 0) 3 1 := by
  decide

/-- C15 (failure propagation), the code at failing inputs.  On a file that is not a
netpbm file, and on a file that cannot be opened, `pgmread` and `ppmread` return
`NULL` with `*w = *h = 0`, yet `pgmread_float`, `ppmread_float` and `ppmread_float4`
return a non-null block of no pixels: no failure is reported.  On a file cut after its
magic, `pgmread` returns `NULL` and leaves the caller's `*w = *h = 5`, and
`pgmread_float` then reads through the null pointer. -/
theorem float_readers_hide_failure :
    (pgmread (some (bytes "XX\n")) 5 5 = PgmResult.null Diag.notPgm 0 0
      ∧ pgmread_float (some (bytes "XX\n")) 5 5 = FloatResult.image [] 0 0)
    ∧ (ppmread (some (bytes "XX\n")) 5 5 9 = PpmResult.null Diag.notPpm 0 0 9
      ∧ ppmread_float (some (bytes "XX\n")) 5 5 9 = FloatResult.image [] 0 0
      ∧ ppmread_float4 false (some (bytes "XX\n")) 5 5 9 = Float4Result.image [] none 0 0)
    ∧ (pgmread none 5 5 = PgmResult.null Diag.openFailed 0 0
      ∧ pgmread_float none 5 5 = FloatResult.image [] 0 0)
    ∧ (pgmread (some (bytes "P5")) 5 5 = PgmResult.null Diag.wrongFile 5 5
      ∧ pgmread_float (some (bytes "P5")) 5 5 = FloatResult.undefined) := by
  decide

/-! ## Round trip with a comment -/

theorem cstr_mem (c : List Nat) : ∀ ch ∈ cstr c, ch ∈ c := by
  intro ch h
  exact (List.takeWhile_sublist _).subset h

theorem cstr_length_le (c : List Nat) : (cstr c).length ≤ c.length :=
  (List.takeWhile_sublist _).length_le

theorem writerHeader_wellFormed_comment (w h : Int) (c : List Nat) (binsave : Int)
    (hw : 0 ≤ w) (hh : 0 ≤ h) (hwr : inIntRange w = true) (hhr : inIntRange h = true)
    (hnl : ∀ ch ∈ c, ch ≠ 10) (hshort : c.length ≤ 251) :
    (writerHeader w h (some c) binsave).wellFormed = true := by
  have hbase := (wellFormed_iff _).1 (writerHeader_wellFormed w h binsave hw hh hwr hhr)
  rw [wellFormed_iff]
  refine ⟨hbase.1, ?_, hbase.2.2⟩
  have hlen := cstr_length_le c
  simp only [writerHeader, List.all_cons, List.all_nil, Bool.and_true, isComment,
    Bool.and_eq_true, beq_iff_eq]
  refine ⟨rfl, ?_⟩
  rw [fitsLine_iff]
  constructor
  · intro ch hch
    simp only [List.cons_append, List.nil_append, List.mem_cons, List.mem_append,
      List.mem_singleton] at hch
    rcases hch with e | e | e | e
    · omega
    · omega
    · exact hnl ch (cstr_mem c ch e)
    · simp only [List.not_mem_nil, or_false] at e
      omega
  · simp only [List.cons_append, List.nil_append, List.length_cons, List.length_append,
      List.length_nil]
    omega

theorem pgmwrite_range (openOk : Bool) (room : Nat) (w h : Int) (data : List Nat)
    (comment : Option (List Nat)) (binsave code : Int) (file : Option (List Nat))
    (hfile : pgmwrite openOk room w h data comment binsave = WriteResult.ret code file) :
    -2147483648 ≤ w * h ∧ w * h ≤ 2147483647 := by
  cases hm : mulInt w h with
  | none => simp [pgmwrite, hm] at hfile
  | some n => exact (mulInt_some w h n hm).2

/-- C16 (binary round trip with a comment), as amended.  For `w, h ≥ 1`, a buffer
`data` of `w*h` bytes and a comment string `c` without newline of at most 251 bytes
(so that the line `# c ` fits the 255 characters one `fgets` reads): the file a
successful `pgmwrite(w, h, data, c, 1)` produces is read back by `pgmread` as an image
of width `w` and height `h` whose buffer is `data`. -/
theorem comment_round_trip (openOk : Bool) (room : Nat) (w h : Int) (data file c : List Nat)
    (w0 h0 : Int) (hw : 1 ≤ w) (hh : 1 ≤ h) (hlen : (data.length : Int) = w * h)
    (hnl : ∀ ch ∈ c, ch ≠ 10) (hshort : c.length ≤ 251)
    (hfile : pgmwrite openOk room w h data (some c) 1 = WriteResult.ret 0 (some file)) :
    pgmread (some file) w0 h0
        = PgmResult.image (data ++ List.replicate (7 * data.length) 0) w h
      ∧ (pgmread (some file) w0 h0).buffer = some data := by
  obtain ⟨_, hr⟩ := pgmwrite_range _ _ _ _ _ _ _ _ _ hfile
  have hpos : 0 < w * h := Int.mul_pos (by omega) (by omega)
  have hwr : w ≤ 2147483647 := by nlinarith
  have hhr : h ≤ 2147483647 := by nlinarith
  have hf := pgmwrite_binary_file openOk room w h data file (some c) ⟨by omega, hr⟩ hlen hfile
  have hwf : (writerHeader w h (some c) 1).wellFormed = true :=
    writerHeader_wellFormed_comment w h c 1 (by omega) (by omega)
      ((inIntRange_iff w).2 ⟨by omega, hwr⟩) ((inIntRange_iff h).2 ⟨by omega, hhr⟩) hnl hshort
  have hread : pgmread (some file) w0 h0
      = PgmResult.image (data ++ List.replicate (7 * data.length) 0) w h := by
    rw [hf, ← writerHeader_text, pgmread_header _ data w0 h0 hwf (Or.inl rfl)]
    have hp := pgmPayload_binary w h data data.length hlen.symm (by omega)
    simp only [writerHeader, if_true, beq_self_eq_true] at hp ⊢
    rw [hp, if_neg (by omega), List.take_length]
  refine ⟨hread, ?_⟩
  rw [hread]
  simp only [PgmResult.buffer, ← hlen, Int.toNat_ofNat, List.take_left]

/-- The round trip of a 2 by 2 image written with the comment `made by hand`. -/
theorem comment_round_trip_witness :
    pgmread (some (bytes "P5\n# made by hand \n2 2 \n255 \n" ++ [1, 2, 3, 255])) 0 0
        = PgmResult.image ([1, 2, 3, 255] ++ List.replicate (7 * 4) 0) 2 2
      ∧ (pgmread (some (bytes "P5\n# made by hand \n2 2 \n255 \n" ++ [1, 2, 3, 255])) 0 0).buffer
        = some [1, 2, 3, 255] :=
  comment_round_trip true 4 2 2 [1, 2, 3, 255]
    (bytes "P5\n# made by hand \n2 2 \n255 \n" ++ [1, 2, 3, 255]) (bytes "made by hand")
    0 0 (by decide) (by decide) (by decide) (by decide) (by decide) (by decide)

set_option maxRecDepth 8000 in
/-- C16, counterexample to the claim as stated.  With a comment of 256 characters that
ends in `1 1`, `pgmwrite(2, 2, data, c, 1)` succeeds, and `pgmread` reads its file back
as a 1 by 1 image holding the character `2`: the comment line is read in two pieces
and its tail is taken for the dimensions line. -/
theorem comment_round_trip_long_comment :
    pgmwrite true 4 2 2 [1, 2, 3, 4] (some (List.replicate 253 120 ++ bytes "1 1")) 1
        = WriteResult.ret 0 (some (bytes "P5\n# " ++ (List.replicate 253 120 ++ bytes "1 1")
            ++ bytes " \n2 2 \n255 \n" ++ [1, 2, 3, 4]))
      ∧ pgmread (some (bytes "P5\n# " ++ (List.replicate 253 120 ++ bytes "1 1")
            ++ bytes " \n2 2 \n255 \n" ++ [1, 2, 3, 4])) 0 0
        = PgmResult.image ([50] ++ List.replicate 7 0) 1 1 := by
  decide

/-! ## ASCII round trip -/

theorem blank_shift (rest : List Nat) :
    [32] ++ (rest.map (fun (x : Nat) => printInt (x : Int) ++ [32])).flatten
      = (rest.map (fun (x : Nat) => [32] ++ printInt (x : Int))).flatten ++ [32] := by
  induction rest with
  | nil => rfl
  | cons x rest ih =>
    simp only [List.map_cons, List.flatten_cons, List.append_assoc]
    rw [← ih]

theorem writtenTokens_text (b : Nat) (rest : List Nat) :
    ((b :: rest).map (fun (x : Nat) => printInt (x : Int) ++ [32])).flatten
      = tokensText (writtenTokens (b :: rest)) ++ [32] := by
  have h := blank_shift rest
  simp only [writtenTokens, tokensText, List.map_cons, List.flatten_cons, List.map_map,
    List.nil_append, List.append_assoc]
  have e : (List.map ((fun t => t.ws ++ t.text) ∘ fun (x : Nat) =>
      ({ ws := [32], text := printInt (x : Int), value := (x : Int) } : Token)) rest)
      = rest.map (fun (x : Nat) => [32] ++ printInt (x : Int)) := by
    apply List.map_congr_left
    intro x _
    rfl
  rw [e, ← h]

theorem writtenTokens_length (data : List Nat) :
    (writtenTokens data).length = data.length := by
  cases data with
  | nil => rfl
  | cons b rest => simp [writtenTokens]

theorem writtenTokens_ok (data : List Nat) (hb : ∀ b ∈ data, b < 256) :
    tokensOk (writtenTokens data) = true := by
  have hnum : ∀ b : Nat, b < 256 → numeralValue (printInt (b : Int)) = some (b : Int) := by
    intro b hlt
    exact numeralValue_printInt (b : Int) ((inIntRange_iff _).2 ⟨by omega, by omega⟩)
  cases data with
  | nil => rfl
  | cons b rest =>
    have hfirst : Token.wellFormed { ws := [], text := printInt (b : Int), value := (b : Int) }
        = true := by
      simp only [Token.wellFormed, List.all_nil, Bool.true_and, beq_iff_eq]
      exact hnum b (hb b (List.mem_cons_self _ _))
    have hrest : ∀ t ∈ rest.map (fun (x : Nat) =>
        ({ ws := [32], text := printInt (x : Int), value := (x : Int) } : Token)),
        Token.wellFormed t = true ∧ (t.ws != []) = true := by
      intro t ht
      obtain ⟨x, hx, rfl⟩ := List.mem_map.1 ht
      refine ⟨?_, rfl⟩
      simp only [Token.wellFormed, Bool.and_eq_true, beq_iff_eq]
      exact ⟨by decide, hnum x (hb x (List.mem_cons_of_mem _ hx))⟩
    simp only [tokensOk, writtenTokens, List.all_cons, List.tail_cons, Bool.and_eq_true,
      List.all_eq_true]
    exact ⟨⟨hfirst, fun t ht => (hrest t ht).1⟩, fun t ht => (hrest t ht).2⟩

theorem writtenTokens_samples (data : List Nat) (hb : ∀ b ∈ data, b < 256) :
    tokenSamples (writtenTokens data) = data := by
  have hval : ∀ b : Nat, b < 256 → (((b : Int) % 256).toNat) = b := by
    intro b hlt
    omega
  cases data with
  | nil => rfl
  | cons b rest =>
    simp only [tokenSamples, writtenTokens, List.map_cons, List.map_map]
    rw [hval b (hb b (List.mem_cons_self _ _))]
    congr 1
    have : ∀ x ∈ rest, ((fun t : Token => (t.value % 256).toNat) ∘ fun (x : Nat) =>
        ({ ws := [32], text := printInt (x : Int), value := (x : Int) } : Token)) x = id x := by
      intro x hx
      exact hval x (hb x (List.mem_cons_of_mem _ hx))
    rw [List.map_congr_left this, List.map_id]

/-- C17 (ASCII round trip).  For `w, h ≥ 1` and a buffer `data` of `w*h` bytes: the
file a successful `pgmwrite(w, h, data, NULL, 0)` produces is read back by `pgmread` as
an image of width `w` and height `h` whose buffer is `data`. -/
theorem ascii_round_trip (openOk : Bool) (room : Nat) (w h : Int) (data file : List Nat)
    (w0 h0 : Int) (hw : 1 ≤ w) (hh : 1 ≤ h) (hlen : (data.length : Int) = w * h)
    (hbytes : ∀ b ∈ data, b < 256)
    (hfile : pgmwrite openOk room w h data none 0 = WriteResult.ret 0 (some file)) :
    pgmread (some file) w0 h0
        = PgmResult.image (data ++ List.replicate (7 * data.length) 0) w h
      ∧ (pgmread (some file) w0 h0).buffer = some data := by
  obtain ⟨_, hr⟩ := pgmwrite_range _ _ _ _ _ _ _ _ _ hfile
  have hpos : 0 < w * h := Int.mul_pos (by omega) (by omega)
  have hwr : w ≤ 2147483647 := by nlinarith
  have hhr : h ≤ 2147483647 := by nlinarith
  have hn : (w * h).toNat = data.length := by omega
  have hc := pgmwrite_cases openOk room w h data none 0 (by omega) (by omega) hlen
  rw [hfile] at hc
  rw [if_neg (by omega)] at hc
  have hf : file = pgmFileFormat w h data none 0 := by
    split at hc
    · cases hc
    · rw [if_neg (by simp)] at hc
      simp only [WriteResult.ret.injEq, Option.some.injEq, true_and] at hc
      exact hc
  have hwf : (writerHeader w h none 0).wellFormed = true :=
    writerHeader_wellFormed w h 0 (by omega) (by omega)
      ((inIntRange_iff w).2 ⟨by omega, hwr⟩) ((inIntRange_iff h).2 ⟨by omega, hhr⟩)
  have hread : pgmread (some file) w0 h0
      = PgmResult.image (data ++ List.replicate (7 * data.length) 0) w h := by
    match data, hlen, hbytes, hn with
    | [], hlen, _, _ => simp at hlen; omega
    | b :: rest, hlen, hbytes, hn =>
      have hts := writtenTokens_ok (b :: rest) hbytes
      have hchain : chainOk [32] (writtenTokens (b :: rest)) = true := by
        simp only [tokensOk, Bool.and_eq_true] at hts
        exact chainOk_of_tokensOk [32] (by decide) _ hts.1 hts.2
      rw [hf, pgmFileFormat_eq, ← writerHeader_text, if_neg (by decide),
        writtenTokens_text b rest,
        pgmread_header _ _ w0 h0 hwf (Or.inr (by simp [writerHeader]))]
      have hp := pgmPayload_ascii w h (writtenTokens (b :: rest)) [32] (by omega) (by omega)
        hr (by rw [writtenTokens_length]; omega) hchain
      have ht : (writtenTokens (b :: rest)).take (w * h).toNat = writtenTokens (b :: rest) := by
        rw [hn, ← writtenTokens_length (b :: rest), List.take_length]
      rw [ht, writtenTokens_samples (b :: rest) hbytes, hn] at hp
      simp only [writerHeader] at hp ⊢
      rw [← hp]
      rfl
  refine ⟨hread, ?_⟩
  rw [hread]
  simp only [PgmResult.buffer, ← hlen, Int.toNat_ofNat, List.take_left]

/-- The round trip of a 2 by 2 image written in ASCII. -/
theorem ascii_round_trip_witness :
    pgmread (some (bytes "P2\n2 2 \n255 \n0 7 64 255 ")) 0 0
        = PgmResult.image ([0, 7, 64, 255] ++ List.replicate (7 * 4) 0) 2 2
      ∧ (pgmread (some (bytes "P2\n2 2 \n255 \n0 7 64 255 ")) 0 0).buffer
        = some [0, 7, 64, 255] :=
  ascii_round_trip true 0 2 2 [0, 7, 64, 255] (bytes "P2\n2 2 \n255 \n0 7 64 255 ")
    0 0 (by decide) (by decide) (by decide) (by decide) (by decide)

/-! ## ASCII against binary -/

theorem tokenSamples_bytes (ts : List Token)
    (hval : ∀ t ∈ ts, 0 ≤ t.value ∧ t.value ≤ 255) :
    tokenSamples ts = ts.map (fun t => t.value.toNat) := by
  simp only [tokenSamples]
  apply List.map_congr_left
  intro t ht
  have := hval t ht
  omega

/-- C18 (ASCII and binary decoding agree), as amended.  For a well-formed header
(every header line fits the 255 characters one `fgets` reads; `w`, `h` non-negative)
and white-space-separated tokens with values in `0..255`, the sample sequence being
the sequence of the token values: when there are `w*h` tokens
and `w*h` is within `int` range, `pgmread` returns the same result on the `P2` file
carrying the tokens and on the `P5` file carrying their values as raw bytes, namely
width `w`, height `h` and the buffer of those values; when there are `3*w*h` tokens and
`3*w*h` is within `int` range, `ppmread` returns the same result on the `P3` and the
`P6` file, which for a maximum value in `0..255` is width `w`, height `h` and the
buffer of those values. -/
theorem ascii_binary_agree (H : Header) (ts : List Token) (tail extra : List Nat)
    (w0 h0 m0 : Int) (hwf : H.wellFormed = true) (hts : tokensOk ts = true)
    (htail : startsNo isdigit tail = true)
    (hval : ∀ t ∈ ts, 0 ≤ t.value ∧ t.value ≤ 255) :
    ((ts.length : Int) = H.w * H.h → H.w * H.h ≤ INT_MAX →
      pgmread (some ((H.withTag 50).text ++ (tokensText ts ++ tail))) w0 h0
          = pgmread (some ((H.withTag 53).text
              ++ (ts.map (fun t => t.value.toNat) ++ extra))) w0 h0
        ∧ pgmread (some ((H.withTag 53).text
              ++ (ts.map (fun t => t.value.toNat) ++ extra))) w0 h0
          = PgmResult.image (ts.map (fun t => t.value.toNat)
              ++ List.replicate (7 * ts.length) 0) H.w H.h)
    ∧ ((ts.length : Int) = 3 * (H.w * H.h) → 3 * (H.w * H.h) ≤ INT_MAX →
      ppmread (some ((H.withTag 51).text ++ (tokensText ts ++ tail))) w0 h0 m0
          = ppmread (some ((H.withTag 54).text
              ++ (ts.map (fun t => t.value.toNat) ++ extra))) w0 h0 m0
        ∧ (0 ≤ H.maxval → H.maxval ≤ 255 →
          ppmread (some ((H.withTag 54).text
              ++ (ts.map (fun t => t.value.toNat) ++ extra))) w0 h0 m0
            = PpmResult.image (ts.map (fun t => t.value.toNat)
                ++ List.replicate (7 * ts.length) 0) H.w H.h H.maxval)) := by
  obtain ⟨_, _, ⟨_, hw, _, hh⟩, _, _⟩ := (wellFormed_iff H).1 hwf
  have hnn : 0 ≤ H.w * H.h := Int.mul_nonneg hw hh
  have hchain : chainOk tail ts = true := by
    simp only [tokensOk, Bool.and_eq_true] at hts
    exact chainOk_of_tokensOk tail htail ts hts.1 hts.2
  have hsamp := tokenSamples_bytes ts hval
  have hslen : (ts.map (fun t => t.value.toNat)).length = ts.length := List.length_map _ _
  constructor
  · intro hlen hr
    have hr2 : H.w * H.h ≤ 2147483647 := hr
    have hn : (H.w * H.h).toNat = ts.length := by omega
    have h2 : pgmread (some ((H.withTag 50).text ++ (tokensText ts ++ tail))) w0 h0
        = PgmResult.image (ts.map (fun t => t.value.toNat)
            ++ List.replicate (7 * ts.length) 0) H.w H.h := by
      rw [pgmread_header (H.withTag 50) _ w0 h0 (wellFormed_withTag H 50 (by decide) hwf)
        (Or.inr rfl)]
      have hp := pgmPayload_ascii H.w H.h ts tail hw hh hr2 (by omega) hchain
      rw [hn, List.take_length, hsamp] at hp
      exact hp
    have h5 : pgmread (some ((H.withTag 53).text
        ++ (ts.map (fun t => t.value.toNat) ++ extra))) w0 h0
        = PgmResult.image (ts.map (fun t => t.value.toNat)
            ++ List.replicate (7 * ts.length) 0) H.w H.h := by
      rw [pgmread_header (H.withTag 53) _ w0 h0 (wellFormed_withTag H 53 (by decide) hwf)
        (Or.inl rfl)]
      have hp := pgmPayload_binary H.w H.h (ts.map (fun t => t.value.toNat) ++ extra)
        ts.length (by omega) (by omega)
      rw [if_neg (by simp), List.take_left' hslen] at hp
      exact hp
    exact ⟨h2.trans h5.symm, h5⟩
  · intro hlen hr
    have hr2 : 3 * (H.w * H.h) ≤ 2147483647 := hr
    have hn : (3 * (H.w * H.h)).toNat = ts.length := by omega
    have hn3 : 3 * (H.w * H.h).toNat = ts.length := by omega
    have h3 : ppmread (some ((H.withTag 51).text ++ (tokensText ts ++ tail))) w0 h0 m0
        = if H.maxval < 0 ∨ H.maxval > 255 then PpmResult.exit (Diag.badMaxval H.maxval)
          else PpmResult.image (ts.map (fun t => t.value.toNat)
            ++ List.replicate (7 * ts.length) 0) H.w H.h H.maxval := by
      have hhead : ppmread (some ((H.withTag 51).text ++ (tokensText ts ++ tail))) w0 h0 m0
          = if H.maxval < 0 ∨ H.maxval > 255 then PpmResult.exit (Diag.badMaxval H.maxval)
            else ppmPayload false H.w H.h H.maxval (tokensText ts ++ tail) :=
        ppmread_header (H.withTag 51) _ w0 h0 m0 (wellFormed_withTag H 51 (by decide) hwf)
          (Or.inr rfl)
      have hp := ppmPayload_ascii H.w H.h H.maxval ts tail hw hh hr2 (by omega) hchain
      rw [hn, List.take_length, hsamp] at hp
      rw [hhead, hp]
    have h6 : ppmread (some ((H.withTag 54).text
        ++ (ts.map (fun t => t.value.toNat) ++ extra))) w0 h0 m0
        = if H.maxval < 0 ∨ H.maxval > 255 then PpmResult.exit (Diag.badMaxval H.maxval)
          else PpmResult.image (ts.map (fun t => t.value.toNat)
            ++ List.replicate (7 * ts.length) 0) H.w H.h H.maxval := by
      have hhead : ppmread (some ((H.withTag 54).text
          ++ (ts.map (fun t => t.value.toNat) ++ extra))) w0 h0 m0
          = if H.maxval < 0 ∨ H.maxval > 255 then PpmResult.exit (Diag.badMaxval H.maxval)
            else ppmPayload true H.w H.h H.maxval
              (ts.map (fun t => t.value.toNat) ++ extra) :=
        ppmread_header (H.withTag 54) _ w0 h0 m0 (wellFormed_withTag H 54 (by decide) hwf)
          (Or.inl rfl)
      have hp := ppmPayload_binary H.w H.h H.maxval
        (ts.map (fun t => t.value.toNat) ++ extra) (H.w * H.h).toNat (by omega) (by omega)
      rw [hn3, if_neg (by simp), List.take_left' hslen] at hp
      rw [hhead, hp]
    refine ⟨h3.trans h6.symm, ?_⟩
    intro hm0 hm1
    rw [h6, if_neg (by omega)]

/-- The example header with the tokens `0 64 128 255`, and with twelve tokens for RGB. -/
theorem ascii_binary_agree_witness :
    (pgmread (some ((exampleHeader.withTag 50).text ++ (tokensText exampleTokens ++ [10]))) 0 0
        = pgmread (some ((exampleHeader.withTag 53).text
            ++ (exampleTokens.map (fun t => t.value.toNat) ++ []))) 0 0
      ∧ pgmread (some ((exampleHeader.withTag 53).text
            ++ (exampleTokens.map (fun t => t.value.toNat) ++ []))) 0 0
        = PgmResult.image (exampleTokens.map (fun t => t.value.toNat)
            ++ List.replicate (7 * exampleTokens.length) 0) exampleHeader.w exampleHeader.h)
    ∧ ppmread (some ((exampleHeader.withTag 51).text
          ++ (tokensText exampleTokensBytes ++ [10]))) 0 0 0
        = ppmread (some ((exampleHeader.withTag 54).text
            ++ (exampleTokensBytes.map (fun t => t.value.toNat) ++ []))) 0 0 0 :=
  ⟨(ascii_binary_agree exampleHeader exampleTokens [10] [] 0 0 0 (by decide) (by decide)
      (by decide) (by decide)).1 (by decide) (by decide),
    ((ascii_binary_agree exampleHeader exampleTokensBytes
      [10] [] 0 0 0 (by decide) (by decide) (by decide) (by decide)).2 (by decide)
      (by decide)).1⟩

/-- C18, counterexample to the claim as stated.  With a header that holds one comment
line of 258 characters, the dimensions `1 1` and the maximum value 255, and the sample
sequence `[7]`: `pgmread` returns the buffer `[255, 7]` on the `P2` file and the buffer
of the characters `2`, `5` on the `P5` file. -/
theorem decoders_disagree_long_comment :
    pgmread (some (bytes "P2\n" ++ joinLines [35 :: List.replicate 254 120 ++ bytes "2 1"]
        ++ bytes "1 1\n255\n" ++ bytes "7")) 0 0
        = PgmResult.image ([255, 7] ++ List.replicate 14 0) 2 1
      ∧ pgmread (some (bytes "P5\n" ++ joinLines [35 :: List.replicate 254 120 ++ bytes "2 1"]
        ++ bytes "1 1\n255\n" ++ [7])) 0 0
        = PgmResult.image ([50, 53] ++ List.replicate 14 0) 2 1 := by
  decide

/-- C19 (division guarded), the code at a failing input.  `ppmread` accepts a `P6` file
whose maxval line holds 0 and leaves 0 in `*maxval`; `ppmread_float` and
`ppmread_float4` then divide every sample by zero. -/
theorem maxval_zero_accepted :
    ppmread (some (bytes "P6\n1 1\n0\n" ++ [10, 20, 30])) 0 0 7
        = PpmResult.image ([10, 20, 30] ++ List.replicate 21 0) 1 1 0
      ∧ ppmread_float (some (bytes "P6\n1 1\n0\n" ++ [10, 20, 30])) 0 0 7
        = FloatResult.undefined
      ∧ ppmread_float4 false (some (bytes "P6\n1 1\n0\n" ++ [10, 20, 30])) 0 0 7
        = Float4Result.undefined := by
  decide

/-! ## Quantization after normalization -/

theorem pgmread_float_of_image (file : Option (List Nat)) (w0 h0 : Int) (b : List Nat)
    (w h : Int) (hread : pgmread file w0 h0 = PgmResult.image b w h) :
    pgmread_float file w0 h0
      = FloatResult.image ((b.take (w * h).toNat).map (fun (c : Nat) => (c : ℚ) / 255)) w h := by
  obtain ⟨r1, r2, r3⟩ := pgmread_image file w0 h0 b w h hread
  have hmul : mulInt w h = some (w * h) := mulInt_of_range w h (by omega) (by omega)
  have hmal : malloc (w * h) 4 = some (List.replicate ((w * h).toNat * 4) 0) := by
    simp only [malloc]
    rw [if_neg (by omega)]
  simp only [pgmread_float, hread, hmul, hmal]
  rw [if_pos (by omega)]

theorem quantize_normalized (b : Nat) (hb : b ≤ 255) : quantize ((b : ℚ) / 255) = b := by
  have h0 : (0 : ℚ) ≤ (b : ℚ) / 255 := by positivity
  have h1 : (b : ℚ) / 255 ≤ 1 := by
    rw [div_le_one (by norm_num)]
    exact_mod_cast hb
  have hq := (quantize_mid _ h0 h1).1
  have he : (255 : ℚ) * ((b : ℚ) / 255) = ((b : Int) : ℚ) := by
    push_cast
    field_simp
  rw [he, Int.floor_intCast] at hq
  exact_mod_cast hq

/-- What `pgmread` returns on a file in the format of the grayscale writer without a
comment line. -/
theorem pgmread_written (w h : Int) (data : List Nat) (binsave w1 h1 : Int)
    (hw : 1 ≤ w) (hh : 1 ≤ h) (hr : w * h ≤ 2147483647)
    (hlen : (data.length : Int) = w * h) (hbytes : ∀ b ∈ data, b < 256) :
    pgmread (some (pgmFileFormat w h data none binsave)) w1 h1
      = PgmResult.image (data ++ List.replicate (7 * data.length) 0) w h := by
  have hpos : 0 < w * h := Int.mul_pos (by omega) (by omega)
  have hwr : w ≤ 2147483647 := by nlinarith
  have hhr : h ≤ 2147483647 := by nlinarith
  have hn : (w * h).toNat = data.length := by omega
  have hwf : (writerHeader w h none binsave).wellFormed = true :=
    writerHeader_wellFormed w h binsave (by omega) (by omega)
      ((inIntRange_iff w).2 ⟨by omega, hwr⟩) ((inIntRange_iff h).2 ⟨by omega, hhr⟩)
  by_cases hb : binsave = 1
  · have htag : (writerHeader w h none binsave).tag = 53 := by simp [writerHeader, hb]
    rw [pgmFileFormat_eq, if_pos hb, ← writerHeader_text,
      pgmread_header _ data w1 h1 hwf (Or.inl htag), htag]
    have hp := pgmPayload_binary w h data data.length hlen.symm (by omega)
    rw [if_neg (by omega), List.take_length] at hp
    exact hp
  · have htag : (writerHeader w h none binsave).tag = 50 := by simp [writerHeader, hb]
    match data, hlen, hbytes, hn with
    | [], hlen, _, _ => simp at hlen; omega
    | b :: rest, hlen, hbytes, hn =>
      have hts := writtenTokens_ok (b :: rest) hbytes
      have hchain : chainOk [32] (writtenTokens (b :: rest)) = true := by
        simp only [tokensOk, Bool.and_eq_true] at hts
        exact chainOk_of_tokensOk [32] (by decide) _ hts.1 hts.2
      rw [pgmFileFormat_eq, if_neg hb, ← writerHeader_text, writtenTokens_text b rest,
        pgmread_header _ _ w1 h1 hwf (Or.inr htag), htag]
      have hp := pgmPayload_ascii w h (writtenTokens (b :: rest)) [32] (by omega) (by omega)
        hr (by rw [writtenTokens_length]; omega) hchain
      have ht : (writtenTokens (b :: rest)).take (w * h).toNat = writtenTokens (b :: rest) := by
        rw [hn, ← writtenTokens_length (b :: rest), List.take_length]
      rw [ht, writtenTokens_samples (b :: rest) hbytes, hn] at hp
      exact hp

/-- What `pgmwrite_float` does on the floats `pgmread_float` makes of a buffer of
bytes: it hands `pgmwrite` the buffer itself. -/
theorem pgmwrite_float_normalized (openOk : Bool) (room : Nat) (w h : Int) (buf : List Nat)
    (comment : Option (List Nat)) (binsave : Int) (hlen : buf.length = (w * h).toNat)
    (hnn : 0 ≤ w * h) (hbytes : ∀ b ∈ buf, b < 256) :
    pgmwrite_float openOk room w h (buf.map (fun (c : Nat) => (c : ℚ) / 255)) comment binsave
      = pgmwrite openOk room w h buf comment binsave := by
  have hq : (buf.map (fun (c : Nat) => (c : ℚ) / 255)).map quantize = buf := by
    rw [List.map_map]
    have : ∀ c ∈ buf, (quantize ∘ fun (c : Nat) => (c : ℚ) / 255) c = id c := by
      intro c hc
      have hlt := hbytes c hc
      exact quantize_normalized c (by omega)
    rw [List.map_congr_left this, List.map_id]
  cases hm : mulInt w h with
  | none => simp [pgmwrite_float, pgmwrite, hm]
  | some numpix =>
    have hn : numpix = w * h := by
      unfold mulInt at hm
      split at hm
      · exact (Option.some.inj hm).symm
      · cases hm
    have hl : (buf.map (fun (c : Nat) => (c : ℚ) / 255)).length = numpix.toNat := by
      rw [List.length_map, hlen, hn]
    have hmal : malloc numpix 1 = some (List.replicate (numpix.toNat * 1) 0) := by
      simp only [malloc]
      rw [if_neg (by omega)]
    simp only [pgmwrite_float, hm, hmal]
    rw [if_neg (by omega), ← hl, List.take_length, hq]

/-- C20 (quantization inverts grayscale normalization).  Over exact rationals, for
every byte `b` in `0..255` the quantization of `pgmwrite_float` applied to `b/255` is
`b`.  Hence, whenever `pgmread` returns an image whose block holds bytes, with buffer
`buf`: `pgmread_float` returns floats `f` whose quantization is `buf`, sample by
sample; `pgmwrite_float` on `f` has the outcome of `pgmwrite` on `buf`, whatever the
comment, the mode and the fate of `fopen` and `fwrite`; for non-negative `w`, `h`, when
the file opens and `fwrite` is complete, `pgmwrite_float` on `f` returns 0 and the file
it writes is the file format carrying `buf` as its payload; and for `w, h ≥ 1` and no
comment, `pgmread` reads that written file back with the buffer `buf`. -/
theorem quantization_inverts_normalization :
    (∀ b : Nat, b ≤ 255 → quantize ((b : ℚ) / 255) = b)
      ∧ (∀ (file : Option (List Nat)) (w0 h0 : Int) (blk : List Nat) (w h : Int),
          pgmread file w0 h0 = PgmResult.image blk w h → (∀ b ∈ blk, b < 256) →
          ∃ (f : List ℚ) (buf : List Nat),
            pgmread_float file w0 h0 = FloatResult.image f w h
            ∧ (pgmread file w0 h0).buffer = some buf
            ∧ f.map quantize = buf
            ∧ (∀ (openOk : Bool) (room : Nat) (comment : Option (List Nat)) (binsave : Int),
                pgmwrite_float openOk room w h f comment binsave
                  = pgmwrite openOk room w h buf comment binsave)
            ∧ (∀ (room : Nat) (comment : Option (List Nat)) (binsave : Int),
                0 ≤ w → 0 ≤ h → (binsave = 1 → buf.length ≤ room) →
                pgmwrite_float true room w h f comment binsave
                  = WriteResult.ret 0 (some (pgmFileFormat w h buf comment binsave)))
            ∧ (∀ (room : Nat) (binsave w1 h1 : Int),
                1 ≤ w → 1 ≤ h → (binsave = 1 → buf.length ≤ room) →
                ∃ out : List Nat,
                  pgmwrite_float true room w h f none binsave = WriteResult.ret 0 (some out)
                  ∧ (pgmread (some out) w1 h1).buffer = some buf)) := by
  refine ⟨quantize_normalized, ?_⟩
  intro file w0 h0 blk w h hread hbytes
  obtain ⟨r1, r2, r3⟩ := pgmread_image file w0 h0 blk w h hread
  have hbuf : ∀ b ∈ blk.take (w * h).toNat, b < 256 := fun b hb =>
    hbytes b (List.mem_of_mem_take hb)
  have hlen : (blk.take (w * h).toNat).length = (w * h).toNat := by
    rw [List.length_take, r3]
    omega
  have hlenI : (((blk.take (w * h).toNat).length : Nat) : Int) = w * h := by omega
  have hq : ((blk.take (w * h).toNat).map (fun (c : Nat) => (c : ℚ) / 255)).map quantize
      = blk.take (w * h).toNat := by
    rw [List.map_map]
    have : ∀ c ∈ blk.take (w * h).toNat,
        (quantize ∘ fun (c : Nat) => (c : ℚ) / 255) c = id c := by
      intro c hc
      have hlt := hbuf c hc
      exact quantize_normalized c (by omega)
    rw [List.map_congr_left this, List.map_id]
  have hfile : ∀ (room : Nat) (comment : Option (List Nat)) (binsave : Int),
      0 ≤ w → 0 ≤ h → (binsave = 1 → (blk.take (w * h).toNat).length ≤ room) →
      pgmwrite_float true room w h
          ((blk.take (w * h).toNat).map (fun (c : Nat) => (c : ℚ) / 255)) comment binsave
        = WriteResult.ret 0
            (some (pgmFileFormat w h (blk.take (w * h).toNat) comment binsave)) := by
    intro room comment binsave hw hh hroom
    rw [pgmwrite_float_normalized true room w h _ comment binsave hlen r1 hbuf,
      pgmwrite_cases true room w h _ comment binsave hw hh hlenI,
      if_neg (by omega), if_neg (by decide)]
    by_cases hb : binsave = 1
    · rw [if_neg (by have := hroom hb; omega)]
    · rw [if_neg (fun hc => hb hc.1)]
  refine ⟨_, blk.take (w * h).toNat, pgmread_float_of_image file w0 h0 blk w h hread, ?_, hq,
    ?_, hfile, ?_⟩
  · rw [hread]
    rfl
  · intro openOk room comment binsave
    exact pgmwrite_float_normalized openOk room w h _ comment binsave hlen r1 hbuf
  · intro room binsave w1 h1 hw hh hroom
    refine ⟨_, hfile room none binsave (by omega) (by omega) hroom, ?_⟩
    rw [pgmread_written w h _ binsave w1 h1 hw hh r2 hlenI hbuf]
    generalize blk.take (w * h).toNat = buf at hlen
    simp only [PgmResult.buffer, ← hlen, List.take_left]

/-- A 2 by 1 image with the maximum value line 100, read as floats and written again in
binary and in ASCII; and the bytes 0, 51, 128 and 255. -/
theorem quantization_inverts_normalization_witness :
    (quantize ((0 : Nat) / 255) = 0 ∧ quantize ((51 : Nat) / 255) = 51
      ∧ quantize ((128 : Nat) / 255) = 128 ∧ quantize ((255 : Nat) / 255) = 255)
    ∧ ∃ f : List ℚ, pgmread_float (some (bytes "P5\n2 1\n100\n" ++ [51, 255])) 0 0
          = FloatResult.image f 2 1
        ∧ (pgmread (some (bytes "P5\n2 1\n100\n" ++ [51, 255])) 0 0).buffer
          = some (f.map quantize)
        ∧ f.map quantize = [51, 255]
        ∧ pgmwrite_float true 2 2 1 f none 1
          = WriteResult.ret 0 (some (bytes "P5\n2 1 \n255 \n" ++ [51, 255]))
        ∧ pgmwrite_float true 0 2 1 f none 0
          = WriteResult.ret 0 (some (bytes "P2\n2 1 \n255 \n51 255 "))
        ∧ (pgmread (some (bytes "P5\n2 1 \n255 \n" ++ [51, 255])) 0 0).buffer
          = some [51, 255] := by
  refine ⟨⟨quantization_inverts_normalization.1 0 (by decide),
      quantization_inverts_normalization.1 51 (by decide),
      quantization_inverts_normalization.1 128 (by decide),
      quantization_inverts_normalization.1 255 (by decide)⟩, ?_⟩
  obtain ⟨f, buf, h1, h2, h3, _, h5, _⟩ :=
    quantization_inverts_normalization.2 (some (bytes "P5\n2 1\n100\n" ++ [51, 255])) 0 0
      ([51, 255] ++ List.replicate 14 0) 2 1 (by decide) (by decide)
  have e : (pgmread (some (bytes "P5\n2 1\n100\n" ++ [51, 255])) 0 0).buffer
      = some [51, 255] := by decide
  have hb : buf = [51, 255] := by
    rw [e] at h2
    exact (Option.some.inj h2).symm
  subst hb
  refine ⟨f, h1, by rw [h3]; exact e, h3, ?_, ?_, by decide⟩
  · rw [h5 2 none 1 (by decide) (by decide) (by decide)]
    decide
  · rw [h5 0 none 0 (by decide) (by decide) (by decide)]
    decide

end Ppm
